import Mathlib

/-!
# Semi-sync replication master (`src/cluster/semi_sync_master.cc`)

A shallow embedding of the three components of the file:

* `AckContainer`       : the bounded quorum-ack tracker,
* `WaitingNodeManager` : the ordered registry of waiting nodes,
* `ReplSemiSyncMaster` : the coordinator state machine.

Log positions are `uint64_t` in the source; they are only compared and copied,
never added, so they are embedded as `Nat`.  Replica ids are `int` and are
embedded as `Int`.  Vectors are lists, indices are `Nat`.

Every operation of the coordinator runs under `lock_binlog_`, so each is one
function on the state; an operation that dereferences a null `node_manager_`
has no result (`none`).  `CommitTrx` releases the lock while its thread is
parked: it is embedded as a park step and a resume step, and what the other
threads do in between is a run of the step relation `EnvStep`.
-/

namespace SemiSync

/-! ## AckInfo / AckContainer -/

/-- One acknowledgment: the replica id (0 is reserved for "empty") and the
acknowledged log position. -/
structure AckInfo where
  server_id : Int
  log_pos : Nat
deriving DecidableEq, Repr

namespace AckInfo

/-- Modelled from the spec: `AckInfo::Reset` lives in the header, which is not
part of the sources; the spec describes an empty AckInfo as replica id 0 and
position 0. -/
def Reset (_a : AckInfo) : AckInfo := ⟨0, 0⟩

/-- Modelled from the spec: `AckInfo::Set` lives in the header; it stores the
given replica id and position. -/
def Set (_a : AckInfo) (server_id : Int) (log_pos : Nat) : AckInfo := ⟨server_id, log_pos⟩

end AckInfo

/-- The tracker: the slot array `ack_array_`, the floor `greatest_return_ack_`
and the scratch index `empty_slot_`. -/
structure AckContainer where
  ack_array_ : List AckInfo
  greatest_return_ack_ : AckInfo
  empty_slot_ : Nat
deriving DecidableEq, Repr

namespace AckContainer

/-- The loop of `AckContainer::RemoveAll` (lines 121-127) started at index `i`
over the remaining slots, threading `empty_slot_`. -/
def removeLoop (log_file_pos : Nat) : Nat → List AckInfo → Nat → List AckInfo × Nat
  | _, [], e => ([], e)
  | i, info :: rest, e =>
    if info.log_pos = log_file_pos then
      let r := removeLoop log_file_pos (i + 1) rest i
      (info.Reset :: r.1, r.2)
    else
      let r := removeLoop log_file_pos (i + 1) rest e
      (info :: r.1, r.2)

/-- `AckContainer::RemoveAll` (lines 120-128). -/
def RemoveAll (log_file_pos : Nat) (c : AckContainer) : AckContainer :=
  let r := removeLoop log_file_pos 0 c.ack_array_ c.empty_slot_
  { c with ack_array_ := r.1, empty_slot_ := r.2 }

/-- The first loop of `AckContainer::Insert` (lines 136-147) started at index
`i`.  The result is: whether the loop left through the early `return nullptr`
(a slot of `server_id` was found), the slots after the loop, and `empty_slot_`. -/
def scanSlots (server_id : Int) (log_file_pos : Nat) :
    Nat → List AckInfo → Nat → Bool × List AckInfo × Nat
  | _, [], e => (false, [], e)
  | i, info :: rest, e =>
    let e1 := if info.server_id = 0 then i else e
    if info.server_id = server_id then
      (true, (if info.log_pos < log_file_pos then { info with log_pos := log_file_pos }
              else info) :: rest, e1)
    else
      let r := scanSlots server_id log_file_pos (i + 1) rest e1
      (r.1, info :: r.2.1, r.2.2)

/-- The minimum search of `AckContainer::Insert` (lines 152-158): the pair
`(min_seq, ret_ack)` after the loop; `ret_ack` is the slot pointed to. -/
def minScan : List AckInfo → Nat × Option AckInfo → Nat × Option AckInfo
  | [], acc => acc
  | info :: rest, acc =>
    if info.server_id ≠ 0 ∧ info.log_pos < acc.1 then minScan rest (info.log_pos, some info)
    else minScan rest acc

/-- `AckContainer::Insert` up to (not including) the final write of line 174:
the returned pointer (`none` for `nullptr`, otherwise the floor it points to),
the flag `to_insert`, and the tracker at that point. -/
def InsertDecide (server_id : Int) (log_file_pos : Nat) (c : AckContainer) :
    Option AckInfo × Bool × AckContainer :=
  if log_file_pos < c.greatest_return_ack_.log_pos then (none, false, c)
  else
    let r := scanSlots server_id log_file_pos 0 c.ack_array_ c.ack_array_.length
    let c1 : AckContainer := { c with ack_array_ := r.2.1, empty_slot_ := r.2.2 }
    if r.1 then (none, false, c1)
    else if c1.empty_slot_ = c1.ack_array_.length then
      let m := minScan c1.ack_array_ (log_file_pos, none)
      let c2 : AckContainer :=
        match m.2 with
        | some ret_ack =>
          { c1 with greatest_return_ack_ :=
                      c1.greatest_return_ack_.Set ret_ack.server_id ret_ack.log_pos }
        | none =>
          { c1 with greatest_return_ack_ := c1.greatest_return_ack_.Set server_id log_file_pos }
      let c3 := RemoveAll c2.greatest_return_ack_.log_pos c2
      (some c3.greatest_return_ack_, decide (log_file_pos > c3.greatest_return_ack_.log_pos), c3)
    else (none, true, c1)

/-- `AckContainer::Insert` (lines 130-177).  The result is the returned pointer
(`none` for `nullptr`; a non-null result always points to the floor, whose
value is given) and the tracker after the call.  The write of line 174 is
`List.modify` at `empty_slot_`, which leaves the slots as they are for an index
out of range. -/
def Insert (server_id : Int) (log_file_pos : Nat) (c : AckContainer) :
    Option AckInfo × AckContainer :=
  let d := InsertDecide server_id log_file_pos c
  if d.2.1 then
    (d.1, { d.2.2 with
              ack_array_ := d.2.2.ack_array_.modify
                (fun slot => slot.Set server_id log_file_pos) d.2.2.empty_slot_ })
  else (d.1, d.2.2)

/-- The re-insertion loop of `AckContainer::Resize` (lines 103-109).  The flag
records whether some `Insert` returned a non-null pointer, that is whether
`*ackinfo` was assigned. -/
def refeed : List AckInfo → Bool × AckContainer → Bool × AckContainer
  | [], acc => acc
  | info :: rest, acc =>
    if info.server_id = 0 then refeed rest acc
    else
      let r := Insert info.server_id info.log_pos acc.2
      refeed rest (acc.1 || r.1.isSome, r.2)

/-- `AckContainer::Resize` (lines 96-112).  The result is the returned flag,
the value `*ackinfo` points to after the call (`none` when it was not
assigned; it always points to the floor), and the tracker.  The slots created
by `resize(size - 1)` are value-initialised, that is empty. -/
def Resize (size : Nat) (c : AckContainer) : Bool × Option AckInfo × AckContainer :=
  if size = 0 then (false, none, c)
  else if size - 1 = c.ack_array_.length then (true, none, c)
  else
    let old_ack_array := c.ack_array_
    let c0 : AckContainer := { c with ack_array_ := List.replicate (size - 1) ⟨0, 0⟩ }
    let r := refeed old_ack_array (false, c0)
    (true, if r.1 then some r.2.greatest_return_ack_ else none, r.2)

/-- `AckContainer::Clear` (lines 114-118). -/
def Clear (c : AckContainer) : AckContainer :=
  { c with ack_array_ := c.ack_array_.map AckInfo.Reset }

/-- A fresh tracker of the given capacity: every slot empty and the floor empty. -/
def fresh (capacity : Nat) : AckContainer :=
  { ack_array_ := List.replicate capacity ⟨0, 0⟩, greatest_return_ack_ := ⟨0, 0⟩,
    empty_slot_ := 0 }

/-- The floor position `greatest_return_ack_.log_pos`. -/
def floorPos (c : AckContainer) : Nat := c.greatest_return_ack_.log_pos

/-- Run a sequence of `Insert(replicaId, pos)` calls, dropping the results. -/
def runInserts (calls : List (Int × Nat)) (c : AckContainer) : AckContainer :=
  calls.foldl (fun acc call => (Insert call.1 call.2 acc).2) c

end AckContainer

/-! ## Specification-side notions for the tracker -/

/-- The distinct replica ids that occur in a sequence of calls. -/
def replicaIds (calls : List (Int × Nat)) : List Int := (calls.map Prod.fst).dedup

/-- The maximum position a replica has inserted (0 when it has inserted none). -/
def maxPos (calls : List (Int × Nat)) (id : Int) : Nat :=
  calls.foldl (fun m call => if call.1 = id then max m call.2 else m) 0

/-- The per-replica maximum inserted positions. -/
def maxima (calls : List (Int × Nat)) : List Nat := (replicaIds calls).map (maxPos calls)

/-- The `n`-th largest of the per-replica maxima, taken as 0 when there are
fewer than `n` replicas. -/
def nthLargest (n : Nat) (calls : List (Int × Nat)) : Nat :=
  ((maxima calls).insertionSort (· ≥ ·)).getD (n - 1) 0

/-- The number of distinct replicas that have inserted a position `≥ p`. -/
def ackersAtLeast (p : Nat) (calls : List (Int × Nat)) : Nat :=
  (((calls.filter (fun call => decide (p ≤ call.2))).map Prod.fst).dedup).length

/-- An operation on the tracker: an `Insert` or a `Resize` call. -/
inductive TrackerOp where
  | insert (server_id : Int) (log_file_pos : Nat)
  | resize (size : Nat)
deriving Repr

/-- The tracker after one operation. -/
def TrackerOp.apply : TrackerOp → AckContainer → AckContainer
  | .insert server_id log_file_pos, c => (AckContainer.Insert server_id log_file_pos c).2
  | .resize size, c => (AckContainer.Resize size c).2.2

/-- The tracker after a sequence of operations. -/
def runOps (ops : List TrackerOp) (c : AckContainer) : AckContainer :=
  ops.foldl (fun acc op => op.apply acc) c

/-- The operation inserts a non-zero replica id (a `Resize` always qualifies). -/
def TrackerOp.nonzero : TrackerOp → Prop
  | .insert server_id _ => server_id ≠ 0
  | .resize _ => True

/-! ## Auxiliary notions for the tracker proofs -/

/-- The slot cleared by `RemoveAll` when its position equals `p`. -/
def clearAt (p : Nat) (s : AckInfo) : AckInfo := if s.log_pos = p then ⟨0, 0⟩ else s

/-- The replica ids of the occupied slots, in slot order. -/
def occIds (arr : List AckInfo) : List Int :=
  (arr.filter (fun s => decide (s.server_id ≠ 0))).map AckInfo.server_id

/-- The minimum position held by the slots (0 when there is no slot). -/
def leastPos : List AckInfo → Nat
  | [] => 0
  | [s] => s.log_pos
  | s :: t => min s.log_pos (leastPos t)

/-- Every occupied slot holds a position at or above the floor. -/
def SlotsAboveFloor (c : AckContainer) : Prop :=
  ∀ s ∈ c.ack_array_, s.server_id ≠ 0 → c.floorPos ≤ s.log_pos

/-- The invariant that ties a tracker of quorum size `n` to the calls `h` made
on it: every occupied slot holds its replica's maximum position, at or above the
floor; occupants are distinct; every replica whose maximum is above the floor
occupies a slot; and a non-zero floor is acknowledged by `n` replicas. -/
structure TrackerInv (n : Nat) (h : List (Int × Nat)) (c : AckContainer) : Prop where
  len : c.ack_array_.length + 1 = n
  hist : ∀ s ∈ c.ack_array_, s.server_id ≠ 0 →
    (s.server_id, s.log_pos) ∈ h ∧ maxPos h s.server_id = s.log_pos ∧ c.floorPos ≤ s.log_pos
  nodup : (occIds c.ack_array_).Nodup
  above : ∀ x, c.floorPos < maxPos h x → x ∈ occIds c.ack_array_
  quorum : c.floorPos = 0 ∨
    n ≤ (replicaIds h).countP (fun x => decide (c.floorPos ≤ maxPos h x))

/-! ## WaitingNodeManager -/

/-- A waiting node: the position waited for and the number of threads parked on
it.  The type is declared in the header, which is not part of the sources; the
counter `waiters` is embedded as `Int`, so that a decrement at 0 gives a
non-zero value as it does for a C++ integer.  The condition variable `cond` is
represented by the log `notified_` of the coordinator. -/
structure WaitingNode where
  log_pos : Nat
  waiters : Int
deriving DecidableEq, Repr

namespace WaitingNodeManager

/-- Modelled from the spec: `std::set::find` under the comparator declared in
the header, which is not part of the sources; the registry is ordered by
position and holds one node per position, so this is the node of that position. -/
def setFind (log_file_pos : Nat) (l : List WaitingNode) : Option WaitingNode :=
  l.find? (fun n => decide (n.log_pos = log_file_pos))

/-- Modelled from the spec: `std::set::emplace` under the comparator declared in
the header; the node is put at its place in ascending order of position unless a
node of the same position is present. -/
def setEmplace (n : WaitingNode) : List WaitingNode → List WaitingNode
  | [] => [n]
  | x :: xs =>
    if n.log_pos < x.log_pos then n :: x :: xs
    else if x.log_pos < n.log_pos then x :: setEmplace n xs
    else x :: xs

/-- `WaitingNodeManager::InsertWaitingNode` (lines 14-38) on `waiting_node_list_`. -/
def InsertWaitingNode (log_file_pos : Nat) (l : List WaitingNode) : Bool × List WaitingNode :=
  let ins_node : WaitingNode := ⟨log_file_pos, 0⟩
  let is_insert : Bool :=
    match l.getLast? with
    | none => true
    | some last_node =>
      if last_node.log_pos < log_file_pos then true
      else (setFind log_file_pos l).isNone
  if is_insert then (true, setEmplace ins_node l) else (false, l)

/-- `WaitingNodeManager::ClearWaitingNodes` (lines 40-52). -/
def ClearWaitingNodes (ack_log_file_pos : Nat) : List WaitingNode → List WaitingNode
  | [] => []
  | item :: rest =>
    if item.log_pos > ack_log_file_pos then item :: rest
    else if item.waiters ≠ 0 then item :: ClearWaitingNodes ack_log_file_pos rest
    else ClearWaitingNodes ack_log_file_pos rest

/-- The loop of `WaitingNodeManager::FindWaitingNode` (lines 56-61). -/
def findLoop (log_file_pos : Nat) : List WaitingNode → Option WaitingNode
  | [] => none
  | item :: rest => if item.log_pos ≥ log_file_pos then some item else findLoop log_file_pos rest

/-- `WaitingNodeManager::FindWaitingNode` (lines 54-67); `none` is `nullptr`. -/
def FindWaitingNode (log_file_pos : Nat) (l : List WaitingNode) : Option WaitingNode :=
  match findLoop log_file_pos l with
  | some item => some item
  | none => l.head?

/-- `WaitingNodeManager::SignalWaitingNodesUpTo` (lines 69-82): the positions of
the nodes whose condition variable is notified, in order, and `ret_num`. -/
def SignalWaitingNodesUpTo (log_file_pos : Nat) : List WaitingNode → List Nat × Nat
  | [] => ([], 0)
  | item :: rest =>
    if item.log_pos > log_file_pos then ([], 0)
    else
      let r := SignalWaitingNodesUpTo log_file_pos rest
      (item.log_pos :: r.1, r.2 + 1)

/-- `WaitingNodeManager::SignalWaitingNodesAll` (lines 84-94): the positions of
the nodes notified and `ret_num`. -/
def SignalWaitingNodesAll : List WaitingNode → List Nat × Nat
  | [] => ([], 0)
  | item :: rest =>
    let r := SignalWaitingNodesAll rest
    (item.log_pos :: r.1, r.2 + 1)

/-- The effect of `trx_node->waiters++` / `trx_node->waiters--` on the registry;
the node is identified by its position (one node per position). -/
def addWaiters (trx_node : Nat) (delta : Int) (l : List WaitingNode) : List WaitingNode :=
  l.map (fun n => if n.log_pos = trx_node then { n with waiters := n.waiters + delta } else n)

/-- The ordering invariant of `waiting_node_list_` (a `std::set`): strictly
ascending positions. -/
def Ordered (l : List WaitingNode) : Prop :=
  l.Pairwise (fun a b => a.log_pos < b.log_pos)

end WaitingNodeManager

/-! ## ReplSemiSyncMaster -/

/-- Modelled from the spec: `FeedSlaveThread` is declared outside the sources; a
replica handle is known by its identity and by whether `GetConn()` is non-null. -/
structure FeedSlaveThread where
  addr : Nat
  has_conn : Bool
deriving DecidableEq, Repr

/-- The result of `std::condition_variable::wait_for`. -/
inductive cv_status where
  | no_timeout
  | timeout
deriving DecidableEq, Repr

/-- The coordinator.  `node_manager_` is a pointer (`none` is `nullptr`);
`notified_` is the log of the positions of the nodes whose condition variable
has been notified, oldest first. -/
structure ReplSemiSyncMaster where
  init_done_ : Bool
  semi_sync_enabled_ : Bool
  state_ : Bool
  wait_file_pos_ : Nat
  max_handle_sequence_ : Nat
  semi_sync_wait_for_slave_count_ : Nat
  semi_sync_auto_fall_back_ : Bool
  slave_threads_ : List FeedSlaveThread
  node_manager_ : Option (List WaitingNode)
  ack_container_ : AckContainer
  notified_ : List Nat
deriving DecidableEq, Repr

namespace ReplSemiSyncMaster

open WaitingNodeManager

/-- Modelled from the spec: `IsSemiSyncEnabled` is defined in the header; it
reads the enabled flag. -/
def IsSemiSyncEnabled (s : ReplSemiSyncMaster) : Bool := s.semi_sync_enabled_

/-- Modelled from the spec: `IsOn` is defined in the header; it reads the
Sync/Async flag `state_` (true is Sync). -/
def IsOn (s : ReplSemiSyncMaster) : Bool := s.state_

/-- Modelled from the spec: `setSemiSyncEnabled` is defined in the header; it
writes the enabled flag. -/
def setSemiSyncEnabled (b : Bool) (s : ReplSemiSyncMaster) : ReplSemiSyncMaster :=
  { s with semi_sync_enabled_ := b }

/-- `ReplSemiSyncMaster::switchOff` (lines 360-366); `none` when `node_manager_`
is null (the call dereferences it). -/
def switchOff (s : ReplSemiSyncMaster) : Option ReplSemiSyncMaster :=
  match s.node_manager_ with
  | none => none
  | some reg =>
    some { s with state_ := false, wait_file_pos_ := 0, max_handle_sequence_ := 0,
                  notified_ := s.notified_ ++ (SignalWaitingNodesAll reg).1 }

/-- `ReplSemiSyncMaster::trySwitchOn` (lines 352-358). -/
def trySwitchOn (log_file_pos : Nat) (s : ReplSemiSyncMaster) : ReplSemiSyncMaster :=
  if s.semi_sync_enabled_ then
    if log_file_pos > s.max_handle_sequence_ then { s with state_ := true } else s
  else s

/-- `ReplSemiSyncMaster::reportReplyBinlog` (lines 338-350); `none` when
`node_manager_` is null at line 348. -/
def reportReplyBinlog (log_file_pos : Nat) (s : ReplSemiSyncMaster) :
    Option ReplSemiSyncMaster :=
  if !s.IsSemiSyncEnabled then some s
  else
    let s1 := if !s.IsOn then trySwitchOn log_file_pos s else s
    match s1.node_manager_ with
    | none => none
    | some reg =>
      let s2 := { s1 with notified_ := s1.notified_ ++ (SignalWaitingNodesUpTo log_file_pos reg).1 }
      if log_file_pos > s2.wait_file_pos_ then some { s2 with wait_file_pos_ := log_file_pos }
      else some s2

/-- `ReplSemiSyncMaster::EnableMaster` (lines 197-213); `new` does not return
null, so the allocation branch always succeeds. -/
def EnableMaster (s : ReplSemiSyncMaster) : Int × ReplSemiSyncMaster :=
  let s1 :=
    if !s.IsSemiSyncEnabled then
      let s0 := if s.node_manager_.isNone then { s with node_manager_ := some [] } else s
      setSemiSyncEnabled true s0
    else s
  (0, { s1 with state_ := decide (s1.slave_threads_.length ≥ s1.semi_sync_wait_for_slave_count_) })

/-- `ReplSemiSyncMaster::DisableMaster` (lines 215-231). -/
def DisableMaster (s : ReplSemiSyncMaster) : Option (Int × ReplSemiSyncMaster) :=
  if s.IsSemiSyncEnabled then
    match switchOff s with
    | none => none
    | some s1 =>
      let s2 := { s1 with node_manager_ := none }
      let s3 := setSemiSyncEnabled false s2
      some (0, { s3 with ack_container_ := s3.ack_container_.Clear })
  else some (0, s)

/-- `ReplSemiSyncMaster::AddSlave` (lines 233-240).  The handle is a pointer
(`none` is `nullptr`).  The test of line 235 is a conjunction: for a null
pointer its second operand dereferences the pointer (`none`, undefined); for
a non-null pointer it is false. -/
def AddSlave (slave_thread_ptr : Option FeedSlaveThread) (s : ReplSemiSyncMaster) :
    Option ReplSemiSyncMaster :=
  match slave_thread_ptr with
  | none => none
  | some t => some { s with slave_threads_ := s.slave_threads_ ++ [t] }

/-- `ReplSemiSyncMaster::RemoveSlave` (lines 242-255), with the same test as
`AddSlave` at line 244. -/
def RemoveSlave (slave_thread_ptr : Option FeedSlaveThread) (s : ReplSemiSyncMaster) :
    Option ReplSemiSyncMaster :=
  match slave_thread_ptr with
  | none => none
  | some t =>
    let s1 := { s with slave_threads_ := s.slave_threads_.filter (fun u => decide (u.addr ≠ t.addr)) }
    if !s1.IsSemiSyncEnabled || !s1.IsOn then some s1
    else if s1.slave_threads_.length < s1.semi_sync_wait_for_slave_count_ then switchOff s1
    else some s1

/-- Where `CommitTrx` stands when it stops running under the lock for the first
time: returned at line 260 or 263, returned at line 273, parked on the node
`trx_node` at line 278, or stopped on a null `node_manager_`. -/
inductive ParkResult where
  | not_waited (s : ReplSemiSyncMaster)
  | lookup_miss (s : ReplSemiSyncMaster)
  | parked (trx_node : Nat) (s : ReplSemiSyncMaster)
  | fault
deriving DecidableEq, Repr

/-- `ReplSemiSyncMaster::CommitTrx`, lines 257-278: up to the point where the
thread releases the lock inside `wait_for`. -/
def CommitTrxPark (trx_wait_binlog_pos : Nat) (s : ReplSemiSyncMaster) : ParkResult :=
  if !s.IsSemiSyncEnabled || !s.IsOn then .not_waited s
  else if trx_wait_binlog_pos ≤ s.wait_file_pos_ then .not_waited s
  else
    match s.node_manager_ with
    | none => .fault
    | some reg =>
      let r := InsertWaitingNode trx_wait_binlog_pos reg
      match FindWaitingNode trx_wait_binlog_pos r.2 with
      | none => .lookup_miss { s with node_manager_ := some r.2 }
      | some trx_node =>
        .parked trx_node.log_pos
          { s with node_manager_ := some (addWaiters trx_node.log_pos 1 r.2) }

/-- `ReplSemiSyncMaster::CommitTrx`, lines 278-293: from the moment `wait_for`
returns `cause` with the lock re-acquired, in the state `s` found then.  `none`
when `node_manager_` is null or `trx_node` is no longer registered (the pointer
dangles). -/
def CommitTrxResume (cause : cv_status) (trx_wait_binlog_pos : Nat) (trx_node : Nat)
    (s : ReplSemiSyncMaster) : Option (Bool × ReplSemiSyncMaster) :=
  match s.node_manager_ with
  | none => none
  | some reg =>
    match setFind trx_node reg with
    | none => none
    | some node =>
      let s1 := { s with node_manager_ := some (addWaiters trx_node (-1) reg) }
      match (if cause = cv_status.timeout then switchOff s1 else some s1) with
      | none => none
      | some s2 =>
        let s3 :=
          if s2.max_handle_sequence_ < trx_wait_binlog_pos then
            { s2 with max_handle_sequence_ := trx_wait_binlog_pos }
          else s2
        let s4 :=
          if node.waiters - 1 = 0 then
            { s3 with node_manager_ := s3.node_manager_.map (ClearWaitingNodes trx_wait_binlog_pos) }
          else s3
        some (true, s4)

/-- `ReplSemiSyncMaster::CommitTrx` (lines 257-294).  While the thread is parked
the lock is released; `wait` gives, from the state at parking, the result of
`wait_for` and the state found when the lock is re-acquired. -/
def CommitTrx (trx_wait_binlog_pos : Nat)
    (wait : ReplSemiSyncMaster → cv_status × ReplSemiSyncMaster) (s : ReplSemiSyncMaster) :
    Option (Bool × ReplSemiSyncMaster) :=
  match CommitTrxPark trx_wait_binlog_pos s with
  | .not_waited s1 => some (false, s1)
  | .lookup_miss s1 => some (false, s1)
  | .parked trx_node s1 =>
    CommitTrxResume (wait s1).1 trx_wait_binlog_pos trx_node (wait s1).2
  | .fault => none

/-- `ReplSemiSyncMaster::HandleAck` (lines 296-307). -/
def HandleAck (server_id : Int) (log_file_pos : Nat) (s : ReplSemiSyncMaster) :
    Option ReplSemiSyncMaster :=
  if s.semi_sync_wait_for_slave_count_ = 1 then reportReplyBinlog log_file_pos s
  else
    let r := s.ack_container_.Insert server_id log_file_pos
    let s1 := { s with ack_container_ := r.2 }
    match r.1 with
    | some ack => reportReplyBinlog ack.log_pos s1
    | none => some s1

/-- `ReplSemiSyncMaster::SetWaitSlaveCount` (lines 309-330). -/
def SetWaitSlaveCount (new_value : Nat) (s : ReplSemiSyncMaster) :
    Option (Bool × ReplSemiSyncMaster) :=
  let new_value := if new_value = 0 then s.slave_threads_.length / 2 + 1 else new_value
  let r := s.ack_container_.Resize new_value
  let s1 := { s with ack_container_ := r.2.2 }
  if r.1 then
    match (match r.2.1 with
           | some ackinfo => reportReplyBinlog ackinfo.log_pos s1
           | none => some s1) with
    | none => none
    | some s2 => some (true, { s2 with semi_sync_wait_for_slave_count_ := new_value })
  else some (false, s1)

/-- `ReplSemiSyncMaster::SetAutoFallBack` (lines 332-336). -/
def SetAutoFallBack (new_value : Bool) (s : ReplSemiSyncMaster) : ReplSemiSyncMaster :=
  { s with semi_sync_auto_fall_back_ := new_value }

/-- `ReplSemiSyncMaster::Initalize` (lines 179-190) on the two fields of the
configuration that it reads. -/
def Initalize (semi_sync_wait_for_slave_count : Nat) (semi_sync_enable : Bool)
    (s : ReplSemiSyncMaster) : Option (Int × ReplSemiSyncMaster) :=
  if s.init_done_ then some (1, s)
  else
    let s1 := { s with init_done_ := true }
    match SetWaitSlaveCount semi_sync_wait_for_slave_count s1 with
    | none => none
    | some r => if semi_sync_enable then some (EnableMaster r.2) else DisableMaster r.2

/-- A coordinator state with the given flags, positions and registry, quorum
size 2, no replica, a fresh tracker of one slot and an empty notification log;
used for concrete instances. -/
def sample (enabled sync : Bool) (wait_file_pos max_handle_sequence : Nat)
    (reg : List WaitingNode) : ReplSemiSyncMaster :=
  { init_done_ := true, semi_sync_enabled_ := enabled, state_ := sync,
    wait_file_pos_ := wait_file_pos, max_handle_sequence_ := max_handle_sequence,
    semi_sync_wait_for_slave_count_ := 2, semi_sync_auto_fall_back_ := false,
    slave_threads_ := [], node_manager_ := some reg, ack_container_ := AckContainer.fresh 1,
    notified_ := [] }

/-- The representation invariant of the coordinator: the registry, when
allocated, is in ascending order, and it is allocated while the coordinator is
enabled. -/
def WellFormed (s : ReplSemiSyncMaster) : Prop :=
  (∀ reg, s.node_manager_ = some reg → Ordered reg) ∧
    (s.semi_sync_enabled_ = true → ∃ reg, s.node_manager_ = some reg)

/-- The waiter count of the node of position `k` (0 when no such node is
registered). -/
def waitersOf (k : Nat) (l : List WaitingNode) : Int :=
  match setFind k l with
  | some node => node.waiters
  | none => 0

/-- One step, atomic under `lock_binlog_`, of another thread while some thread
is parked inside `CommitTrx`.  A configuration is the coordinator state and the
positions of the nodes the other threads are parked on.  The steps are the
public operations other than `DisableMaster` and `Initalize`, with `CommitTrx`
split into its park and resume steps; a thread resumes on a node only after it
has parked on it. -/
inductive EnvStep :
    ReplSemiSyncMaster × List Nat → ReplSemiSyncMaster × List Nat → Prop where
  | handleAck (server_id : Int) (log_file_pos : Nat) (s s2 : ReplSemiSyncMaster)
      (others : List Nat) :
      HandleAck server_id log_file_pos s = some s2 → EnvStep (s, others) (s2, others)
  | setWaitSlaveCount (new_value : Nat) (s : ReplSemiSyncMaster)
      (r : Bool × ReplSemiSyncMaster) (others : List Nat) :
      SetWaitSlaveCount new_value s = some r → EnvStep (s, others) (r.2, others)
  | addSlave (t : Option FeedSlaveThread) (s s2 : ReplSemiSyncMaster) (others : List Nat) :
      AddSlave t s = some s2 → EnvStep (s, others) (s2, others)
  | removeSlave (t : Option FeedSlaveThread) (s s2 : ReplSemiSyncMaster) (others : List Nat) :
      RemoveSlave t s = some s2 → EnvStep (s, others) (s2, others)
  | enableMaster (s : ReplSemiSyncMaster) (others : List Nat) :
      EnvStep (s, others) ((EnableMaster s).2, others)
  | setAutoFallBack (b : Bool) (s : ReplSemiSyncMaster) (others : List Nat) :
      EnvStep (s, others) (SetAutoFallBack b s, others)
  | commitNotWaited (pos : Nat) (s s2 : ReplSemiSyncMaster) (others : List Nat) :
      CommitTrxPark pos s = .not_waited s2 → EnvStep (s, others) (s2, others)
  | commitLookupMiss (pos : Nat) (s s2 : ReplSemiSyncMaster) (others : List Nat) :
      CommitTrxPark pos s = .lookup_miss s2 → EnvStep (s, others) (s2, others)
  | commitPark (pos n : Nat) (s s2 : ReplSemiSyncMaster) (others : List Nat) :
      CommitTrxPark pos s = .parked n s2 → EnvStep (s, others) (s2, n :: others)
  | commitResume (cause : cv_status) (pos n : Nat) (s : ReplSemiSyncMaster)
      (r : Bool × ReplSemiSyncMaster) (others : List Nat) :
      n ∈ others → CommitTrxResume cause pos n s = some r →
      EnvStep (s, others) (r.2, others.erase n)

/-- A finite run of steps of other threads. -/
def EnvRun (x y : ReplSemiSyncMaster × List Nat) : Prop :=
  Relation.ReflTransGen EnvStep x y

/-- The waiter counts of the registry account for the threads parked on the
nodes of the positions `parked`: every position has at least as many waiters as
threads parked on it. -/
def Accounted (parked : List Nat) (s : ReplSemiSyncMaster) : Prop :=
  ∀ reg, s.node_manager_ = some reg → ∀ k, (parked.count k : Int) ≤ waitersOf k reg

/-- The invariant of a configuration while a thread is parked on the node of
position `n`: the coordinator is enabled, its registry is allocated and in
ascending order, and the waiter counts account for that thread and the others. -/
def ParkedOn (n : Nat) (x : ReplSemiSyncMaster × List Nat) : Prop :=
  x.1.semi_sync_enabled_ = true ∧
    ∃ reg, x.1.node_manager_ = some reg ∧ Ordered reg ∧
      ∀ k, (((n :: x.2).count k : Nat) : Int) ≤ waitersOf k reg

/-- Run a sequence of `HandleAck(replicaId, pos)` calls in order; `none` as soon
as one of them has no result. -/
def runHandleAcks : List (Int × Nat) → ReplSemiSyncMaster → Option ReplSemiSyncMaster
  | [], s => some s
  | call :: rest, s =>
    match HandleAck call.1 call.2 s with
    | none => none
    | some s2 => runHandleAcks rest s2

/-- The condition under which `RemoveSlave` of the handle `t` calls `switchOff`
(lines 249-254): enabled, in Sync mode, and fewer live replicas left than the
quorum size. -/
def removalSwitchesOff (t : FeedSlaveThread) (s : ReplSemiSyncMaster) : Prop :=
  s.semi_sync_enabled_ = true ∧ s.state_ = true ∧
    (s.slave_threads_.filter (fun u => decide (u.addr ≠ t.addr))).length
      < s.semi_sync_wait_for_slave_count_

/-- The condition under which `CommitTrx` returns at line 260 or 263. -/
def notWaited (trx_wait_binlog_pos : Nat) (s : ReplSemiSyncMaster) : Prop :=
  s.semi_sync_enabled_ = false ∨ s.state_ = false ∨ trx_wait_binlog_pos ≤ s.wait_file_pos_

end ReplSemiSyncMaster

end SemiSync

namespace SemiSync

open AckContainer WaitingNodeManager ReplSemiSyncMaster


/-! ## Loop lemmas for the tracker -/

theorem removeLoop_fst (p : Nat) (arr : List AckInfo) (i e : Nat) :
    (removeLoop p i arr e).1 = arr.map (clearAt p) := by
  induction arr generalizing i e with
  | nil => rfl
  | cons a t ih =>
    by_cases h : a.log_pos = p
    · simp [removeLoop, h, ih, clearAt, AckInfo.Reset]
    · simp [removeLoop, h, ih, clearAt]

theorem removeLoop_snd_none (p : Nat) (arr : List AckInfo) (i e : Nat)
    (h : ∀ s ∈ arr, s.log_pos ≠ p) : (removeLoop p i arr e).2 = e := by
  induction arr generalizing i e with
  | nil => rfl
  | cons a t ih =>
    have ha : a.log_pos ≠ p := h a (List.mem_cons_self _ _)
    simp only [removeLoop, ha, if_false]
    exact ih _ _ (fun s hs => h s (List.mem_cons_of_mem _ hs))

theorem removeLoop_snd_some (p : Nat) (arr : List AckInfo) (i e : Nat)
    (h : ∃ s ∈ arr, s.log_pos = p) :
    ∃ k s, (removeLoop p i arr e).2 = i + k ∧ arr[k]? = some s ∧ s.log_pos = p := by
  induction arr generalizing i e with
  | nil => simp at h
  | cons a t ih =>
    by_cases ht : ∃ s ∈ t, s.log_pos = p
    · obtain ⟨k, s, hk, hs, hp⟩ := ih (i + 1) (if a.log_pos = p then i else e) ht
      refine ⟨k + 1, s, ?_, by simpa using hs, hp⟩
      by_cases ha : a.log_pos = p
      · simp only [removeLoop, ha, if_true] at hk ⊢
        omega
      · simp only [removeLoop, ha, if_false] at hk ⊢
        omega
    · have ht2 : ∀ s ∈ t, s.log_pos ≠ p := fun s hs hp => ht ⟨s, hs, hp⟩
      have ha : a.log_pos = p := by
        obtain ⟨s, hs, hp⟩ := h
        rcases List.mem_cons.1 hs with rfl | hs
        · exact hp
        · exact absurd hp (ht2 s hs)
      refine ⟨0, a, ?_, by simp, ha⟩
      simp only [removeLoop, ha, if_true]
      exact removeLoop_snd_none p t _ _ ht2

theorem scanSlots_notfound (id : Int) (p : Nat) (arr : List AckInfo) (i e : Nat)
    (h : ∀ s ∈ arr, s.server_id ≠ id) :
    (scanSlots id p i arr e).1 = false ∧ (scanSlots id p i arr e).2.1 = arr := by
  induction arr generalizing i e with
  | nil => exact ⟨rfl, rfl⟩
  | cons a t ih =>
    have ha : a.server_id ≠ id := h a (List.mem_cons_self _ _)
    have := ih (i + 1) (if a.server_id = 0 then i else e)
      (fun s hs => h s (List.mem_cons_of_mem _ hs))
    simp only [scanSlots, ha, if_false]
    exact ⟨this.1, by rw [this.2]⟩

theorem scanSlots_empty_none (id : Int) (p : Nat) (arr : List AckInfo) (i e : Nat)
    (h : ∀ s ∈ arr, s.server_id ≠ id) (hz : ∀ s ∈ arr, s.server_id ≠ 0) :
    (scanSlots id p i arr e).2.2 = e := by
  induction arr generalizing i e with
  | nil => rfl
  | cons a t ih =>
    have ha : a.server_id ≠ id := h a (List.mem_cons_self _ _)
    have ha0 : a.server_id ≠ 0 := hz a (List.mem_cons_self _ _)
    simp only [scanSlots, ha, ha0, if_false]
    exact ih _ _ (fun s hs => h s (List.mem_cons_of_mem _ hs))
      (fun s hs => hz s (List.mem_cons_of_mem _ hs))

theorem scanSlots_empty_some (id : Int) (p : Nat) (arr : List AckInfo) (i e : Nat)
    (h : ∀ s ∈ arr, s.server_id ≠ id) (hz : ∃ s ∈ arr, s.server_id = 0) :
    ∃ k s, (scanSlots id p i arr e).2.2 = i + k ∧ arr[k]? = some s ∧ s.server_id = 0 := by
  induction arr generalizing i e with
  | nil => simp at hz
  | cons a t ih =>
    have ha : a.server_id ≠ id := h a (List.mem_cons_self _ _)
    have ht : ∀ s ∈ t, s.server_id ≠ id := fun s hs => h s (List.mem_cons_of_mem _ hs)
    by_cases hzt : ∃ s ∈ t, s.server_id = 0
    · obtain ⟨k, s, hk, hs, h0⟩ := ih (i + 1) (if a.server_id = 0 then i else e) ht hzt
      refine ⟨k + 1, s, ?_, by simpa using hs, h0⟩
      simp only [scanSlots, ha, if_false]
      omega
    · have hzt2 : ∀ s ∈ t, s.server_id ≠ 0 := fun s hs h0 => hzt ⟨s, hs, h0⟩
      have ha0 : a.server_id = 0 := by
        obtain ⟨s, hs, h0⟩ := hz
        rcases List.mem_cons.1 hs with rfl | hs
        · exact h0
        · exact absurd h0 (hzt2 s hs)
      refine ⟨0, a, ?_, by simp, ha0⟩
      have hs0 : (scanSlots id p i (a :: t) e).2.2 = (scanSlots id p (i + 1) t i).2.2 := by
        rw [scanSlots, if_neg ha, if_pos ha0]
      rw [hs0]
      exact scanSlots_empty_none id p t _ _ ht hzt2

theorem scanSlots_found (id : Int) (p : Nat) (arr : List AckInfo) (i e : Nat)
    (h : ∃ s ∈ arr, s.server_id = id) :
    ∃ pre s post, arr = pre ++ s :: post ∧ s.server_id = id ∧
      (scanSlots id p i arr e).1 = true ∧
      (scanSlots id p i arr e).2.1 = pre ++ ⟨id, max s.log_pos p⟩ :: post := by
  induction arr generalizing i e with
  | nil => simp at h
  | cons a t ih =>
    by_cases ha : a.server_id = id
    · refine ⟨[], a, t, rfl, ha, ?_, ?_⟩
      · simp [scanSlots, ha]
      · simp only [scanSlots, ha, if_true, List.nil_append]
        by_cases hlt : a.log_pos < p
        · simp [hlt, ha, Nat.max_eq_right (Nat.le_of_lt hlt)]
        · have hle : p ≤ a.log_pos := Nat.le_of_not_lt hlt
          simp only [hlt, if_false, Nat.max_eq_left hle]
          cases a
          simp_all
    · have ht : ∃ s ∈ t, s.server_id = id := by
        obtain ⟨s, hs, hid⟩ := h
        rcases List.mem_cons.1 hs with rfl | hs
        · exact absurd hid ha
        · exact ⟨s, hs, hid⟩
      obtain ⟨pre, s, post, harr, hid, h1, h2⟩ := ih (i + 1) (if a.server_id = 0 then i else e) ht
      refine ⟨a :: pre, s, post, by simp [harr], hid, ?_, ?_⟩
      · simp only [scanSlots, ha, if_false]
        exact h1
      · simp only [scanSlots, ha, if_false, h2, List.cons_append]

theorem minScan_le (arr : List AckInfo) (acc : Nat × Option AckInfo) :
    (minScan arr acc).1 ≤ acc.1 ∧
      ∀ s ∈ arr, s.server_id ≠ 0 → (minScan arr acc).1 ≤ s.log_pos := by
  induction arr generalizing acc with
  | nil => exact ⟨Nat.le_refl _, fun s hs => absurd hs (List.not_mem_nil _)⟩
  | cons a t ih =>
    by_cases hc : a.server_id ≠ 0 ∧ a.log_pos < acc.1
    · have := ih (a.log_pos, some a)
      rw [minScan, if_pos hc]
      refine ⟨Nat.le_trans this.1 (Nat.le_of_lt hc.2), fun s hs h0 => ?_⟩
      rcases List.mem_cons.1 hs with rfl | hs
      · exact this.1
      · exact this.2 s hs h0
    · have := ih acc
      rw [minScan, if_neg hc]
      refine ⟨this.1, fun s hs h0 => ?_⟩
      rcases List.mem_cons.1 hs with rfl | hs
      · have : acc.1 ≤ s.log_pos := by
          by_contra hlt
          exact hc ⟨h0, Nat.lt_of_not_le hlt⟩
        exact Nat.le_trans (ih acc).1 this
      · exact this.2 s hs h0

theorem minScan_cases (arr : List AckInfo) (acc : Nat × Option AckInfo) :
    minScan arr acc = acc ∨
      ∃ s ∈ arr, s.server_id ≠ 0 ∧ s.log_pos < acc.1 ∧ minScan arr acc = (s.log_pos, some s) := by
  induction arr generalizing acc with
  | nil => exact Or.inl rfl
  | cons a t ih =>
    by_cases hc : a.server_id ≠ 0 ∧ a.log_pos < acc.1
    · rw [minScan, if_pos hc]
      rcases ih (a.log_pos, some a) with h | ⟨s, hs, h0, hlt, heq⟩
      · exact Or.inr ⟨a, List.mem_cons_self _ _, hc.1, hc.2, h⟩
      · exact Or.inr ⟨s, List.mem_cons_of_mem _ hs, h0, Nat.lt_trans hlt hc.2, heq⟩
    · rw [minScan, if_neg hc]
      rcases ih acc with h | ⟨s, hs, h0, hlt, heq⟩
      · exact Or.inl h
      · exact Or.inr ⟨s, List.mem_cons_of_mem _ hs, h0, hlt, heq⟩

/-! ## The four outcomes of `Insert` -/

theorem Insert_stale (id : Int) (p : Nat) (c : AckContainer)
    (hp : p < c.greatest_return_ack_.log_pos) : AckContainer.Insert id p c = (none, c) := by
  simp [AckContainer.Insert, InsertDecide, hp]

theorem Insert_found (id : Int) (p : Nat) (c : AckContainer)
    (hp : ¬ p < c.greatest_return_ack_.log_pos) (hid : ∃ s ∈ c.ack_array_, s.server_id = id) :
    ∃ pre s post e, c.ack_array_ = pre ++ s :: post ∧ s.server_id = id ∧
      AckContainer.Insert id p c = (none, ⟨pre ++ ⟨id, max s.log_pos p⟩ :: post, c.greatest_return_ack_, e⟩) := by
  obtain ⟨pre, s, post, harr, hs, h1, h2⟩ :=
    scanSlots_found id p c.ack_array_ 0 c.ack_array_.length hid
  refine ⟨pre, s, post, (scanSlots id p 0 c.ack_array_ c.ack_array_.length).2.2, harr, hs, ?_⟩
  simp only [AckContainer.Insert, InsertDecide, if_neg hp, h1, h2, if_true, Bool.false_eq_true, if_false]

theorem Insert_free (id : Int) (p : Nat) (c : AckContainer)
    (hp : ¬ p < c.greatest_return_ack_.log_pos) (hid : ∀ s ∈ c.ack_array_, s.server_id ≠ id)
    (hz : ∃ s ∈ c.ack_array_, s.server_id = 0) :
    ∃ k s, c.ack_array_[k]? = some s ∧ s.server_id = 0 ∧
      AckContainer.Insert id p c = (none, ⟨c.ack_array_.set k ⟨id, p⟩, c.greatest_return_ack_, k⟩) := by
  obtain ⟨k, s, hk, hs, h0⟩ := scanSlots_empty_some id p c.ack_array_ 0 c.ack_array_.length hid hz
  have h1 := scanSlots_notfound id p c.ack_array_ 0 c.ack_array_.length hid
  rw [Nat.zero_add] at hk
  have hlt : k < c.ack_array_.length := by
    rcases Nat.lt_or_ge k c.ack_array_.length with h | h
    · exact h
    · rw [List.getElem?_eq_none h] at hs
      cases hs
  refine ⟨k, s, hs, h0, ?_⟩
  simp only [AckContainer.Insert, InsertDecide, if_neg hp, h1.1, h1.2, hk, Bool.false_eq_true, if_false,
    if_neg (Nat.ne_of_lt hlt), if_true, AckInfo.Set, ← List.set_eq_modify]

theorem Insert_full (id : Int) (p : Nat) (c : AckContainer)
    (hp : ¬ p < c.greatest_return_ack_.log_pos) (hid : ∀ s ∈ c.ack_array_, s.server_id ≠ id)
    (hz : ∀ s ∈ c.ack_array_, s.server_id ≠ 0) :
    ∃ fl arr e, AckContainer.Insert id p c = (some fl, ⟨arr, fl, e⟩) ∧ fl.log_pos ≤ p ∧
      (∀ s ∈ c.ack_array_, fl.log_pos ≤ s.log_pos) ∧
      ((fl = ⟨id, p⟩ ∧ arr = c.ack_array_.map (clearAt p)) ∨
        (fl.log_pos < p ∧ (∃ s ∈ c.ack_array_, fl = ⟨s.server_id, s.log_pos⟩) ∧
          ∃ k s, c.ack_array_[k]? = some s ∧ s.log_pos = fl.log_pos ∧
            arr = (c.ack_array_.map (clearAt fl.log_pos)).set k ⟨id, p⟩)) := by
  have h1 := scanSlots_notfound id p c.ack_array_ 0 c.ack_array_.length hid
  have h2 := scanSlots_empty_none id p c.ack_array_ 0 c.ack_array_.length hid hz
  have hle := minScan_le c.ack_array_ (p, none)
  rcases minScan_cases c.ack_array_ (p, none) with hm | ⟨s, hs, hs0, hlt, hm⟩
  · refine ⟨⟨id, p⟩, c.ack_array_.map (clearAt p),
      (removeLoop p 0 c.ack_array_ c.ack_array_.length).2, ?_, Nat.le_refl _, ?_, Or.inl ⟨rfl, rfl⟩⟩
    · simp only [AckContainer.Insert, InsertDecide, if_neg hp, h1.1, h1.2, h2, Bool.false_eq_true, if_false,
        if_true, hm, AckInfo.Set, RemoveAll, removeLoop_fst, gt_iff_lt, Nat.lt_irrefl,
        decide_False]
    · intro s hs
      have := hle.2 s hs (hz s hs)
      rw [hm] at this
      exact this
  · refine ⟨⟨s.server_id, s.log_pos⟩, (c.ack_array_.map (clearAt s.log_pos)).set
      (removeLoop s.log_pos 0 c.ack_array_ c.ack_array_.length).2 ⟨id, p⟩,
      (removeLoop s.log_pos 0 c.ack_array_ c.ack_array_.length).2, ?_,
      Nat.le_of_lt hlt, ?_, Or.inr ⟨hlt, ⟨s, hs, rfl⟩, ?_⟩⟩
    · simp only [AckContainer.Insert, InsertDecide, if_neg hp, h1.1, h1.2, h2, Bool.false_eq_true, if_false,
        if_true, hm, AckInfo.Set, RemoveAll, removeLoop_fst, gt_iff_lt, hlt, decide_True,
        ← List.set_eq_modify]
    · intro t ht
      have := hle.2 t ht (hz t ht)
      rw [hm] at this
      exact this
    · obtain ⟨k, t, hk, ht, htp⟩ :=
        removeLoop_snd_some s.log_pos c.ack_array_ 0 c.ack_array_.length ⟨s, hs, rfl⟩
      rw [Nat.zero_add] at hk
      exact ⟨k, t, ht, htp, by rw [hk]⟩

/-! ## Floor monotonicity -/

theorem mem_map_clearAt {p : Nat} {arr : List AckInfo} {t : AckInfo}
    (ht : t ∈ arr.map (clearAt p)) : t = ⟨0, 0⟩ ∨ (t ∈ arr ∧ t.log_pos ≠ p) := by
  obtain ⟨s, hs, rfl⟩ := List.mem_map.1 ht
  by_cases h : s.log_pos = p
  · left; simp [clearAt, h]
  · right; simp [clearAt, h, hs]

theorem Insert_floor_mono (id : Int) (p : Nat) (c : AckContainer) (hc : SlotsAboveFloor c) :
    SlotsAboveFloor (AckContainer.Insert id p c).2 ∧
      c.floorPos ≤ (AckContainer.Insert id p c).2.floorPos := by
  by_cases hp : p < c.greatest_return_ack_.log_pos
  · rw [Insert_stale id p c hp]
    exact ⟨hc, Nat.le_refl _⟩
  have hFp : c.floorPos ≤ p := Nat.le_of_not_lt hp
  by_cases hid : ∃ s ∈ c.ack_array_, s.server_id = id
  · obtain ⟨pre, s, post, e, harr, hs, hI⟩ := Insert_found id p c hp hid
    rw [hI]
    refine ⟨fun t ht h0 => ?_, Nat.le_refl _⟩
    simp only [List.mem_append, List.mem_cons] at ht
    have hmem : ∀ u, u ∈ pre ∨ u ∈ post → u ∈ c.ack_array_ := by
      intro u hu
      rw [harr]
      simp only [List.mem_append, List.mem_cons]
      tauto
    rcases ht with ht | rfl | ht
    · exact hc t (hmem t (Or.inl ht)) h0
    · exact Nat.le_trans hFp (Nat.le_max_right _ _)
    · exact hc t (hmem t (Or.inr ht)) h0
  have hid2 : ∀ s ∈ c.ack_array_, s.server_id ≠ id := fun s hs h => hid ⟨s, hs, h⟩
  by_cases hz : ∃ s ∈ c.ack_array_, s.server_id = 0
  · obtain ⟨k, s, hk, hs0, hI⟩ := Insert_free id p c hp hid2 hz
    rw [hI]
    refine ⟨fun t ht h0 => ?_, Nat.le_refl _⟩
    rcases List.mem_or_eq_of_mem_set ht with ht | rfl
    · exact hc t ht h0
    · exact hFp
  have hz2 : ∀ s ∈ c.ack_array_, s.server_id ≠ 0 := fun s hs h => hz ⟨s, hs, h⟩
  obtain ⟨fl, arr, e, hI, hflp, hfls, hcase⟩ := Insert_full id p c hp hid2 hz2
  rw [hI]
  have hFfl : c.floorPos ≤ fl.log_pos := by
    rcases hcase with ⟨hfl, _⟩ | ⟨_, ⟨s, hs, hfl⟩, _⟩
    · rw [hfl]; exact hFp
    · rw [hfl]; exact hc s hs (hz2 s hs)
  refine ⟨fun t ht h0 => ?_, hFfl⟩
  show fl.log_pos ≤ t.log_pos
  have hclr : ∀ q, t ∈ c.ack_array_.map (clearAt q) → fl.log_pos ≤ t.log_pos := by
    intro q hq
    rcases mem_map_clearAt hq with rfl | ⟨hq, _⟩
    · exact absurd rfl h0
    · exact hfls t hq
  rcases hcase with ⟨_, harr⟩ | ⟨_, _, k, s, _, _, harr⟩
  · rw [harr] at ht
    exact hclr _ ht
  · rw [harr] at ht
    rcases List.mem_or_eq_of_mem_set ht with ht | rfl
    · exact hclr _ ht
    · exact hflp

theorem refeed_floor_mono (l : List AckInfo) (acc : Bool × AckContainer)
    (hc : SlotsAboveFloor acc.2) :
    SlotsAboveFloor (refeed l acc).2 ∧ acc.2.floorPos ≤ (refeed l acc).2.floorPos := by
  induction l generalizing acc with
  | nil => exact ⟨hc, Nat.le_refl _⟩
  | cons a t ih =>
    by_cases h0 : a.server_id = 0
    · rw [refeed, if_pos h0]
      exact ih acc hc
    · rw [refeed, if_neg h0]
      have h1 := Insert_floor_mono a.server_id a.log_pos acc.2 hc
      have h2 := ih (acc.1 || (AckContainer.Insert a.server_id a.log_pos acc.2).1.isSome,
        (AckContainer.Insert a.server_id a.log_pos acc.2).2) h1.1
      exact ⟨h2.1, Nat.le_trans h1.2 h2.2⟩

theorem Resize_floor_mono (size : Nat) (c : AckContainer) (hc : SlotsAboveFloor c) :
    SlotsAboveFloor (Resize size c).2.2 ∧ c.floorPos ≤ (Resize size c).2.2.floorPos := by
  by_cases h0 : size = 0
  · simp only [Resize, if_pos h0]
    exact ⟨hc, Nat.le_refl _⟩
  by_cases h1 : size - 1 = c.ack_array_.length
  · simp only [Resize, if_neg h0, if_pos h1]
    exact ⟨hc, Nat.le_refl _⟩
  simp only [Resize, if_neg h0, if_neg h1]
  refine refeed_floor_mono c.ack_array_
    (false, { c with ack_array_ := List.replicate (size - 1) ⟨0, 0⟩ }) ?_
  intro s hs hs0
  have := List.eq_of_mem_replicate hs
  rw [this] at hs0
  exact absurd rfl hs0

theorem apply_floor_mono (op : TrackerOp) (c : AckContainer) (hc : SlotsAboveFloor c) :
    SlotsAboveFloor (op.apply c) ∧ c.floorPos ≤ (op.apply c).floorPos := by
  cases op with
  | insert id p => exact Insert_floor_mono id p c hc
  | resize n => exact Resize_floor_mono n c hc

theorem runOps_slotsAboveFloor (ops : List TrackerOp) (c : AckContainer)
    (hc : SlotsAboveFloor c) : SlotsAboveFloor (runOps ops c) := by
  induction ops generalizing c with
  | nil => exact hc
  | cons op t ih => exact ih (op.apply c) (apply_floor_mono op c hc).1

theorem fresh_slotsAboveFloor (capacity : Nat) : SlotsAboveFloor (fresh capacity) := by
  intro s hs hs0
  have := List.eq_of_mem_replicate hs
  rw [this] at hs0
  exact absurd rfl hs0

/-- C3. Floor monotonicity: starting from a fresh tracker (any capacity), after
any sequence of `Insert` and `Resize` calls, one more `Insert` or `Resize` call
leaves the floor position at or above its value before the call. -/
theorem floor_monotone (capacity : Nat) (ops : List TrackerOp) (op : TrackerOp) :
    (runOps ops (fresh capacity)).floorPos ≤ (op.apply (runOps ops (fresh capacity))).floorPos :=
  (apply_floor_mono op _ (runOps_slotsAboveFloor ops _ (fresh_slotsAboveFloor capacity))).2

/-! ## Occupied slots -/

theorem occIds_cons (a : AckInfo) (t : List AckInfo) :
    occIds (a :: t) = if a.server_id ≠ 0 then a.server_id :: occIds t else occIds t := by
  by_cases h : a.server_id = 0 <;> simp [occIds, List.filter_cons, h]

theorem occIds_append (a b : List AckInfo) : occIds (a ++ b) = occIds a ++ occIds b := by
  simp [occIds]

theorem mem_occIds {x : Int} {arr : List AckInfo} :
    x ∈ occIds arr ↔ x ≠ 0 ∧ ∃ s ∈ arr, s.server_id = x := by
  simp only [occIds, List.mem_map, List.mem_filter, decide_eq_true_eq]
  constructor
  · rintro ⟨s, ⟨hs, h0⟩, rfl⟩
    exact ⟨h0, s, hs, rfl⟩
  · rintro ⟨h0, s, hs, rfl⟩
    exact ⟨s, ⟨hs, h0⟩, rfl⟩

theorem occIds_length_le (arr : List AckInfo) : (occIds arr).length ≤ arr.length := by
  simp only [occIds, List.length_map]
  exact List.length_filter_le _ _

theorem occIds_full (arr : List AckInfo) (h : ∀ s ∈ arr, s.server_id ≠ 0) :
    (occIds arr).length = arr.length := by
  induction arr with
  | nil => rfl
  | cons a t ih =>
    have ha : a.server_id ≠ 0 := h a (List.mem_cons_self _ _)
    rw [occIds_cons, if_pos ha]
    simp [ih (fun s hs => h s (List.mem_cons_of_mem _ hs))]

theorem occIds_set_perm (arr : List AckInfo) (k : Nat) (s x : AckInfo)
    (hk : arr[k]? = some s) (hs : s.server_id = 0) (hx : x.server_id ≠ 0) :
    (occIds (arr.set k x)).Perm (x.server_id :: occIds arr) := by
  induction arr generalizing k with
  | nil => simp at hk
  | cons a t ih =>
    cases k with
    | zero =>
      simp only [List.getElem?_cons_zero, Option.some.injEq] at hk
      subst hk
      simp [List.set, occIds_cons, hs, hx]
    | succ k =>
      simp only [List.getElem?_cons_succ] at hk
      have := ih k hk
      by_cases ha : a.server_id = 0
      · simpa [List.set, occIds_cons, ha] using this
      · simp only [List.set, occIds_cons, ha, ne_eq, not_false_eq_true, if_true]
        exact (List.Perm.cons _ this).trans (List.Perm.swap _ _ _)

theorem occIds_clear_sublist (q : Nat) (arr : List AckInfo) :
    (occIds (arr.map (clearAt q))).Sublist (occIds arr) := by
  induction arr with
  | nil => simp [occIds]
  | cons a t ih =>
    by_cases hq : a.log_pos = q
    · have : clearAt q a = ⟨0, 0⟩ := by simp [clearAt, hq]
      simp only [List.map_cons, this, occIds_cons, ne_eq, not_true_eq_false, if_false]
      by_cases ha : a.server_id = 0
      · simpa [ha] using ih
      · simpa [ha] using List.Sublist.cons a.server_id ih
    · have : clearAt q a = a := by simp [clearAt, hq]
      simp only [List.map_cons, this, occIds_cons]
      by_cases ha : a.server_id = 0
      · simpa [ha] using ih
      · simpa [ha] using List.Sublist.cons₂ a.server_id ih

theorem mem_occIds_clear {q : Nat} {arr : List AckInfo} {x : Int} (hx : x ≠ 0)
    {s : AckInfo} (hs : s ∈ arr) (hid : s.server_id = x) (hq : s.log_pos ≠ q) :
    x ∈ occIds (arr.map (clearAt q)) := by
  refine mem_occIds.2 ⟨hx, s, ?_, hid⟩
  exact List.mem_map.2 ⟨s, hs, by simp [clearAt, hq]⟩

theorem getElem?_clearAt {q : Nat} {arr : List AckInfo} {k : Nat} {s : AckInfo}
    (hk : arr[k]? = some s) (hq : s.log_pos = q) :
    (arr.map (clearAt q))[k]? = some ⟨0, 0⟩ := by
  simp [List.getElem?_map, hk, clearAt, hq]

/-! ## Histories of calls -/

theorem maxPos_append (h : List (Int × Nat)) (id : Int) (p : Nat) (x : Int) :
    maxPos (h ++ [(id, p)]) x = if id = x then max (maxPos h x) p else maxPos h x := by
  simp [maxPos, List.foldl_append]

theorem maxPos_le_append (h : List (Int × Nat)) (id : Int) (p : Nat) (x : Int) :
    maxPos h x ≤ maxPos (h ++ [(id, p)]) x := by
  rw [maxPos_append]
  split
  · exact Nat.le_max_left _ _
  · exact Nat.le_refl _

theorem mem_replicaIds {h : List (Int × Nat)} {x : Int} :
    x ∈ replicaIds h ↔ ∃ q, (x, q) ∈ h := by
  simp [replicaIds]

theorem maxPos_pos_mem (h : List (Int × Nat)) (x : Int) (hx : 0 < maxPos h x) :
    x ∈ replicaIds h := by
  induction h using List.reverseRecOn with
  | nil => simp [maxPos] at hx
  | append_singleton l a ih =>
    obtain ⟨id, p⟩ := a
    rw [maxPos_append] at hx
    rw [mem_replicaIds]
    by_cases hid : id = x
    · exact ⟨p, by simp [hid]⟩
    · rw [if_neg hid] at hx
      obtain ⟨q, hq⟩ := mem_replicaIds.1 (ih hx)
      exact ⟨q, by simp [hq]⟩

theorem nodup_length_le_countP (L l : List Int) (P : Int → Bool) (hL : L.Nodup)
    (h : ∀ x ∈ L, x ∈ l ∧ P x = true) : L.length ≤ l.countP P := by
  rw [List.countP_eq_length_filter]
  apply List.Subperm.length_le
  apply List.Nodup.subperm hL
  intro x hx
  exact List.mem_filter.2 (h x hx)

theorem quorum_mono (n F : Nat) (h : List (Int × Nat)) (id : Int) (p : Nat)
    (hq : n ≤ (replicaIds h).countP (fun x => decide (F ≤ maxPos h x))) :
    n ≤ (replicaIds (h ++ [(id, p)])).countP (fun x => decide (F ≤ maxPos (h ++ [(id, p)]) x)) := by
  refine Nat.le_trans hq ?_
  rw [List.countP_eq_length_filter]
  apply nodup_length_le_countP
  · exact (List.nodup_dedup _).filter _
  · intro x hx
    obtain ⟨hx1, hx2⟩ := List.mem_filter.1 hx
    obtain ⟨q, hq⟩ := mem_replicaIds.1 hx1
    refine ⟨mem_replicaIds.2 ⟨q, by simp [hq]⟩, ?_⟩
    simp only [decide_eq_true_eq] at hx2 ⊢
    exact Nat.le_trans hx2 (maxPos_le_append h id p x)

/-! ## The tracker invariant relative to the history of calls -/

theorem TrackerInv_fresh (n : Nat) (hn : 1 ≤ n) : TrackerInv n [] (fresh (n - 1)) where
  len := by simp [fresh]; omega
  hist := by
    intro s hs hs0
    have := List.eq_of_mem_replicate hs
    rw [this] at hs0
    exact absurd rfl hs0
  nodup := by
    have : occIds (List.replicate (n - 1) (⟨0, 0⟩ : AckInfo)) = [] := by
      simp [occIds, List.filter_eq_nil_iff]
    simp [fresh, this]
  above := by
    intro x hx
    simp [maxPos] at hx
  quorum := Or.inl rfl

/-- A replica that occupies no slot has not inserted above the floor. -/
theorem TrackerInv.maxPos_le {n : Nat} {h : List (Int × Nat)} {c : AckContainer}
    (hI : TrackerInv n h c) {id : Int} (hid : ∀ s ∈ c.ack_array_, s.server_id ≠ id) :
    maxPos h id ≤ c.floorPos := by
  by_contra hlt
  obtain ⟨_, s, hs, he⟩ := mem_occIds.1 (hI.above id (Nat.lt_of_not_le hlt))
  exact hid s hs he

theorem TrackerInv.quorum_append {n : Nat} {h : List (Int × Nat)} {c : AckContainer}
    (hI : TrackerInv n h c) (id : Int) (p : Nat) :
    c.floorPos = 0 ∨ n ≤ (replicaIds (h ++ [(id, p)])).countP
      (fun x => decide (c.floorPos ≤ maxPos (h ++ [(id, p)]) x)) := by
  rcases hI.quorum with h0 | hq
  · exact Or.inl h0
  · exact Or.inr (quorum_mono n _ h id p hq)

theorem TrackerInv_stale {n : Nat} {h : List (Int × Nat)} {c : AckContainer}
    (hI : TrackerInv n h c) (id : Int) (p : Nat) (hp : p < c.floorPos) :
    TrackerInv n (h ++ [(id, p)]) c where
  len := hI.len
  hist := by
    intro s hs hs0
    obtain ⟨h1, h2, h3⟩ := hI.hist s hs hs0
    refine ⟨List.mem_append_left _ h1, ?_, h3⟩
    rw [maxPos_append, h2]
    split
    · exact Nat.max_eq_left (by omega)
    · rfl
  nodup := hI.nodup
  above := by
    intro x hx
    apply hI.above
    rw [maxPos_append] at hx
    split at hx
    · rcases Nat.le_total (maxPos h x) p with hle | hle
      · rw [Nat.max_eq_right hle] at hx; omega
      · rw [Nat.max_eq_left hle] at hx; exact hx
    · exact hx
  quorum := hI.quorum_append id p

theorem TrackerInv_found {n : Nat} {h : List (Int × Nat)} {c : AckContainer}
    (hI : TrackerInv n h c) (id : Int) (p : Nat) (hid0 : id ≠ 0) (hp : c.floorPos ≤ p)
    (pre post : List AckInfo) (s : AckInfo) (e : Nat)
    (harr : c.ack_array_ = pre ++ s :: post) (hs : s.server_id = id) :
    TrackerInv n (h ++ [(id, p)])
      ⟨pre ++ ⟨id, max s.log_pos p⟩ :: post, c.greatest_return_ack_, e⟩ := by
  have hsmem : s ∈ c.ack_array_ := by rw [harr]; simp
  have hs0 : s.server_id ≠ 0 := by rw [hs]; exact hid0
  obtain ⟨hs1, hs2, hs3⟩ := hI.hist s hsmem hs0
  have hocc : occIds (pre ++ ⟨id, max s.log_pos p⟩ :: post) = occIds c.ack_array_ := by
    rw [harr, occIds_append, occIds_append, occIds_cons, occIds_cons]
    simp [hs, hid0]
  have hnd := hI.nodup
  rw [harr, occIds_append, occIds_cons, if_pos hs0, hs] at hnd
  have hnpre : ∀ t ∈ pre, t.server_id ≠ 0 → t.server_id ≠ id := by
    intro t ht ht0 hte
    have h1 : id ∈ occIds pre := mem_occIds.2 ⟨hid0, t, ht, hte⟩
    have := (List.nodup_append.1 hnd).2.2 h1
    exact this (List.mem_cons_self _ _)
  have hnpost : ∀ t ∈ post, t.server_id ≠ 0 → t.server_id ≠ id := by
    intro t ht ht0 hte
    have h1 : id ∈ occIds post := mem_occIds.2 ⟨hid0, t, ht, hte⟩
    have := (List.nodup_cons.1 (List.nodup_append.1 hnd).2.1).1
    exact this h1
  have hold : ∀ t ∈ c.ack_array_, t.server_id ≠ 0 → t.server_id ≠ id →
      (t.server_id, t.log_pos) ∈ h ++ [(id, p)] ∧
        maxPos (h ++ [(id, p)]) t.server_id = t.log_pos ∧ c.floorPos ≤ t.log_pos := by
    intro t ht ht0 hne
    obtain ⟨h1, h2, h3⟩ := hI.hist t ht ht0
    refine ⟨List.mem_append_left _ h1, ?_, h3⟩
    rw [maxPos_append, if_neg (Ne.symm hne), h2]
  refine ⟨?_, ?_, ?_, ?_, hI.quorum_append id p⟩
  · rw [← hI.len, harr]; simp
  · intro t ht ht0
    simp only [List.mem_append, List.mem_cons] at ht
    rcases ht with ht | rfl | ht
    · exact hold t (by rw [harr]; simp [ht]) ht0 (hnpre t ht ht0)
    · refine ⟨?_, ?_, Nat.le_trans hp (Nat.le_max_right _ _)⟩
      · rcases Nat.le_total s.log_pos p with hle | hle
        · simp [Nat.max_eq_right hle]
        · simp only [Nat.max_eq_left hle]
          rw [← hs]
          exact List.mem_append_left _ hs1
      · show maxPos (h ++ [(id, p)]) id = max s.log_pos p
        rw [maxPos_append, if_pos rfl, ← hs, hs2]
    · exact hold t (by rw [harr]; simp [ht]) ht0 (hnpost t ht ht0)
  · show (occIds (pre ++ ⟨id, max s.log_pos p⟩ :: post)).Nodup
    rw [hocc]; exact hI.nodup
  · intro x hx
    show x ∈ occIds (pre ++ ⟨id, max s.log_pos p⟩ :: post)
    rw [hocc]
    by_cases hxe : id = x
    · exact mem_occIds.2 ⟨hxe ▸ hid0, s, hsmem, hs.trans hxe⟩
    · rw [maxPos_append, if_neg hxe] at hx
      exact hI.above x hx

theorem TrackerInv_free {n : Nat} {h : List (Int × Nat)} {c : AckContainer}
    (hI : TrackerInv n h c) (id : Int) (p : Nat) (hid0 : id ≠ 0) (hp : c.floorPos ≤ p)
    (hid : ∀ s ∈ c.ack_array_, s.server_id ≠ id) (k : Nat) (s : AckInfo) (e : Nat)
    (hk : c.ack_array_[k]? = some s) (hs : s.server_id = 0) :
    TrackerInv n (h ++ [(id, p)]) ⟨c.ack_array_.set k ⟨id, p⟩, c.greatest_return_ack_, e⟩ := by
  have hmax : maxPos (h ++ [(id, p)]) id = p := by
    rw [maxPos_append, if_pos rfl]
    exact Nat.max_eq_right (Nat.le_trans (hI.maxPos_le hid) hp)
  have hperm := occIds_set_perm c.ack_array_ k s ⟨id, p⟩ hk hs hid0
  refine ⟨?_, ?_, ?_, ?_, hI.quorum_append id p⟩
  · rw [← hI.len]; simp
  · intro t ht ht0
    rcases List.mem_or_eq_of_mem_set ht with ht | rfl
    · obtain ⟨h1, h2, h3⟩ := hI.hist t ht ht0
      refine ⟨List.mem_append_left _ h1, ?_, h3⟩
      rw [maxPos_append, if_neg (Ne.symm (hid t ht)), h2]
    · exact ⟨by simp, hmax, hp⟩
  · show (occIds (c.ack_array_.set k ⟨id, p⟩)).Nodup
    rw [hperm.nodup_iff, List.nodup_cons]
    refine ⟨fun hmem => ?_, hI.nodup⟩
    obtain ⟨_, t, ht, hte⟩ := mem_occIds.1 hmem
    exact hid t ht hte
  · intro x hx
    show x ∈ occIds (c.ack_array_.set k ⟨id, p⟩)
    rw [hperm.mem_iff]
    by_cases hxe : id = x
    · rw [hxe]; exact List.mem_cons_self _ _
    · rw [maxPos_append, if_neg hxe] at hx
      exact List.mem_cons_of_mem _ (hI.above x hx)

theorem full_slots (arr arr2 : List AckInfo) (fl : AckInfo) (id : Int) (p : Nat)
    (hid0 : id ≠ 0) (hid : ∀ s ∈ arr, s.server_id ≠ id) (hnd : (occIds arr).Nodup)
    (hcase : (fl.log_pos = p ∧ arr2 = arr.map (clearAt p)) ∨
      (fl.log_pos < p ∧ ∃ k s, arr[k]? = some s ∧ s.log_pos = fl.log_pos ∧
        arr2 = (arr.map (clearAt fl.log_pos)).set k ⟨id, p⟩)) :
    arr2.length = arr.length ∧
      (∀ t ∈ arr2, t.server_id ≠ 0 → t = ⟨id, p⟩ ∨ t ∈ arr) ∧
      (occIds arr2).Nodup ∧
      (∀ s ∈ arr, s.server_id ≠ 0 → s.log_pos ≠ fl.log_pos → s.server_id ∈ occIds arr2) ∧
      (fl.log_pos < p → id ∈ occIds arr2) := by
  rcases hcase with ⟨hfl, rfl⟩ | ⟨hlt, k, s, hk, hs, rfl⟩
  · refine ⟨by simp, ?_, (occIds_clear_sublist p arr).nodup hnd, ?_, ?_⟩
    · intro t ht ht0
      rcases mem_map_clearAt ht with rfl | ⟨ht, _⟩
      · exact absurd rfl ht0
      · exact Or.inr ht
    · intro s hs hs0 hne
      exact mem_occIds_clear hs0 hs rfl (hfl ▸ hne)
    · intro hlt; omega
  · have hperm := occIds_set_perm (arr.map (clearAt fl.log_pos)) k ⟨0, 0⟩ ⟨id, p⟩
      (getElem?_clearAt hk hs) rfl hid0
    refine ⟨by simp, ?_, ?_, ?_, ?_⟩
    · intro t ht ht0
      rcases List.mem_or_eq_of_mem_set ht with ht | rfl
      · rcases mem_map_clearAt ht with rfl | ⟨ht, _⟩
        · exact absurd rfl ht0
        · exact Or.inr ht
      · exact Or.inl rfl
    · rw [hperm.nodup_iff, List.nodup_cons]
      refine ⟨fun hmem => ?_, (occIds_clear_sublist _ arr).nodup hnd⟩
      obtain ⟨_, t, ht, hte⟩ := mem_occIds.1 ((occIds_clear_sublist _ arr).subset hmem)
      exact hid t ht hte
    · intro t ht ht0 hne
      rw [hperm.mem_iff]
      exact List.mem_cons_of_mem _ (mem_occIds_clear ht0 ht rfl hne)
    · intro _
      rw [hperm.mem_iff]
      exact List.mem_cons_self _ _

theorem TrackerInv_full {n : Nat} {h : List (Int × Nat)} {c : AckContainer}
    (hI : TrackerInv n h c) (id : Int) (p : Nat) (hid0 : id ≠ 0) (hp : c.floorPos ≤ p)
    (hid : ∀ s ∈ c.ack_array_, s.server_id ≠ id) (hz : ∀ s ∈ c.ack_array_, s.server_id ≠ 0)
    (fl : AckInfo) (arr : List AckInfo) (e : Nat) (hflp : fl.log_pos ≤ p)
    (hfls : ∀ s ∈ c.ack_array_, fl.log_pos ≤ s.log_pos)
    (hF : c.floorPos ≤ fl.log_pos)
    (hcase : (fl.log_pos = p ∧ arr = c.ack_array_.map (clearAt p)) ∨
      (fl.log_pos < p ∧ ∃ k s, c.ack_array_[k]? = some s ∧ s.log_pos = fl.log_pos ∧
        arr = (c.ack_array_.map (clearAt fl.log_pos)).set k ⟨id, p⟩)) :
    TrackerInv n (h ++ [(id, p)]) ⟨arr, fl, e⟩ := by
  have hmax : maxPos (h ++ [(id, p)]) id = p := by
    rw [maxPos_append, if_pos rfl]
    exact Nat.max_eq_right (Nat.le_trans (hI.maxPos_le hid) hp)
  obtain ⟨hlen, hmem, hnd, hkeep, hnew⟩ :=
    full_slots c.ack_array_ arr fl id p hid0 hid hI.nodup hcase
  refine ⟨?_, ?_, hnd, ?_, Or.inr ?_⟩
  · show arr.length + 1 = n
    rw [hlen]; exact hI.len
  · intro t ht ht0
    show _ ∧ _ ∧ fl.log_pos ≤ t.log_pos
    rcases hmem t ht ht0 with rfl | ht
    · exact ⟨by simp, hmax, hflp⟩
    · obtain ⟨h1, h2, _⟩ := hI.hist t ht ht0
      refine ⟨List.mem_append_left _ h1, ?_, hfls t ht⟩
      rw [maxPos_append, if_neg (Ne.symm (hid t ht)), h2]
  · intro x hx
    show x ∈ occIds arr
    have hx2 : fl.log_pos < maxPos (h ++ [(id, p)]) x := hx
    by_cases hxe : id = x
    · subst hxe
      rw [hmax] at hx2
      exact hnew hx2
    · rw [maxPos_append, if_neg hxe] at hx2
      obtain ⟨hx0, s, hs, hsx⟩ := mem_occIds.1 (hI.above x (Nat.lt_of_le_of_lt hF hx2))
      have hs0 : s.server_id ≠ 0 := hsx ▸ hx0
      obtain ⟨_, h2, _⟩ := hI.hist s hs hs0
      rw [← hsx]
      apply hkeep s hs hs0
      rw [← h2, hsx]
      omega
  · show n ≤ (replicaIds (h ++ [(id, p)])).countP
      (fun x => decide (fl.log_pos ≤ maxPos (h ++ [(id, p)]) x))
    have hL : (id :: occIds c.ack_array_).length = n := by
      rw [List.length_cons, occIds_full _ hz]; exact hI.len
    rw [← hL]
    apply nodup_length_le_countP
    · rw [List.nodup_cons]
      refine ⟨fun hm => ?_, hI.nodup⟩
      obtain ⟨_, t, ht, hte⟩ := mem_occIds.1 hm
      exact hid t ht hte
    · intro x hx
      rcases List.mem_cons.1 hx with rfl | hx
      · refine ⟨mem_replicaIds.2 ⟨p, by simp⟩, ?_⟩
        simp only [decide_eq_true_eq, hmax]
        exact hflp
      · obtain ⟨hx0, s, hs, hsx⟩ := mem_occIds.1 hx
        have hs0 : s.server_id ≠ 0 := hsx ▸ hx0
        obtain ⟨h1, h2, _⟩ := hI.hist s hs hs0
        refine ⟨mem_replicaIds.2 ⟨s.log_pos, ?_⟩, ?_⟩
        · rw [← hsx]; exact List.mem_append_left _ h1
        · simp only [decide_eq_true_eq]
          refine Nat.le_trans (hfls s hs) ?_
          rw [← h2, hsx]
          exact maxPos_le_append h id p x

/-- The invariant is preserved by every `Insert` of a non-zero replica id. -/
theorem TrackerInv_Insert {n : Nat} {h : List (Int × Nat)} {c : AckContainer}
    (hI : TrackerInv n h c) (id : Int) (p : Nat) (hid0 : id ≠ 0) :
    TrackerInv n (h ++ [(id, p)]) (AckContainer.Insert id p c).2 := by
  by_cases hp : p < c.greatest_return_ack_.log_pos
  · rw [Insert_stale id p c hp]
    exact TrackerInv_stale hI id p hp
  have hFp : c.floorPos ≤ p := Nat.le_of_not_lt hp
  by_cases hid : ∃ s ∈ c.ack_array_, s.server_id = id
  · obtain ⟨pre, s, post, e, harr, hs, hIns⟩ := Insert_found id p c hp hid
    rw [hIns]
    exact TrackerInv_found hI id p hid0 hFp pre post s e harr hs
  have hid2 : ∀ s ∈ c.ack_array_, s.server_id ≠ id := fun s hs h => hid ⟨s, hs, h⟩
  by_cases hz : ∃ s ∈ c.ack_array_, s.server_id = 0
  · obtain ⟨k, s, hk, hs0, hIns⟩ := Insert_free id p c hp hid2 hz
    rw [hIns]
    exact TrackerInv_free hI id p hid0 hFp hid2 k s k hk hs0
  have hz2 : ∀ s ∈ c.ack_array_, s.server_id ≠ 0 := fun s hs h => hz ⟨s, hs, h⟩
  obtain ⟨fl, arr, e, hIns, hflp, hfls, hcase⟩ := Insert_full id p c hp hid2 hz2
  rw [hIns]
  have hF : c.floorPos ≤ fl.log_pos := by
    rcases hcase with ⟨hfl, _⟩ | ⟨_, ⟨s, hs, hfl⟩, _⟩
    · rw [hfl]; exact hFp
    · rw [hfl]; exact (hI.hist s hs (hz2 s hs)).2.2
  refine TrackerInv_full hI id p hid0 hFp hid2 hz2 fl arr e hflp hfls hF ?_
  rcases hcase with ⟨hfl, harr⟩ | ⟨hlt, _, hk⟩
  · exact Or.inl ⟨by rw [hfl], harr⟩
  · exact Or.inr ⟨hlt, hk⟩

theorem runInserts_append (calls : List (Int × Nat)) (id : Int) (p : Nat) (c : AckContainer) :
    runInserts (calls ++ [(id, p)]) c = (AckContainer.Insert id p (runInserts calls c)).2 := by
  simp [runInserts, List.foldl_append]

/-- The invariant holds after every sequence of inserts of non-zero replica ids
on a fresh tracker of capacity `n - 1`. -/
theorem TrackerInv_runInserts (n : Nat) (hn : 1 ≤ n) (calls : List (Int × Nat))
    (hnz : ∀ call ∈ calls, call.1 ≠ 0) :
    TrackerInv n calls (runInserts calls (fresh (n - 1))) := by
  induction calls using List.reverseRecOn with
  | nil => exact TrackerInv_fresh n hn
  | append_singleton l a ih =>
    obtain ⟨id, p⟩ := a
    rw [runInserts_append]
    exact TrackerInv_Insert (ih (fun call hc => hnz call (List.mem_append_left _ hc))) id p
      (hnz (id, p) (by simp))

/-! ## Order statistics of a sorted list -/

theorem countP_cons_add (P : Nat → Bool) (a : Nat) (t : List Nat) :
    (a :: t).countP P = t.countP P + (if P a = true then 1 else 0) := by
  rw [List.countP_cons]

theorem sorted_getD (l : List Nat) (hs : l.Sorted (· ≥ ·)) (k F : Nat)
    (h1 : l.countP (fun x => decide (F < x)) ≤ k)
    (h2 : F = 0 ∨ k < l.countP (fun x => decide (F ≤ x))) : l.getD k 0 = F := by
  induction l generalizing k with
  | nil =>
    rcases h2 with h2 | h2
    · simp [h2]
    · simp at h2
  | cons a t ih =>
    obtain ⟨hat, hst⟩ := List.sorted_cons.1 hs
    have hzero : ∀ (P : Nat → Bool), (∀ b ∈ t, P b = false) → t.countP P = 0 := by
      intro P hP
      rw [List.countP_eq_zero]
      intro b hb
      simp [hP b hb]
    have hlow : a < F → t.countP (fun x => decide (F ≤ x)) = 0 := by
      intro haF
      apply hzero
      intro b hb
      have := hat b hb
      simp only [ge_iff_le] at this
      simp only [decide_eq_false_iff_not]
      omega
    have hlow2 : a ≤ F → t.countP (fun x => decide (F < x)) = 0 := by
      intro haF
      apply hzero
      intro b hb
      have := hat b hb
      simp only [ge_iff_le] at this
      simp only [decide_eq_false_iff_not]
      omega
    rw [countP_cons_add] at h1 h2
    simp only [decide_eq_true_eq] at h1 h2
    cases k with
    | zero =>
      simp only [List.getD_cons_zero]
      have haF : a ≤ F := by
        by_contra hlt
        rw [if_pos (by omega)] at h1
        omega
      rcases h2 with h2 | h2
      · omega
      · by_cases hFa : F ≤ a
        · omega
        · rw [if_neg hFa, hlow (by omega)] at h2
          omega
    | succ k =>
      simp only [List.getD_cons_succ]
      apply ih hst
      · by_cases hFa : F < a
        · rw [if_pos hFa] at h1
          omega
        · rw [hlow2 (by omega)]
          omega
      · rcases h2 with h2 | h2
        · exact Or.inl h2
        · right
          by_cases hFa : F ≤ a
          · rw [if_pos hFa] at h2
            omega
          · rw [if_neg hFa, hlow (by omega)] at h2
            omega

theorem TrackerInv.floor_is_nth {n : Nat} {h : List (Int × Nat)} {c : AckContainer}
    (hI : TrackerInv n h c) : c.floorPos = nthLargest n h := by
  symm
  unfold nthLargest
  have hperm := List.perm_insertionSort (· ≥ ·) (maxima h)
  apply sorted_getD _ (List.sorted_insertionSort (· ≥ ·) (maxima h))
  · rw [hperm.countP_eq]
    unfold maxima
    rw [List.countP_map, List.countP_eq_length_filter]
    have hsub : ((replicaIds h).filter ((fun x => decide (c.floorPos < x)) ∘ maxPos h)).length
        ≤ (occIds c.ack_array_).length := by
      apply List.Subperm.length_le
      apply List.Nodup.subperm ((List.nodup_dedup _).filter _)
      intro x hx
      have := (List.mem_filter.1 hx).2
      simp only [Function.comp_apply, decide_eq_true_eq] at this
      exact hI.above x this
    have := occIds_length_le c.ack_array_
    have := hI.len
    omega
  · rcases hI.quorum with h0 | hq
    · exact Or.inl h0
    · right
      rw [hperm.countP_eq]
      unfold maxima
      rw [List.countP_map]
      have : ((fun x => decide (c.floorPos ≤ x)) ∘ maxPos h)
          = (fun x => decide (c.floorPos ≤ maxPos h x)) := rfl
      rw [this]
      have := hI.len
      omega

theorem Insert_some_full (id : Int) (p : Nat) (c : AckContainer) (ack : AckInfo)
    (hret : (AckContainer.Insert id p c).1 = some ack) :
    ¬ p < c.greatest_return_ack_.log_pos ∧ (∀ s ∈ c.ack_array_, s.server_id ≠ id) ∧
      (∀ s ∈ c.ack_array_, s.server_id ≠ 0) := by
  by_cases hp : p < c.greatest_return_ack_.log_pos
  · rw [Insert_stale id p c hp] at hret
    cases hret
  by_cases hid : ∃ s ∈ c.ack_array_, s.server_id = id
  · obtain ⟨pre, s, post, e, _, _, hIns⟩ := Insert_found id p c hp hid
    rw [hIns] at hret
    cases hret
  have hid2 : ∀ s ∈ c.ack_array_, s.server_id ≠ id := fun s hs h => hid ⟨s, hs, h⟩
  by_cases hz : ∃ s ∈ c.ack_array_, s.server_id = 0
  · obtain ⟨k, s, _, _, hIns⟩ := Insert_free id p c hp hid2 hz
    rw [hIns] at hret
    cases hret
  exact ⟨hp, hid2, fun s hs h => hz ⟨s, hs, h⟩⟩

/-! ## Claims on the tracker -/

/-- C1. Quorum soundness of `AckContainer::Insert`: for a quorum size `n ≥ 1`
and any sequence of inserts of non-zero replica ids on a fresh tracker of
capacity `n - 1`, when the last call returns a confirmed AckInfo of position
`P`, at least `n` distinct replica ids have been inserted (in that call or
before) with a position `≥ P`. -/
theorem Insert_quorum_sound (n : Nat) (hn : 1 ≤ n) (calls : List (Int × Nat)) (id : Int)
    (p : Nat) (hnz : ∀ call ∈ calls ++ [(id, p)], call.1 ≠ 0) (ack : AckInfo)
    (hret : (AckContainer.Insert id p (runInserts calls (fresh (n - 1)))).1 = some ack) :
    n ≤ ackersAtLeast ack.log_pos (calls ++ [(id, p)]) := by
  have hI := TrackerInv_runInserts n hn calls
    (fun call hc => hnz call (List.mem_append_left _ hc))
  generalize runInserts calls (fresh (n - 1)) = c at hI hret
  obtain ⟨hp, hid, hz⟩ := Insert_some_full id p c ack hret
  obtain ⟨fl, arr, e, hIns, hflp, hfls, _⟩ := Insert_full id p c hp hid hz
  rw [hIns] at hret
  simp only [Option.some.injEq] at hret
  subst hret
  have hL : (id :: occIds c.ack_array_).length = n := by
    rw [List.length_cons, occIds_full _ hz]; exact hI.len
  unfold ackersAtLeast
  rw [← hL]
  apply List.Subperm.length_le
  apply List.Nodup.subperm
  · rw [List.nodup_cons]
    refine ⟨fun hm => ?_, hI.nodup⟩
    obtain ⟨_, t, ht, hte⟩ := mem_occIds.1 hm
    exact hid t ht hte
  · intro x hx
    rw [List.mem_dedup, List.mem_map]
    rcases List.mem_cons.1 hx with rfl | hx
    · exact ⟨(x, p), List.mem_filter.2 ⟨by simp, by simpa using hflp⟩, rfl⟩
    · obtain ⟨hx0, s, hs, hsx⟩ := mem_occIds.1 hx
      have hs0 : s.server_id ≠ 0 := hsx ▸ hx0
      obtain ⟨h1, _, _⟩ := hI.hist s hs hs0
      exact ⟨(s.server_id, s.log_pos),
        List.mem_filter.2 ⟨List.mem_append_left _ h1, by simpa using hfls s hs⟩, hsx⟩

/-- Witness of C1 with quorum size 2: after `Insert(1, 10)`, `Insert(2, 20)`
returns the floor `(1, 10)`, and two replicas have inserted a position `≥ 10`. -/
theorem Insert_quorum_sound_witness :
    (AckContainer.Insert 2 20 (runInserts [(1, 10)] (fresh (2 - 1)))).1 = some ⟨1, 10⟩ ∧
      2 ≤ ackersAtLeast 10 ([(1, 10)] ++ [(2, 20)]) :=
  ⟨by decide, Insert_quorum_sound 2 (by decide) [(1, 10)] 2 20 (by decide) ⟨1, 10⟩ (by decide)⟩

/-- C2. Quorum exactness: for a quorum size `n ≥ 1` and any sequence of inserts
of non-zero replica ids on a fresh tracker of capacity `n - 1`, the floor
position after the calls is the `n`-th largest of the per-replica maximum
inserted positions, taken as 0 when fewer than `n` replicas have inserted. -/
theorem floor_eq_nthLargest (n : Nat) (hn : 1 ≤ n) (calls : List (Int × Nat))
    (hnz : ∀ call ∈ calls, call.1 ≠ 0) :
    (runInserts calls (fresh (n - 1))).floorPos = nthLargest n calls :=
  (TrackerInv_runInserts n hn calls hnz).floor_is_nth

/-- Witness of C2 with quorum size 2 and three replicas. -/
theorem floor_eq_nthLargest_witness :
    (runInserts [(1, 10), (2, 20), (3, 15), (1, 30)] (fresh (2 - 1))).floorPos
      = nthLargest 2 [(1, 10), (2, 20), (3, 15), (1, 30)] ∧
    nthLargest 2 [(1, 10), (2, 20), (3, 15), (1, 30)] = 20 :=
  ⟨floor_eq_nthLargest 2 (by decide) [(1, 10), (2, 20), (3, 15), (1, 30)] (by decide),
   by decide⟩

theorem leastPos_le (arr : List AckInfo) : ∀ s ∈ arr, leastPos arr ≤ s.log_pos := by
  induction arr with
  | nil => intro s hs; cases hs
  | cons a t ih =>
    cases t with
    | nil =>
      intro s hs
      rcases List.mem_cons.1 hs with rfl | hs
      · exact Nat.le_refl _
      · cases hs
    | cons b u =>
      intro s hs
      have hl : leastPos (a :: b :: u) = min a.log_pos (leastPos (b :: u)) := rfl
      rw [hl]
      rcases List.mem_cons.1 hs with rfl | hs
      · exact Nat.min_le_left _ _
      · exact Nat.le_trans (Nat.min_le_right _ _) (ih s hs)

theorem leastPos_mem (arr : List AckInfo) (hne : arr ≠ []) :
    ∃ s ∈ arr, s.log_pos = leastPos arr := by
  induction arr with
  | nil => exact absurd rfl hne
  | cons a t ih =>
    cases t with
    | nil => exact ⟨a, List.mem_cons_self _ _, rfl⟩
    | cons b u =>
      have hl : leastPos (a :: b :: u) = min a.log_pos (leastPos (b :: u)) := rfl
      rw [hl]
      rcases Nat.le_total a.log_pos (leastPos (b :: u)) with hle | hle
      · exact ⟨a, List.mem_cons_self _ _, (Nat.min_eq_left hle).symm⟩
      · obtain ⟨s, hs, he⟩ := ih (by simp)
        exact ⟨s, List.mem_cons_of_mem _ hs, by rw [Nat.min_eq_right hle, he]⟩

/-- C4 as stated fails: with quorum size 2, the slot occupied by replica 1 at
position 20 and the floor at 0, `Insert(2, 10)` returns the floor `(2, 10)`;
the floor position 10 is not the occupants' minimum 20. -/
theorem Insert_full_min_counterexample :
    (∀ s ∈ ([⟨1, 20⟩] : List AckInfo), s.server_id ≠ 0 ∧ s.server_id ≠ 2) ∧
      (⟨[⟨1, 20⟩], ⟨0, 0⟩, 0⟩ : AckContainer).floorPos ≤ 10 ∧
      (AckContainer.Insert 2 10 ⟨[⟨1, 20⟩], ⟨0, 0⟩, 0⟩).1 = some ⟨2, 10⟩ ∧
      (AckContainer.Insert 2 10 ⟨[⟨1, 20⟩], ⟨0, 0⟩, 0⟩).2.floorPos = 10 ∧
      leastPos [⟨1, 20⟩] = 20 ∧
      (AckContainer.Insert 2 10 ⟨[⟨1, 20⟩], ⟨0, 0⟩, 0⟩).2.floorPos ≠ leastPos [⟨1, 20⟩] := by
  decide

/-- C4, amended. For a tracker with at least one slot whose slots are all
occupied by non-zero replica ids, a replica id not among them and a position at
or above the floor, `Insert` returns the floor AckInfo, and the floor position
after the call is the smaller of the inserted position and the minimum position
among the occupants before the call. -/
theorem Insert_full_min (c : AckContainer) (id : Int) (p : Nat)
    (hne : c.ack_array_ ≠ []) (hocc : ∀ s ∈ c.ack_array_, s.server_id ≠ 0)
    (hnew : ∀ s ∈ c.ack_array_, s.server_id ≠ id) (hp : c.floorPos ≤ p) :
    (AckContainer.Insert id p c).1 = some (AckContainer.Insert id p c).2.greatest_return_ack_ ∧
      (AckContainer.Insert id p c).2.floorPos = min p (leastPos c.ack_array_) := by
  obtain ⟨fl, arr, e, hIns, hflp, hfls, hcase⟩ :=
    Insert_full id p c (Nat.not_lt.2 hp) hnew hocc
  rw [hIns]
  refine ⟨rfl, ?_⟩
  show fl.log_pos = min p (leastPos c.ack_array_)
  obtain ⟨m, hm, hme⟩ := leastPos_mem c.ack_array_ hne
  have h1 : fl.log_pos ≤ leastPos c.ack_array_ := hme ▸ hfls m hm
  rcases hcase with ⟨hfl, _⟩ | ⟨_, ⟨s, hs, hfl⟩, _⟩
  · have : fl.log_pos = p := by rw [hfl]
    omega
  · have h2 := leastPos_le c.ack_array_ s hs
    have : fl.log_pos = s.log_pos := by rw [hfl]
    omega

/-- Witness of C4 (amended) with quorum size 2: after `Insert(1, 10)` returned
none, `Insert(2, 20)` returns the floor `(1, 10)`. -/
theorem Insert_full_min_witness :
    (AckContainer.Insert 1 10 (fresh 1)).1 = none ∧
      (AckContainer.Insert 2 20 (AckContainer.Insert 1 10 (fresh 1)).2).1 = some ⟨1, 10⟩ ∧
      (AckContainer.Insert 2 20 (AckContainer.Insert 1 10 (fresh 1)).2).2.floorPos
        = min 20 (leastPos (AckContainer.Insert 1 10 (fresh 1)).2.ack_array_) :=
  ⟨by decide, by decide,
   (Insert_full_min (AckContainer.Insert 1 10 (fresh 1)).2 2 20 (by decide) (by decide)
      (by decide) (by decide)).2⟩

/-- C5 as stated fails: `AckContainer::Clear` empties every slot but leaves
the floor as it was.  On the tracker reached by `Insert(1, 10)`, `Insert(2, 20)`
with one slot, the floor is still `(1, 10)` after `Clear` (not empty), and a
following `Insert(3, 5)` is rejected as stale. -/
theorem Clear_keeps_floor :
    (Clear (runInserts [(1, 10), (2, 20)] (fresh 1))).ack_array_ = [⟨0, 0⟩] ∧
      (Clear (runInserts [(1, 10), (2, 20)] (fresh 1))).greatest_return_ack_ = ⟨1, 10⟩ ∧
      AckContainer.Insert 3 5 (Clear (runInserts [(1, 10), (2, 20)] (fresh 1)))
        = (none, Clear (runInserts [(1, 10), (2, 20)] (fresh 1))) := by
  decide

/-- C5, amended. `AckContainer::Clear` resets the slots only: after `Clear`
every slot is empty (replica id 0, position 0) and the floor AckInfo is
unchanged; a following `Insert` is still rejected as stale when its position is
below that floor, and an `Insert` of a non-zero replica id at or above the floor
is accepted (stored in a slot, or promoted to the floor when there is no slot). -/
theorem Clear_resets_slots_only (c : AckContainer) :
    (Clear c).ack_array_ = List.replicate c.ack_array_.length ⟨0, 0⟩ ∧
      (Clear c).greatest_return_ack_ = c.greatest_return_ack_ ∧
      (∀ (id : Int) (p : Nat), p < c.floorPos →
        AckContainer.Insert id p (Clear c) = (none, Clear c)) ∧
      (∀ (id : Int) (p : Nat), id ≠ 0 → c.floorPos ≤ p →
        (⟨id, p⟩ ∈ (AckContainer.Insert id p (Clear c)).2.ack_array_ ∨
          (c.ack_array_ = [] ∧ (AckContainer.Insert id p (Clear c)).1 = some ⟨id, p⟩))) := by
  have harr : (Clear c).ack_array_ = List.replicate c.ack_array_.length ⟨0, 0⟩ := by
    simp only [Clear]
    exact List.map_const' _ _
  have hall : ∀ s ∈ (Clear c).ack_array_, s = (⟨0, 0⟩ : AckInfo) := by
    intro s hs
    rw [harr] at hs
    exact List.eq_of_mem_replicate hs
  refine ⟨harr, rfl, fun id p hp => Insert_stale id p (Clear c) hp, fun id p hid hp => ?_⟩
  have hp2 : ¬ p < (Clear c).greatest_return_ack_.log_pos := Nat.not_lt.2 hp
  have hnew : ∀ s ∈ (Clear c).ack_array_, s.server_id ≠ id := by
    intro s hs h
    rw [hall s hs] at h
    exact hid h.symm
  cases hc : c.ack_array_ with
  | nil =>
    right
    have hnil : (Clear c).ack_array_ = [] := by rw [harr, hc]; rfl
    have hz : ∀ s ∈ (Clear c).ack_array_, s.server_id ≠ 0 := by
      intro s hs
      rw [hnil] at hs
      cases hs
    obtain ⟨fl, arr, e, hIns, _, _, hcase⟩ := Insert_full id p (Clear c) hp2 hnew hz
    refine ⟨rfl, ?_⟩
    rw [hIns]
    rcases hcase with ⟨hfl, _⟩ | ⟨_, ⟨s, hs, _⟩, _⟩
    · rw [hfl]
    · rw [hnil] at hs
      cases hs
  | cons a t =>
    left
    have hz : ∃ s ∈ (Clear c).ack_array_, s.server_id = 0 := by
      refine ⟨⟨0, 0⟩, ?_, rfl⟩
      rw [harr, hc]
      simp
    obtain ⟨k, s, hk, _, hIns⟩ := Insert_free id p (Clear c) hp2 hnew hz
    rw [hIns]
    have hlt : k < (Clear c).ack_array_.length := by
      rcases Nat.lt_or_ge k (Clear c).ack_array_.length with h | h
      · exact h
      · rw [List.getElem?_eq_none h] at hk
        cases hk
    exact List.mem_set _ k hlt _

/-- Witness of C5 (amended): on the tracker reached by `Insert(1, 10)`,
`Insert(2, 20)` with one slot, after `Clear` the call `Insert(3, 5)` is rejected
as stale and the call `Insert(3, 15)` is stored in the slot. -/
theorem Clear_resets_slots_only_witness :
    AckContainer.Insert 3 5 (Clear (runInserts [(1, 10), (2, 20)] (fresh 1)))
        = (none, Clear (runInserts [(1, 10), (2, 20)] (fresh 1))) ∧
      (⟨3, 15⟩ ∈
          (AckContainer.Insert 3 15 (Clear (runInserts [(1, 10), (2, 20)] (fresh 1)))).2.ack_array_ ∨
        ((runInserts [(1, 10), (2, 20)] (fresh 1)).ack_array_ = [] ∧
          (AckContainer.Insert 3 15 (Clear (runInserts [(1, 10), (2, 20)] (fresh 1)))).1
            = some ⟨3, 15⟩)) :=
  ⟨(Clear_resets_slots_only (runInserts [(1, 10), (2, 20)] (fresh 1))).2.2.1 3 5 (by decide),
   (Clear_resets_slots_only (runInserts [(1, 10), (2, 20)] (fresh 1))).2.2.2 3 15 (by decide)
     (by decide)⟩

/-- C6. Stale ack rejection: an `Insert` whose position is strictly below the
floor position returns none and leaves the tracker (every slot and the floor)
unchanged. -/
theorem Insert_stale_rejected (c : AckContainer) (id : Int) (p : Nat)
    (hp : p < c.floorPos) : AckContainer.Insert id p c = (none, c) :=
  Insert_stale id p c hp

/-- Witness of C6: floor position 10, `Insert(3, 5)`. -/
theorem Insert_stale_rejected_witness :
    (5 < (⟨[⟨2, 20⟩], ⟨1, 10⟩, 0⟩ : AckContainer).floorPos) ∧
      AckContainer.Insert 3 5 ⟨[⟨2, 20⟩], ⟨1, 10⟩, 0⟩ = (none, ⟨[⟨2, 20⟩], ⟨1, 10⟩, 0⟩) :=
  ⟨by decide, Insert_stale_rejected ⟨[⟨2, 20⟩], ⟨1, 10⟩, 0⟩ 3 5 (by decide)⟩

/-! ## The waiting registry -/

theorem SignalWaitingNodesUpTo_fst (p : Nat) (l : List WaitingNode) (hl : Ordered l) :
    (SignalWaitingNodesUpTo p l).1
      = (l.filter (fun n => decide (n.log_pos ≤ p))).map WaitingNode.log_pos := by
  induction l with
  | nil => rfl
  | cons a t ih =>
    obtain ⟨hat, ht⟩ := List.pairwise_cons.1 hl
    by_cases ha : a.log_pos > p
    · have hnone : t.filter (fun n => decide (n.log_pos ≤ p)) = [] := by
        rw [List.filter_eq_nil_iff]
        intro b hb
        have := hat b hb
        simp only [decide_eq_true_eq]
        omega
      have hna : ¬ a.log_pos ≤ p := by omega
      simp [SignalWaitingNodesUpTo, ha, List.filter_cons, hna, hnone]
    · have hle : a.log_pos ≤ p := by omega
      simp [SignalWaitingNodesUpTo, ha, List.filter_cons, hle, ih ht]

theorem setEmplace_ne_nil (n : WaitingNode) (l : List WaitingNode) : setEmplace n l ≠ [] := by
  cases l with
  | nil => simp [setEmplace]
  | cons a t =>
    simp only [setEmplace]
    split
    · simp
    · split <;> simp

theorem InsertWaitingNode_ne_nil (p : Nat) (l : List WaitingNode) :
    (InsertWaitingNode p l).2 ≠ [] := by
  unfold InsertWaitingNode
  cases hl : l.getLast? with
  | none => simpa using setEmplace_ne_nil _ _
  | some last =>
    have hne : l ≠ [] := by
      intro h
      rw [h] at hl
      cases hl
    simp only
    split
    · exact setEmplace_ne_nil _ _
    · split
      · exact setEmplace_ne_nil _ _
      · exact hne

theorem FindWaitingNode_isSome (p : Nat) (l : List WaitingNode) (hne : l ≠ []) :
    ∃ node, FindWaitingNode p l = some node ∧ node ∈ l := by
  have hloop : ∀ (m : List WaitingNode) (x : WaitingNode), findLoop p m = some x → x ∈ m := by
    intro m
    induction m with
    | nil => intro x hx; cases hx
    | cons a t ih =>
      intro x hx
      simp only [findLoop] at hx
      split at hx
      · cases hx; exact List.mem_cons_self _ _
      · exact List.mem_cons_of_mem _ (ih x hx)
  unfold FindWaitingNode
  cases hf : findLoop p l with
  | some x => exact ⟨x, rfl, hloop l x hf⟩
  | none =>
    cases l with
    | nil => exact absurd rfl hne
    | cons a t => exact ⟨a, rfl, List.mem_cons_self _ _⟩

theorem setFind_isSome (q : Nat) (l : List WaitingNode) (h : ∃ node ∈ l, node.log_pos = q) :
    ∃ node, setFind q l = some node := by
  unfold setFind
  cases hf : l.find? (fun n => decide (n.log_pos = q)) with
  | some x => exact ⟨x, rfl⟩
  | none =>
    obtain ⟨node, hn, hq⟩ := h
    have := List.find?_eq_none.1 hf node hn
    simp [hq] at this

/-! ## Claims on the coordinator -/

theorem trySwitchOn_frame (p : Nat) (s : ReplSemiSyncMaster) :
    (trySwitchOn p s).node_manager_ = s.node_manager_ ∧
      (trySwitchOn p s).notified_ = s.notified_ ∧
      (trySwitchOn p s).wait_file_pos_ = s.wait_file_pos_ := by
  unfold trySwitchOn
  split_ifs <;> exact ⟨rfl, rfl, rfl⟩

/-- C7. Ack-report postcondition: on an enabled coordinator (its registry
allocated and in ascending order), `reportReplyBinlog(p)` notifies exactly the
registered nodes of position `≤ p` and sets `wait_file_pos_` to the maximum of
its old value and `p`; on a disabled coordinator it changes nothing. -/
theorem reportReplyBinlog_post (s : ReplSemiSyncMaster) (p : Nat) :
    (s.semi_sync_enabled_ = true → ∀ reg, s.node_manager_ = some reg → Ordered reg →
      ∃ s2, reportReplyBinlog p s = some s2 ∧
        s2.notified_ = s.notified_ ++
          (reg.filter (fun n => decide (n.log_pos ≤ p))).map WaitingNode.log_pos ∧
        s2.wait_file_pos_ = max s.wait_file_pos_ p) ∧
    (s.semi_sync_enabled_ = false → reportReplyBinlog p s = some s) := by
  constructor
  · intro he reg hreg hord
    have hsig := SignalWaitingNodesUpTo_fst p reg hord
    obtain ⟨hnm, hno, hwp⟩ := trySwitchOn_frame p s
    have hnm : (if (!s.IsOn) = true then trySwitchOn p s else s).node_manager_ = some reg := by
      split
      · rw [hnm]; exact hreg
      · exact hreg
    have hno : (if (!s.IsOn) = true then trySwitchOn p s else s).notified_ = s.notified_ := by
      split
      · exact hno
      · rfl
    have hwp : (if (!s.IsOn) = true then trySwitchOn p s else s).wait_file_pos_
        = s.wait_file_pos_ := by
      split
      · exact hwp
      · rfl
    unfold reportReplyBinlog
    simp only [IsSemiSyncEnabled, he, Bool.not_true, Bool.false_eq_true, if_false]
    rw [hnm]
    simp only [hwp, hno, hsig]
    by_cases hp : p > s.wait_file_pos_
    · rw [if_pos hp]
      exact ⟨_, rfl, rfl, (Nat.max_eq_right (Nat.le_of_lt hp)).symm⟩
    · rw [if_neg hp]
      exact ⟨_, rfl, rfl, by simp only [hwp]; exact (Nat.max_eq_left (by omega)).symm⟩
  · intro he
    simp [reportReplyBinlog, IsSemiSyncEnabled, he]

/-- Witness of C7: an ack-report on 10 with `wait_file_pos_ = 3` and nodes at 5,
10 and 20 notifies the nodes at 5 and 10 and sets `wait_file_pos_` to 10; on a
disabled coordinator nothing changes. -/
theorem reportReplyBinlog_post_witness :
    (∃ s2, reportReplyBinlog 10 (sample true true 3 0 [⟨5, 1⟩, ⟨10, 1⟩, ⟨20, 1⟩]) = some s2 ∧
        s2.notified_ = [5, 10] ∧ s2.wait_file_pos_ = 10) ∧
      reportReplyBinlog 10 (sample false false 3 0 [⟨5, 1⟩]) =
        some (sample false false 3 0 [⟨5, 1⟩]) :=
  ⟨(reportReplyBinlog_post (sample true true 3 0 [⟨5, 1⟩, ⟨10, 1⟩, ⟨20, 1⟩]) 10).1 rfl _ rfl
      (by unfold Ordered; decide),
   (reportReplyBinlog_post (sample false false 3 0 [⟨5, 1⟩]) 10).2 rfl⟩

/-- C8. Auto-recovery: on an enabled coordinator in Async mode (registry
allocated), after `reportReplyBinlog(p)` the coordinator is in Sync mode if and
only if `p > max_handle_sequence_`. -/
theorem reportReplyBinlog_recovery (s : ReplSemiSyncMaster) (p : Nat)
    (reg : List WaitingNode) (he : s.semi_sync_enabled_ = true) (hoff : s.state_ = false)
    (hreg : s.node_manager_ = some reg) :
    ∃ s2, reportReplyBinlog p s = some s2 ∧ s2.semi_sync_enabled_ = true ∧
      (s2.state_ = true ↔ s.max_handle_sequence_ < p) := by
  unfold reportReplyBinlog
  simp only [IsSemiSyncEnabled, IsOn, he, hoff, Bool.not_true, Bool.not_false,
    Bool.false_eq_true, if_false, if_true]
  by_cases hp : p > s.max_handle_sequence_
  · have ht : trySwitchOn p s = { s with state_ := true } := by
      simp [trySwitchOn, he, hp]
    rw [ht]
    simp only [hreg]
    split
    · exact ⟨_, rfl, he, by simpa using hp⟩
    · exact ⟨_, rfl, he, by simpa using hp⟩
  · have ht : trySwitchOn p s = s := by
      simp [trySwitchOn, he, hp]
    rw [ht]
    simp only [hreg]
    split
    · exact ⟨_, rfl, he, by simp [hoff]; omega⟩
    · exact ⟨_, rfl, he, by simp [hoff]; omega⟩

/-- Witness of C8: in Async mode with `max_handle_sequence_ = 500`, an
ack-report on 600 switches to Sync and an ack-report on 400 does not. -/
theorem reportReplyBinlog_recovery_witness :
    (∃ s2, reportReplyBinlog 600 (sample true false 0 500 []) = some s2 ∧
        s2.semi_sync_enabled_ = true ∧ (s2.state_ = true ↔ 500 < 600)) ∧
      (∃ s2, reportReplyBinlog 400 (sample true false 0 500 []) = some s2 ∧
        s2.semi_sync_enabled_ = true ∧ (s2.state_ = true ↔ 500 < 400)) :=
  ⟨reportReplyBinlog_recovery (sample true false 0 500 []) 600 [] rfl rfl rfl,
   reportReplyBinlog_recovery (sample true false 0 500 []) 400 [] rfl rfl rfl⟩

theorem CommitTrxPark_not_waited (s : ReplSemiSyncMaster) (pos : Nat) (h : notWaited pos s) :
    CommitTrxPark pos s = .not_waited s := by
  unfold CommitTrxPark
  rcases h with h | h | h
  · simp [IsSemiSyncEnabled, h]
  · simp [IsOn, h]
  · simp [h]

theorem CommitTrxPark_parked (s : ReplSemiSyncMaster) (pos : Nat) (reg : List WaitingNode)
    (h : ¬ notWaited pos s) (hreg : s.node_manager_ = some reg) :
    ∃ n s1, CommitTrxPark pos s = .parked n s1 := by
  unfold notWaited at h
  have he : s.semi_sync_enabled_ = true := by
    cases hh : s.semi_sync_enabled_
    · exact absurd (Or.inl hh) h
    · rfl
  have hon : s.state_ = true := by
    cases hh : s.state_
    · exact absurd (Or.inr (Or.inl hh)) h
    · rfl
  have hp : ¬ pos ≤ s.wait_file_pos_ := fun hh => h (Or.inr (Or.inr hh))
  obtain ⟨node, hfind, hmem⟩ :=
    FindWaitingNode_isSome pos (InsertWaitingNode pos reg).2 (InsertWaitingNode_ne_nil pos reg)
  refine ⟨node.log_pos,
    { s with node_manager_ := some (addWaiters node.log_pos 1 (InsertWaitingNode pos reg).2) },
    ?_⟩
  unfold CommitTrxPark
  simp only [IsSemiSyncEnabled, IsOn, he, hon, Bool.not_true, Bool.or_self, Bool.false_eq_true,
    if_false, hp, hreg, hfind]

theorem CommitTrxResume_ok (cause : cv_status) (pos n : Nat) (s : ReplSemiSyncMaster)
    (reg : List WaitingNode) (hreg : s.node_manager_ = some reg)
    (hnode : ∃ node ∈ reg, node.log_pos = n) :
    ∃ s2, CommitTrxResume cause pos n s = some (true, s2) ∧
      s2.semi_sync_enabled_ = s.semi_sync_enabled_ ∧
      (cause = cv_status.timeout → s2.state_ = false) := by
  obtain ⟨node, hfind⟩ := setFind_isSome n reg hnode
  unfold CommitTrxResume
  simp only [hreg, hfind]
  cases cause with
  | no_timeout =>
    simp only [reduceCtorEq, if_false]
    split_ifs <;> exact ⟨_, rfl, rfl, fun h => by cases h⟩
  | timeout =>
    simp only [if_true, switchOff]
    split_ifs <;> exact ⟨_, rfl, rfl, fun _ => rfl⟩

/-- With the parked node still registered at wake, a wait ended by timeout
makes `CommitTrx` return true with the coordinator in Async mode. -/
theorem CommitTrx_timeout_registered (s : ReplSemiSyncMaster) (pos : Nat)
    (wait : ReplSemiSyncMaster → cv_status × ReplSemiSyncMaster) (reg : List WaitingNode)
    (he : s.semi_sync_enabled_ = true) (hon : s.state_ = true) (hpos : s.wait_file_pos_ < pos)
    (hreg : s.node_manager_ = some reg)
    (hto : ∀ s1, (wait s1).1 = cv_status.timeout)
    (hwake : ∀ n s1, CommitTrxPark pos s = .parked n s1 →
      (wait s1).2.semi_sync_enabled_ = true ∧
        ∃ reg2, (wait s1).2.node_manager_ = some reg2 ∧ ∃ node ∈ reg2, node.log_pos = n) :
    ∃ s2, CommitTrx pos wait s = some (true, s2) ∧ s2.semi_sync_enabled_ = true ∧
      s2.state_ = false := by
  have hnw : ¬ notWaited pos s := by
    unfold notWaited
    rw [he, hon]
    simp only [Bool.true_eq_false, false_or]
    omega
  obtain ⟨n, s1, hpark⟩ := CommitTrxPark_parked s pos reg hnw hreg
  obtain ⟨hen, reg2, hreg2, hnode⟩ := hwake n s1 hpark
  obtain ⟨s2, hres, he2, hst⟩ := CommitTrxResume_ok (wait s1).1 pos n (wait s1).2 reg2 hreg2 hnode
  refine ⟨s2, ?_, he2.trans hen, hst (hto s1)⟩
  unfold CommitTrx
  rw [hpark]
  exact hres

/-- With the parked node still registered at wake, `CommitTrx` returns, and it
returns false exactly when it did not wait. -/
theorem CommitTrx_return_registered (s : ReplSemiSyncMaster) (pos : Nat)
    (wait : ReplSemiSyncMaster → cv_status × ReplSemiSyncMaster)
    (hwf : s.semi_sync_enabled_ = true → ∃ reg, s.node_manager_ = some reg)
    (hwake : ∀ n s1, CommitTrxPark pos s = .parked n s1 →
      ∃ reg2, (wait s1).2.node_manager_ = some reg2 ∧ ∃ node ∈ reg2, node.log_pos = n) :
    ∃ r s2, CommitTrx pos wait s = some (r, s2) ∧ (r = false ↔ notWaited pos s) ∧
      (notWaited pos s → s2 = s ∧ CommitTrxPark pos s = .not_waited s) ∧
      (¬ notWaited pos s → ∃ n s1, CommitTrxPark pos s = .parked n s1) := by
  by_cases hnw : notWaited pos s
  · have hpark := CommitTrxPark_not_waited s pos hnw
    refine ⟨false, s, ?_, by simp [hnw], fun _ => ⟨rfl, hpark⟩, fun h => absurd hnw h⟩
    unfold CommitTrx
    rw [hpark]
  · have he : s.semi_sync_enabled_ = true := by
      cases hh : s.semi_sync_enabled_
      · exact absurd (Or.inl hh) hnw
      · rfl
    obtain ⟨reg, hreg⟩ := hwf he
    obtain ⟨n, s1, hpark⟩ := CommitTrxPark_parked s pos reg hnw hreg
    obtain ⟨reg2, hreg2, hnode⟩ := hwake n s1 hpark
    obtain ⟨s2, hres, _, _⟩ :=
      CommitTrxResume_ok (wait s1).1 pos n (wait s1).2 reg2 hreg2 hnode
    refine ⟨true, s2, ?_, by simp [hnw], fun h => absurd h hnw, fun _ => ⟨n, s1, hpark⟩⟩
    unfold CommitTrx
    rw [hpark]
    exact hres

/-! ## The representation invariants are preserved -/

theorem mem_setEmplace {n x : WaitingNode} {l : List WaitingNode} (h : x ∈ setEmplace n l) :
    x = n ∨ x ∈ l := by
  induction l with
  | nil =>
    simp only [setEmplace, List.mem_singleton] at h
    exact Or.inl h
  | cons a t ih =>
    simp only [setEmplace] at h
    split at h
    · rcases List.mem_cons.1 h with h | h
      · exact Or.inl h
      · exact Or.inr h
    · split at h
      · rcases List.mem_cons.1 h with h | h
        · exact Or.inr (h ▸ List.mem_cons_self _ _)
        · rcases ih h with h | h
          · exact Or.inl h
          · exact Or.inr (List.mem_cons_of_mem _ h)
      · exact Or.inr h

theorem setEmplace_ordered (n : WaitingNode) (l : List WaitingNode) (hl : Ordered l) :
    Ordered (setEmplace n l) := by
  induction l with
  | nil => simp [setEmplace, Ordered]
  | cons a t ih =>
    obtain ⟨hat, ht⟩ := List.pairwise_cons.1 hl
    simp only [setEmplace]
    split
    · rename_i hlt
      refine List.pairwise_cons.2 ⟨fun b hb => ?_, hl⟩
      rcases List.mem_cons.1 hb with rfl | hb
      · exact hlt
      · exact Nat.lt_trans hlt (hat b hb)
    · split
      · rename_i hlt
        refine List.pairwise_cons.2 ⟨fun b hb => ?_, ih ht⟩
        rcases mem_setEmplace hb with rfl | hb
        · exact hlt
        · exact hat b hb
      · exact hl

theorem InsertWaitingNode_ordered (p : Nat) (l : List WaitingNode) (hl : Ordered l) :
    Ordered (InsertWaitingNode p l).2 := by
  unfold InsertWaitingNode
  simp only
  split
  · exact setEmplace_ordered _ _ hl
  · exact hl

theorem ClearWaitingNodes_sublist (p : Nat) (l : List WaitingNode) :
    (ClearWaitingNodes p l).Sublist l := by
  induction l with
  | nil => exact List.Sublist.refl _
  | cons a t ih =>
    simp only [ClearWaitingNodes]
    split
    · exact List.Sublist.refl _
    · split
      · exact List.Sublist.cons₂ a ih
      · exact List.Sublist.cons a ih

theorem ClearWaitingNodes_ordered (p : Nat) (l : List WaitingNode) (hl : Ordered l) :
    Ordered (ClearWaitingNodes p l) :=
  List.Pairwise.sublist (ClearWaitingNodes_sublist p l) hl

theorem addWaiters_ordered (q : Nat) (d : Int) (l : List WaitingNode) (hl : Ordered l) :
    Ordered (addWaiters q d l) := by
  unfold addWaiters Ordered
  rw [List.pairwise_map]
  refine List.Pairwise.imp ?_ hl
  intro a b hab
  by_cases ha : a.log_pos = q <;> by_cases hb : b.log_pos = q <;> simp [ha, hb] <;> omega

theorem reportReplyBinlog_frame (p : Nat) (s s2 : ReplSemiSyncMaster)
    (h : reportReplyBinlog p s = some s2) :
    s2.node_manager_ = s.node_manager_ ∧ s2.semi_sync_enabled_ = s.semi_sync_enabled_ := by
  unfold reportReplyBinlog at h
  have hfr : (if (!s.IsOn) = true then trySwitchOn p s else s).node_manager_ = s.node_manager_ ∧
      (if (!s.IsOn) = true then trySwitchOn p s else s).semi_sync_enabled_
        = s.semi_sync_enabled_ := by
    unfold trySwitchOn
    split_ifs <;> exact ⟨rfl, rfl⟩
  by_cases he : (!s.IsSemiSyncEnabled) = true
  · rw [if_pos he] at h
    cases h
    exact ⟨rfl, rfl⟩
  · rw [if_neg he] at h
    simp only at h
    generalize (if (!s.IsOn) = true then trySwitchOn p s else s) = s1 at h hfr
    cases hn : s1.node_manager_ with
    | none =>
      simp only [hn] at h
      cases h
    | some reg =>
      simp only [hn] at h
      split_ifs at h <;> (cases h; exact ⟨hn.symm.trans hfr.1, hfr.2⟩)

theorem reportReplyBinlog_wellFormed (p : Nat) (s s2 : ReplSemiSyncMaster)
    (hs : WellFormed s) (h : reportReplyBinlog p s = some s2) : WellFormed s2 := by
  obtain ⟨h1, h2⟩ := reportReplyBinlog_frame p s s2 h
  unfold WellFormed
  rw [h1, h2]
  exact hs

theorem EnableMaster_wellFormed (s : ReplSemiSyncMaster) (hs : WellFormed s) :
    WellFormed (EnableMaster s).2 ∧ (EnableMaster s).2.semi_sync_enabled_ = true := by
  unfold EnableMaster WellFormed
  cases he : s.semi_sync_enabled_
  · cases hn : s.node_manager_ with
    | none =>
      simp only [IsSemiSyncEnabled, he, hn, setSemiSyncEnabled, Bool.not_false, if_true,
        Option.isNone_none]
      refine ⟨⟨fun reg hreg => ?_, fun _ => ⟨[], rfl⟩⟩, by first | rfl | trivial⟩
      cases hreg
      exact List.Pairwise.nil
    | some reg0 =>
      simp only [IsSemiSyncEnabled, he, hn, setSemiSyncEnabled, Bool.not_false, if_true,
        Option.isNone_some, Bool.false_eq_true, if_false]
      exact ⟨⟨fun reg hreg => hs.1 reg (hn ▸ hreg), fun _ => ⟨reg0, rfl⟩⟩, by first | rfl | trivial⟩
  · simp only [IsSemiSyncEnabled, he, Bool.not_true, Bool.false_eq_true, if_false]
    exact ⟨⟨hs.1, fun _ => hs.2 he⟩, by first | exact he | trivial⟩

theorem DisableMaster_wellFormed (s : ReplSemiSyncMaster) (r : Int × ReplSemiSyncMaster)
    (hs : WellFormed s) (h : DisableMaster s = some r) : WellFormed r.2 := by
  unfold DisableMaster at h
  split at h
  · unfold switchOff at h
    split at h
    · cases h
    · simp only [setSemiSyncEnabled] at h
      cases h
      exact ⟨fun reg hreg => (by cases hreg), fun he => (by cases he)⟩
  · cases h
    exact hs

theorem CommitTrxPark_wellFormed (pos n : Nat) (s s1 : ReplSemiSyncMaster)
    (hs : WellFormed s) (h : CommitTrxPark pos s = .parked n s1) :
    WellFormed s1 ∧ ∃ reg1, s1.node_manager_ = some reg1 ∧ ∃ node ∈ reg1, node.log_pos = n := by
  unfold CommitTrxPark at h
  split at h
  · cases h
  · split at h
    · cases h
    · split at h
      · cases h
      · rename_i reg hreg
        simp only at h
        split at h
        · cases h
        · rename_i trx_node hfind
          injection h with hn hs1
          subst hn
          subst hs1
          have hord := addWaiters_ordered trx_node.log_pos 1 _
            (InsertWaitingNode_ordered pos reg (hs.1 reg hreg))
          obtain ⟨node, hf, hmem⟩ := FindWaitingNode_isSome pos (InsertWaitingNode pos reg).2
            (InsertWaitingNode_ne_nil pos reg)
          rw [hfind] at hf
          cases hf
          refine ⟨⟨fun reg2 hreg2 => ?_, fun _ => ⟨_, rfl⟩⟩, _, rfl, ?_⟩
          · cases hreg2
            exact hord
          · refine ⟨{ trx_node with waiters := trx_node.waiters + 1 }, ?_, rfl⟩
            unfold addWaiters
            exact List.mem_map.2 ⟨trx_node, hmem, by simp⟩


/-! ## Waiter counts and the steps of other threads -/

theorem waitersOf_cons (k : Nat) (a : WaitingNode) (t : List WaitingNode) :
    waitersOf k (a :: t) = if a.log_pos = k then a.waiters else waitersOf k t := by
  unfold waitersOf setFind
  by_cases h : a.log_pos = k
  · simp [List.find?_cons, h]
  · simp [List.find?_cons, h]

theorem waitersOf_of_lt (k : Nat) (l : List WaitingNode) (h : ∀ x ∈ l, k < x.log_pos) :
    waitersOf k l = 0 := by
  induction l with
  | nil => rfl
  | cons a t ih =>
    have ha := h a (List.mem_cons_self _ _)
    rw [waitersOf_cons, if_neg (by omega)]
    exact ih (fun x hx => h x (List.mem_cons_of_mem _ hx))

theorem waitersOf_setEmplace (k p : Nat) (l : List WaitingNode) (hl : Ordered l) :
    waitersOf k (setEmplace ⟨p, 0⟩ l) = waitersOf k l := by
  induction l with
  | nil =>
    simp only [setEmplace, waitersOf_cons]
    split <;> rfl
  | cons a t ih =>
    obtain ⟨hat, ht⟩ := List.pairwise_cons.1 hl
    simp only [setEmplace]
    split
    · rename_i hlt
      rw [waitersOf_cons]
      split
      · rename_i hpk
        simp only at hpk
        symm
        apply waitersOf_of_lt
        intro x hx
        rcases List.mem_cons.1 hx with rfl | hx
        · omega
        · have := hat x hx
          omega
      · rfl
    · split
      · rw [waitersOf_cons, waitersOf_cons, ih ht]
      · rfl

theorem waitersOf_InsertWaitingNode (k p : Nat) (l : List WaitingNode) (hl : Ordered l) :
    waitersOf k (InsertWaitingNode p l).2 = waitersOf k l := by
  unfold InsertWaitingNode
  simp only
  split
  · exact waitersOf_setEmplace k p l hl
  · rfl

theorem waitersOf_addWaiters_ne (k m : Nat) (d : Int) (l : List WaitingNode) (h : k ≠ m) :
    waitersOf k (addWaiters m d l) = waitersOf k l := by
  induction l with
  | nil => rfl
  | cons a t ih =>
    have ht : addWaiters m d (a :: t)
        = (if a.log_pos = m then { a with waiters := a.waiters + d } else a)
            :: addWaiters m d t := rfl
    rw [ht, waitersOf_cons, waitersOf_cons, ih]
    by_cases ha : a.log_pos = m
    · have hmk : ¬ m = k := fun hh => h hh.symm
      simp only [ha, if_true, if_neg hmk]
    · simp [ha]

theorem waitersOf_addWaiters_eq (m : Nat) (d : Int) (l : List WaitingNode)
    (h : ∃ node ∈ l, node.log_pos = m) :
    waitersOf m (addWaiters m d l) = waitersOf m l + d := by
  induction l with
  | nil =>
    obtain ⟨node, hn, _⟩ := h
    cases hn
  | cons a t ih =>
    have ht : addWaiters m d (a :: t)
        = (if a.log_pos = m then { a with waiters := a.waiters + d } else a)
            :: addWaiters m d t := rfl
    rw [ht, waitersOf_cons, waitersOf_cons]
    by_cases ha : a.log_pos = m
    · simp [ha]
    · have h2 : ∃ node ∈ t, node.log_pos = m := by
        obtain ⟨node, hn, hm⟩ := h
        rcases List.mem_cons.1 hn with rfl | hn
        · exact absurd hm ha
        · exact ⟨node, hn, hm⟩
      simp [ha, ih h2]

theorem waitersOf_ClearWaitingNodes (k p : Nat) (l : List WaitingNode) (hl : Ordered l) :
    waitersOf k (ClearWaitingNodes p l) = waitersOf k l := by
  induction l with
  | nil => rfl
  | cons a t ih =>
    obtain ⟨hat, ht⟩ := List.pairwise_cons.1 hl
    simp only [ClearWaitingNodes]
    split
    · rfl
    · split
      · rw [waitersOf_cons, waitersOf_cons, ih ht]
      · rename_i _ hw
        rw [waitersOf_cons]
        split
        · rename_i hak
          have hz : a.waiters = 0 := by
            by_contra hne
            exact hw hne
          rw [hz]
          apply waitersOf_of_lt
          intro x hx
          have := hat x ((ClearWaitingNodes_sublist p t).subset hx)
          omega
        · exact ih ht

theorem mem_of_waitersOf_pos (k : Nat) (l : List WaitingNode) (h : 0 < waitersOf k l) :
    ∃ node ∈ l, node.log_pos = k := by
  unfold waitersOf at h
  cases hf : setFind k l with
  | none =>
    rw [hf] at h
    exact absurd h (by decide)
  | some node =>
    unfold setFind at hf
    refine ⟨node, List.mem_of_find?_eq_some hf, ?_⟩
    have := List.find?_some hf
    simpa using this

theorem switchOff_frame (s s2 : ReplSemiSyncMaster) (h : switchOff s = some s2) :
    s2.node_manager_ = s.node_manager_ ∧ s2.semi_sync_enabled_ = s.semi_sync_enabled_ := by
  unfold switchOff at h
  cases hn : s.node_manager_ with
  | none =>
    simp only [hn] at h
    cases h
  | some reg =>
    simp only [hn] at h
    cases h
    exact ⟨rfl, rfl⟩

theorem HandleAck_frame (id : Int) (p : Nat) (s s2 : ReplSemiSyncMaster)
    (h : HandleAck id p s = some s2) :
    s2.node_manager_ = s.node_manager_ ∧ s2.semi_sync_enabled_ = s.semi_sync_enabled_ := by
  unfold HandleAck at h
  by_cases hq : s.semi_sync_wait_for_slave_count_ = 1
  · rw [if_pos hq] at h
    exact reportReplyBinlog_frame p s s2 h
  · rw [if_neg hq] at h
    simp only at h
    cases hr : (AckContainer.Insert id p s.ack_container_).1 with
    | none =>
      simp only [hr] at h
      cases h
      exact ⟨rfl, rfl⟩
    | some ack =>
      simp only [hr] at h
      have hfr := reportReplyBinlog_frame _ _ s2 h
      exact hfr

theorem SetWaitSlaveCount_frame (n : Nat) (s : ReplSemiSyncMaster)
    (r : Bool × ReplSemiSyncMaster) (h : SetWaitSlaveCount n s = some r) :
    r.2.node_manager_ = s.node_manager_ ∧ r.2.semi_sync_enabled_ = s.semi_sync_enabled_ := by
  unfold SetWaitSlaveCount at h
  simp only at h
  generalize (if n = 0 then s.slave_threads_.length / 2 + 1 else n) = nv at h
  by_cases hr : (Resize nv s.ack_container_).1 = true
  · rw [if_pos hr] at h
    cases ha : (Resize nv s.ack_container_).2.1 with
    | none =>
      simp only [ha] at h
      cases h
      exact ⟨rfl, rfl⟩
    | some ackinfo =>
      simp only [ha] at h
      cases hrep : reportReplyBinlog ackinfo.log_pos
          { s with ack_container_ := (Resize nv s.ack_container_).2.2 } with
      | none =>
        simp only [hrep] at h
        cases h
      | some s3 =>
        simp only [hrep] at h
        cases h
        have hfr := reportReplyBinlog_frame _ _ s3 hrep
        exact hfr
  · rw [if_neg hr] at h
    cases h
    exact ⟨rfl, rfl⟩

theorem AddSlave_frame (t : Option FeedSlaveThread) (s s2 : ReplSemiSyncMaster)
    (h : AddSlave t s = some s2) :
    s2.node_manager_ = s.node_manager_ ∧ s2.semi_sync_enabled_ = s.semi_sync_enabled_ := by
  unfold AddSlave at h
  split at h
  · cases h
  · cases h
    exact ⟨rfl, rfl⟩

theorem RemoveSlave_frame (t : Option FeedSlaveThread) (s s2 : ReplSemiSyncMaster)
    (h : RemoveSlave t s = some s2) :
    s2.node_manager_ = s.node_manager_ ∧ s2.semi_sync_enabled_ = s.semi_sync_enabled_ := by
  unfold RemoveSlave at h
  split at h
  · cases h
  · simp only at h
    split at h
    · cases h
      exact ⟨rfl, rfl⟩
    · split at h
      · have hfr := switchOff_frame _ s2 h
        exact hfr
      · cases h
        exact ⟨rfl, rfl⟩

theorem EnableMaster_frame (s : ReplSemiSyncMaster) (reg : List WaitingNode)
    (hreg : s.node_manager_ = some reg) :
    (EnableMaster s).2.node_manager_ = some reg := by
  unfold EnableMaster
  cases he : s.semi_sync_enabled_
  · simp [IsSemiSyncEnabled, he, hreg, setSemiSyncEnabled]
  · simp [IsSemiSyncEnabled, he, hreg]

theorem CommitTrxPark_inv (pos : Nat) (s : ReplSemiSyncMaster) :
    CommitTrxPark pos s = .not_waited s ∨ CommitTrxPark pos s = .fault ∨
      ∃ reg node, s.node_manager_ = some reg ∧ node ∈ (InsertWaitingNode pos reg).2 ∧
        CommitTrxPark pos s = .parked node.log_pos
          { s with
            node_manager_ := some (addWaiters node.log_pos 1 (InsertWaitingNode pos reg).2) } := by
  unfold CommitTrxPark
  by_cases h1 : (!s.IsSemiSyncEnabled || !s.IsOn) = true
  · rw [if_pos h1]
    exact Or.inl rfl
  · rw [if_neg h1]
    by_cases h2 : pos ≤ s.wait_file_pos_
    · rw [if_pos h2]
      exact Or.inl rfl
    · rw [if_neg h2]
      cases hn : s.node_manager_ with
      | none => exact Or.inr (Or.inl rfl)
      | some reg =>
        obtain ⟨node, hfind, hmem⟩ := FindWaitingNode_isSome pos (InsertWaitingNode pos reg).2
          (InsertWaitingNode_ne_nil pos reg)
        refine Or.inr (Or.inr ⟨reg, node, rfl, hmem, ?_⟩)
        simp only [hfind]

theorem CommitTrxResume_inv (cause : cv_status) (pos m : Nat) (s : ReplSemiSyncMaster)
    (r : Bool × ReplSemiSyncMaster) (h : CommitTrxResume cause pos m s = some r) :
    ∃ reg, s.node_manager_ = some reg ∧ (∃ node ∈ reg, node.log_pos = m) ∧
      r.2.semi_sync_enabled_ = s.semi_sync_enabled_ ∧
      (r.2.node_manager_ = some (addWaiters m (-1) reg) ∨
        r.2.node_manager_ = some (ClearWaitingNodes pos (addWaiters m (-1) reg))) := by
  unfold CommitTrxResume at h
  cases hn : s.node_manager_ with
  | none =>
    simp only [hn] at h
    cases h
  | some reg =>
    simp only [hn] at h
    cases hf : setFind m reg with
    | none =>
      simp only [hf] at h
      cases h
    | some node =>
      simp only [hf] at h
      have hmem : ∃ node ∈ reg, node.log_pos = m := by
        unfold setFind at hf
        refine ⟨node, List.mem_of_find?_eq_some hf, ?_⟩
        have := List.find?_some hf
        simpa using this
      refine ⟨reg, rfl, hmem, ?_⟩
      cases cause with
      | no_timeout =>
        simp only [reduceCtorEq, if_false] at h
        split_ifs at h <;> cases h <;>
          first | exact ⟨rfl, Or.inl rfl⟩ | exact ⟨rfl, Or.inr rfl⟩
      | timeout =>
        simp only [if_true, switchOff] at h
        split_ifs at h <;> cases h <;>
          first | exact ⟨rfl, Or.inl rfl⟩ | exact ⟨rfl, Or.inr rfl⟩

theorem park_accounted (L L2 : List Nat) (reg : List WaitingNode) (pos m : Nat)
    (hord : Ordered reg) (hacc : ∀ k, ((L.count k : Nat) : Int) ≤ waitersOf k reg)
    (hm : ∃ node ∈ (InsertWaitingNode pos reg).2, node.log_pos = m)
    (hL : ∀ k, L2.count k = L.count k + (if k = m then 1 else 0)) :
    ∀ k, ((L2.count k : Nat) : Int)
      ≤ waitersOf k (addWaiters m 1 (InsertWaitingNode pos reg).2) := by
  intro k
  have h1 := hacc k
  have h2 := waitersOf_InsertWaitingNode k pos reg hord
  rw [hL k]
  by_cases hk : k = m
  · subst hk
    rw [waitersOf_addWaiters_eq k 1 _ hm, h2, if_pos rfl]
    push_cast
    omega
  · rw [waitersOf_addWaiters_ne k m 1 _ hk, h2, if_neg hk]
    simpa using h1

theorem resume_accounted (L L2 : List Nat) (reg : List WaitingNode) (m : Nat)
    (hacc : ∀ k, ((L.count k : Nat) : Int) ≤ waitersOf k reg)
    (hm : ∃ node ∈ reg, node.log_pos = m)
    (hL : ∀ k, L2.count k + (if k = m then 1 else 0) = L.count k) :
    ∀ k, ((L2.count k : Nat) : Int) ≤ waitersOf k (addWaiters m (-1) reg) := by
  intro k
  have h1 := hacc k
  have h2 := hL k
  by_cases hk : k = m
  · subst hk
    rw [waitersOf_addWaiters_eq k (-1) _ hm]
    rw [if_pos rfl] at h2
    omega
  · rw [waitersOf_addWaiters_ne k m (-1) _ hk]
    rw [if_neg hk] at h2
    omega

theorem count_cons_erase (n m : Nat) (others : List Nat) (hm : m ∈ others) (k : Nat) :
    (n :: others.erase m).count k + (if k = m then 1 else 0) = (n :: others).count k := by
  rw [List.count_cons, List.count_cons]
  by_cases hk : k = m
  · subst hk
    have hpos : 0 < others.count k := List.count_pos_iff.2 hm
    rw [List.count_erase_self, if_pos rfl]
    omega
  · rw [List.count_erase_of_ne hk, if_neg hk]
    omega

theorem count_cons_cons (n m : Nat) (others : List Nat) (k : Nat) :
    (n :: m :: others).count k = (n :: others).count k + (if k = m then 1 else 0) := by
  rw [List.count_cons, List.count_cons, List.count_cons]
  by_cases hk : k = m
  · subst hk
    simp
    omega
  · have : ¬ (m == k) = true := by simpa using fun h => hk h.symm
    simp [hk, this]

/-- A step of another thread keeps the parked thread's node registered. -/
theorem EnvStep_parkedOn (n : Nat) (x y : ReplSemiSyncMaster × List Nat)
    (hx : ParkedOn n x) (h : EnvStep x y) : ParkedOn n y := by
  obtain ⟨hen, reg, hreg, hord, hacc⟩ := hx
  have hframe : ∀ (s2 : ReplSemiSyncMaster) (others : List Nat), x.2 = others →
      s2.node_manager_ = x.1.node_manager_ ∧ s2.semi_sync_enabled_ = x.1.semi_sync_enabled_ →
      ParkedOn n (s2, others) := by
    intro s2 others ho hf
    refine ⟨hf.2.trans hen, reg, hf.1.trans hreg, hord, ?_⟩
    subst ho
    exact hacc
  cases h with
  | handleAck id p s s2 others hstep => exact hframe s2 others rfl (HandleAck_frame id p s s2 hstep)
  | setWaitSlaveCount nv s r others hstep =>
    exact hframe r.2 others rfl (SetWaitSlaveCount_frame nv s r hstep)
  | addSlave t s s2 others hstep => exact hframe s2 others rfl (AddSlave_frame t s s2 hstep)
  | removeSlave t s s2 others hstep => exact hframe s2 others rfl (RemoveSlave_frame t s s2 hstep)
  | enableMaster s others =>
    refine ⟨?_, reg, EnableMaster_frame s reg hreg, hord, hacc⟩
    have he : s.semi_sync_enabled_ = true := hen
    simp [EnableMaster, IsSemiSyncEnabled, he]
  | setAutoFallBack b s others => exact hframe _ others rfl ⟨rfl, rfl⟩
  | commitNotWaited pos s s2 others hstep =>
    rcases CommitTrxPark_inv pos s with h1 | h1 | ⟨_, _, _, _, h1⟩
    · rw [h1] at hstep
      cases hstep
      exact hframe _ others rfl ⟨rfl, rfl⟩
    · rw [h1] at hstep
      cases hstep
    · rw [h1] at hstep
      cases hstep
  | commitLookupMiss pos s s2 others hstep =>
    rcases CommitTrxPark_inv pos s with h1 | h1 | ⟨_, _, _, _, h1⟩
    · rw [h1] at hstep
      cases hstep
    · rw [h1] at hstep
      cases hstep
    · rw [h1] at hstep
      cases hstep
  | commitPark pos m s s2 others hstep =>
    rcases CommitTrxPark_inv pos s with h1 | h1 | ⟨reg1, node, hreg1, hmem, h1⟩
    · rw [h1] at hstep
      cases hstep
    · rw [h1] at hstep
      cases hstep
    · rw [h1] at hstep
      injection hstep with hm hs2
      subst hm
      subst hs2
      have hrr : reg1 = reg := by
        have hreg2 : s.node_manager_ = some reg := hreg
        rw [hreg1] at hreg2
        exact Option.some.inj hreg2
      subst hrr
      refine ⟨hen, _, rfl, addWaiters_ordered _ _ _ (InsertWaitingNode_ordered pos reg1 hord), ?_⟩
      exact park_accounted (n :: others) (n :: node.log_pos :: others) reg1 pos node.log_pos
        hord hacc ⟨node, hmem, rfl⟩ (count_cons_cons n node.log_pos others)
  | commitResume cause pos m s r others hmo hstep =>
    obtain ⟨reg1, hreg1, hnode, hen2, hnm⟩ := CommitTrxResume_inv cause pos m s r hstep
    have hrr : reg1 = reg := by
      have hreg2 : s.node_manager_ = some reg := hreg
      rw [hreg1] at hreg2
      exact Option.some.inj hreg2
    subst hrr
    have hacc2 := resume_accounted (n :: others) (n :: others.erase m) reg1 m hacc hnode
      (count_cons_erase n m others hmo)
    have hord2 := addWaiters_ordered m (-1) reg1 hord
    rcases hnm with hnm | hnm
    · exact ⟨hen2.trans hen, _, hnm, hord2, hacc2⟩
    · refine ⟨hen2.trans hen, _, hnm, ClearWaitingNodes_ordered pos _ hord2, fun k => ?_⟩
      rw [waitersOf_ClearWaitingNodes k pos _ hord2]
      exact hacc2 k

/-- A run of other threads keeps the parked thread's node registered. -/
theorem EnvRun_parkedOn (n : Nat) (x y : ReplSemiSyncMaster × List Nat)
    (hx : ParkedOn n x) (h : EnvRun x y) : ParkedOn n y := by
  unfold EnvRun at h
  induction h with
  | refl => exact hx
  | tail _ hstep ih => exact EnvStep_parkedOn n _ _ ih hstep

theorem ParkedOn_registered {n : Nat} {x : ReplSemiSyncMaster × List Nat}
    (hx : ParkedOn n x) :
    x.1.semi_sync_enabled_ = true ∧
      ∃ reg, x.1.node_manager_ = some reg ∧ ∃ node ∈ reg, node.log_pos = n := by
  obtain ⟨hen, reg, hreg, _, hacc⟩ := hx
  refine ⟨hen, reg, hreg, mem_of_waitersOf_pos n reg ?_⟩
  have := hacc n
  rw [List.count_cons_self] at this
  omega

/-- Parking establishes the invariant, from a state whose waiter counts account
for the threads already parked. -/
theorem ParkedOn_of_park (pos n : Nat) (s s1 : ReplSemiSyncMaster) (others : List Nat)
    (hwf : WellFormed s) (hacc : Accounted others s)
    (h : CommitTrxPark pos s = .parked n s1) : ParkedOn n (s1, others) := by
  rcases CommitTrxPark_inv pos s with h1 | h1 | ⟨reg, node, hreg, hmem, h1⟩
  · rw [h1] at h
    cases h
  · rw [h1] at h
    cases h
  · have hen : s.semi_sync_enabled_ = true := by
      cases he : s.semi_sync_enabled_
      · have : CommitTrxPark pos s = .not_waited s :=
          CommitTrxPark_not_waited s pos (Or.inl he)
        rw [this] at h
        cases h
      · rfl
    rw [h1] at h
    injection h with hn hs1
    subst hn
    subst hs1
    have hord := hwf.1 reg hreg
    refine ⟨hen, _, rfl, addWaiters_ordered _ _ _ (InsertWaitingNode_ordered pos reg hord), ?_⟩
    refine park_accounted others (node.log_pos :: others) reg pos node.log_pos hord
      (hacc reg hreg) ⟨node, hmem, rfl⟩ (fun k => ?_)
    rw [List.count_cons]
    by_cases hk : k = node.log_pos
    · subst hk
      simp
    · have : ¬ (node.log_pos == k) = true := by simpa using fun hh => hk hh.symm
      simp [hk, this]

theorem sample_wellFormed (enabled sync : Bool) (w m : Nat) :
    WellFormed (sample enabled sync w m []) :=
  ⟨fun reg h => by
      have : reg = [] := (Option.some.inj h).symm
      rw [this]
      exact List.Pairwise.nil,
   fun _ => ⟨[], rfl⟩⟩

theorem sample_accounted (enabled sync : Bool) (w m : Nat) :
    Accounted [] (sample enabled sync w m []) := by
  intro reg h k
  have : reg = [] := (Option.some.inj h).symm
  rw [this]
  simp [waitersOf, setFind]

/-- C9. Timeout fallback: on an enabled coordinator in Sync mode with
`pos > wait_file_pos_` (well formed, its waiter counts accounting for the
threads `others` already parked), when the wait inside `CommitTrx(pos)` is any
run of operations of other threads without `DisableMaster` and ends by timeout,
`CommitTrx` returns true and leaves the coordinator enabled in Async mode. -/
theorem CommitTrx_timeout (s : ReplSemiSyncMaster) (pos : Nat)
    (wait : ReplSemiSyncMaster → cv_status × ReplSemiSyncMaster) (others : List Nat)
    (hwf : WellFormed s) (hacc : Accounted others s)
    (he : s.semi_sync_enabled_ = true) (hon : s.state_ = true) (hpos : s.wait_file_pos_ < pos)
    (hto : ∀ s1, (wait s1).1 = cv_status.timeout)
    (hrun : ∀ n s1, CommitTrxPark pos s = .parked n s1 →
      ∃ others2, EnvRun (s1, others) ((wait s1).2, others2)) :
    ∃ s2, CommitTrx pos wait s = some (true, s2) ∧ s2.semi_sync_enabled_ = true ∧
      s2.state_ = false := by
  obtain ⟨reg, hreg⟩ := hwf.2 he
  refine CommitTrx_timeout_registered s pos wait reg he hon hpos hreg hto ?_
  intro n s1 hpark
  obtain ⟨others2, hr⟩ := hrun n s1 hpark
  exact ParkedOn_registered
    (EnvRun_parkedOn n _ _ (ParkedOn_of_park pos n s s1 others hwf hacc hpark) hr)

/-- Witness of C9: Sync mode, `wait_file_pos_ = 0`, `CommitTrx(7)` on an empty
registry; while the thread is parked another thread delivers `HandleAck(1, 3)`,
then the wait times out. -/
theorem CommitTrx_timeout_witness :
    ∃ s2, CommitTrx 7
        (fun s1 => (cv_status.timeout, ((HandleAck 1 3 s1).getD s1)))
        (sample true true 0 0 []) = some (true, s2) ∧
      s2.semi_sync_enabled_ = true ∧ s2.state_ = false :=
  CommitTrx_timeout (sample true true 0 0 []) 7
    (fun s1 => (cv_status.timeout, ((HandleAck 1 3 s1).getD s1))) []
    (sample_wellFormed true true 0 0) (sample_accounted true true 0 0)
    rfl rfl (by decide) (fun _ => rfl)
    (by
      intro n s1 h
      have h2 : CommitTrxPark 7 (sample true true 0 0 []) =
          .parked 7 (sample true true 0 0 [⟨7, 1⟩]) := by decide
      rw [h2] at h
      injection h with hn hs
      subst hn
      subst hs
      refine ⟨[], Relation.ReflTransGen.single ?_⟩
      have h3 : HandleAck 1 3 (sample true true 0 0 [⟨7, 1⟩]) =
          some ((HandleAck 1 3 (sample true true 0 0 [⟨7, 1⟩])).getD
            (sample true true 0 0 [⟨7, 1⟩])) := by decide
      exact EnvStep.handleAck 1 3 _ _ [] h3)

/-- C10. `CommitTrx` return value: on a well-formed coordinator whose waiter
counts account for the threads `others` already parked, with the wait being any
run of operations of other threads without `DisableMaster`, `CommitTrx(pos)`
returns; it returns false if and only if at call time the coordinator is
disabled, or in Async mode, or `pos ≤ wait_file_pos_`, and then the state (the
registry included) is unchanged; otherwise the lookup after the insert finds a
node (the thread parks) and the call returns true, whatever ended the wait. -/
theorem CommitTrx_return (s : ReplSemiSyncMaster) (pos : Nat)
    (wait : ReplSemiSyncMaster → cv_status × ReplSemiSyncMaster) (others : List Nat)
    (hwf : WellFormed s) (hacc : Accounted others s)
    (hrun : ∀ n s1, CommitTrxPark pos s = .parked n s1 →
      ∃ others2, EnvRun (s1, others) ((wait s1).2, others2)) :
    ∃ r s2, CommitTrx pos wait s = some (r, s2) ∧ (r = false ↔ notWaited pos s) ∧
      (notWaited pos s → s2 = s ∧ CommitTrxPark pos s = .not_waited s) ∧
      (¬ notWaited pos s → ∃ n s1, CommitTrxPark pos s = .parked n s1) := by
  refine CommitTrx_return_registered s pos wait hwf.2 ?_
  intro n s1 hpark
  obtain ⟨others2, hr⟩ := hrun n s1 hpark
  exact (ParkedOn_registered
    (EnvRun_parkedOn n _ _ (ParkedOn_of_park pos n s s1 others hwf hacc hpark) hr)).2

/-- Witness of C10: Sync mode, `wait_file_pos_ = 0`, `CommitTrx(7)` on an empty
registry, nothing else runs and the wait is ended by a signal. -/
theorem CommitTrx_return_witness :
    ∃ r s2, CommitTrx 7 (fun s1 => (cv_status.no_timeout, s1)) (sample true true 0 0 []) =
        some (r, s2) ∧ (r = false ↔ notWaited 7 (sample true true 0 0 [])) ∧
      (notWaited 7 (sample true true 0 0 []) → s2 = sample true true 0 0 [] ∧
        CommitTrxPark 7 (sample true true 0 0 []) = .not_waited (sample true true 0 0 [])) ∧
      (¬ notWaited 7 (sample true true 0 0 []) →
        ∃ n s1, CommitTrxPark 7 (sample true true 0 0 []) = .parked n s1) :=
  CommitTrx_return (sample true true 0 0 []) 7 (fun s1 => (cv_status.no_timeout, s1)) []
    (sample_wellFormed true true 0 0) (sample_accounted true true 0 0)
    (fun _ _ _ => ⟨[], Relation.ReflTransGen.refl⟩)

/-! ## Bounds of the slot write -/

/-- C20. Slot write is always in bounds: for every tracker state (any capacity,
any slot contents and floor) and every `(replicaId, pos)`, whenever
`AckContainer::Insert` reaches the write of line 174 (`to_insert` is set), the
index `empty_slot_` is below the size of `ack_array_`, and the slot at that index
is empty at that point (in the full branch it has just been reset by
`RemoveAll`). -/
theorem InsertDecide_write_in_bounds (id : Int) (p : Nat) (c : AckContainer)
    (h : (InsertDecide id p c).2.1 = true) :
    (InsertDecide id p c).2.2.empty_slot_ < (InsertDecide id p c).2.2.ack_array_.length ∧
      ∃ slot, (InsertDecide id p c).2.2.ack_array_[(InsertDecide id p c).2.2.empty_slot_]?
          = some slot ∧ slot.server_id = 0 := by
  have key : ∃ slot, (InsertDecide id p c).2.2.ack_array_[(InsertDecide id p c).2.2.empty_slot_]?
      = some slot ∧ slot.server_id = 0 := by
    by_cases hp : p < c.greatest_return_ack_.log_pos
    · simp [InsertDecide, hp] at h
    by_cases hid : ∃ s ∈ c.ack_array_, s.server_id = id
    · obtain ⟨pre, s, post, _, _, h1, _⟩ :=
        scanSlots_found id p c.ack_array_ 0 c.ack_array_.length hid
      simp [InsertDecide, hp, h1] at h
    have hid2 : ∀ s ∈ c.ack_array_, s.server_id ≠ id := fun s hs hh => hid ⟨s, hs, hh⟩
    have h1 := scanSlots_notfound id p c.ack_array_ 0 c.ack_array_.length hid2
    by_cases hz : ∃ s ∈ c.ack_array_, s.server_id = 0
    · obtain ⟨k, s, hk, hs, h0⟩ :=
        scanSlots_empty_some id p c.ack_array_ 0 c.ack_array_.length hid2 hz
      rw [Nat.zero_add] at hk
      have hlt : k < c.ack_array_.length := by
        rcases Nat.lt_or_ge k c.ack_array_.length with hh | hh
        · exact hh
        · rw [List.getElem?_eq_none hh] at hs
          cases hs
      refine ⟨s, ?_, h0⟩
      simp only [InsertDecide, if_neg hp, h1.1, h1.2, hk, Bool.false_eq_true, if_false,
        if_neg (Nat.ne_of_lt hlt)]
      exact hs
    have hz2 : ∀ s ∈ c.ack_array_, s.server_id ≠ 0 := fun s hs hh => hz ⟨s, hs, hh⟩
    have h2 := scanSlots_empty_none id p c.ack_array_ 0 c.ack_array_.length hid2 hz2
    rcases minScan_cases c.ack_array_ (p, none) with hm | ⟨s, hs, _, hlt, hm⟩
    · simp [InsertDecide, hp, h1.1, h1.2, h2, hm, AckInfo.Set, RemoveAll] at h
    · obtain ⟨k, t, hk, ht, htp⟩ :=
        removeLoop_snd_some s.log_pos c.ack_array_ 0 c.ack_array_.length ⟨s, hs, rfl⟩
      rw [Nat.zero_add] at hk
      refine ⟨⟨0, 0⟩, ?_, rfl⟩
      simp only [InsertDecide, if_neg hp, h1.1, h1.2, h2, Bool.false_eq_true, if_false,
        if_true, hm, AckInfo.Set, RemoveAll, removeLoop_fst, hk]
      exact getElem?_clearAt ht htp
  refine ⟨?_, key⟩
  obtain ⟨slot, hs, _⟩ := key
  rcases Nat.lt_or_ge (InsertDecide id p c).2.2.empty_slot_
      (InsertDecide id p c).2.2.ack_array_.length with hh | hh
  · exact hh
  · rw [List.getElem?_eq_none hh] at hs
    cases hs

/-- Witness of C20: in the full branch, with the slot `(1, 10)` and
`Insert(2, 20)`, the write goes to index 0 of the one-slot array. -/
theorem InsertDecide_write_in_bounds_witness :
    (InsertDecide 2 20 ⟨[⟨1, 10⟩], ⟨0, 0⟩, 0⟩).2.2.empty_slot_
        < (InsertDecide 2 20 ⟨[⟨1, 10⟩], ⟨0, 0⟩, 0⟩).2.2.ack_array_.length ∧
      ∃ slot, (InsertDecide 2 20 ⟨[⟨1, 10⟩], ⟨0, 0⟩, 0⟩).2.2.ack_array_[
          (InsertDecide 2 20 ⟨[⟨1, 10⟩], ⟨0, 0⟩, 0⟩).2.2.empty_slot_]? = some slot ∧
        slot.server_id = 0 :=
  InsertDecide_write_in_bounds 2 20 ⟨[⟨1, 10⟩], ⟨0, 0⟩, 0⟩ (by decide)

/-! ## Distinct occupants -/

theorem occIds_replicate_empty (n : Nat) :
    occIds (List.replicate n (⟨0, 0⟩ : AckInfo)) = [] := by
  simp [occIds, List.filter_eq_nil_iff]

theorem Insert_nodup (id : Int) (p : Nat) (c : AckContainer) (hid0 : id ≠ 0)
    (hnd : (occIds c.ack_array_).Nodup) :
    (occIds (AckContainer.Insert id p c).2.ack_array_).Nodup := by
  by_cases hp : p < c.greatest_return_ack_.log_pos
  · rw [Insert_stale id p c hp]
    exact hnd
  by_cases hid : ∃ s ∈ c.ack_array_, s.server_id = id
  · obtain ⟨pre, s, post, e, harr, hs, hIns⟩ := Insert_found id p c hp hid
    rw [hIns]
    have hocc : occIds (pre ++ ⟨id, max s.log_pos p⟩ :: post) = occIds c.ack_array_ := by
      rw [harr, occIds_append, occIds_append, occIds_cons, occIds_cons]
      simp [hs, hid0]
    show (occIds (pre ++ ⟨id, max s.log_pos p⟩ :: post)).Nodup
    rw [hocc]
    exact hnd
  have hid2 : ∀ s ∈ c.ack_array_, s.server_id ≠ id := fun s hs h => hid ⟨s, hs, h⟩
  have hnotin : id ∉ occIds c.ack_array_ := by
    intro hm
    obtain ⟨_, t, ht, hte⟩ := mem_occIds.1 hm
    exact hid2 t ht hte
  by_cases hz : ∃ s ∈ c.ack_array_, s.server_id = 0
  · obtain ⟨k, s, hk, hs0, hIns⟩ := Insert_free id p c hp hid2 hz
    rw [hIns]
    show (occIds (c.ack_array_.set k ⟨id, p⟩)).Nodup
    rw [(occIds_set_perm c.ack_array_ k s ⟨id, p⟩ hk hs0 hid0).nodup_iff, List.nodup_cons]
    exact ⟨hnotin, hnd⟩
  have hz2 : ∀ s ∈ c.ack_array_, s.server_id ≠ 0 := fun s hs h => hz ⟨s, hs, h⟩
  obtain ⟨fl, arr, e, hIns, _, _, hcase⟩ := Insert_full id p c hp hid2 hz2
  rw [hIns]
  have hcase2 : (fl.log_pos = p ∧ arr = c.ack_array_.map (clearAt p)) ∨
      (fl.log_pos < p ∧ ∃ k s, c.ack_array_[k]? = some s ∧ s.log_pos = fl.log_pos ∧
        arr = (c.ack_array_.map (clearAt fl.log_pos)).set k ⟨id, p⟩) := by
    rcases hcase with ⟨hfl, harr⟩ | ⟨hlt, _, hk⟩
    · exact Or.inl ⟨by rw [hfl], harr⟩
    · exact Or.inr ⟨hlt, hk⟩
  exact (full_slots c.ack_array_ arr fl id p hid0 hid2 hnd hcase2).2.2.1

theorem refeed_nodup (l : List AckInfo) (acc : Bool × AckContainer)
    (hnd : (occIds acc.2.ack_array_).Nodup) :
    (occIds (refeed l acc).2.ack_array_).Nodup := by
  induction l generalizing acc with
  | nil => exact hnd
  | cons a t ih =>
    by_cases h0 : a.server_id = 0
    · rw [refeed, if_pos h0]
      exact ih acc hnd
    · rw [refeed, if_neg h0]
      exact ih _ (Insert_nodup a.server_id a.log_pos acc.2 h0 hnd)

theorem Resize_nodup (size : Nat) (c : AckContainer) (hnd : (occIds c.ack_array_).Nodup) :
    (occIds (Resize size c).2.2.ack_array_).Nodup := by
  by_cases h0 : size = 0
  · simp only [Resize, if_pos h0]
    exact hnd
  by_cases h1 : size - 1 = c.ack_array_.length
  · simp only [Resize, if_neg h0, if_pos h1]
    exact hnd
  simp only [Resize, if_neg h0, if_neg h1]
  refine refeed_nodup c.ack_array_
    (false, { c with ack_array_ := List.replicate (size - 1) ⟨0, 0⟩ }) ?_
  show (occIds (List.replicate (size - 1) (⟨0, 0⟩ : AckInfo))).Nodup
  rw [occIds_replicate_empty]
  exact List.nodup_nil

theorem runOps_nodup (ops : List TrackerOp) (c : AckContainer)
    (hnz : ∀ op ∈ ops, op.nonzero) (hnd : (occIds c.ack_array_).Nodup) :
    (occIds (runOps ops c).ack_array_).Nodup := by
  induction ops generalizing c with
  | nil => exact hnd
  | cons op t ih =>
    have hop := hnz op (List.mem_cons_self _ _)
    refine ih _ (fun o ho => hnz o (List.mem_cons_of_mem _ ho)) ?_
    cases op with
    | insert id p => exact Insert_nodup id p c hop hnd
    | resize n => exact Resize_nodup n c hnd

theorem occIds_nodup_index (arr : List AckInfo) (hnd : (occIds arr).Nodup) :
    ∀ (i j : Nat) (s t : AckInfo), arr[i]? = some s → arr[j]? = some t →
      s.server_id ≠ 0 → s.server_id = t.server_id → i = j := by
  induction arr with
  | nil =>
    intro i j s t hs
    simp at hs
  | cons a r ih =>
    intro i j s t hs ht hs0 hst
    have hsub : (occIds r).Nodup := by
      rw [occIds_cons] at hnd
      split at hnd
      · exact (List.nodup_cons.1 hnd).2
      · exact hnd
    have hhead : ∀ (u : AckInfo), u ∈ r → a.server_id ≠ 0 → u.server_id ≠ a.server_id := by
      intro u hu ha0 hua
      rw [occIds_cons, if_pos ha0] at hnd
      exact (List.nodup_cons.1 hnd).1 (mem_occIds.2 ⟨ha0, u, hu, hua⟩)
    cases i with
    | zero =>
      cases j with
      | zero => rfl
      | succ j =>
        simp only [List.getElem?_cons_zero, Option.some.injEq] at hs
        simp only [List.getElem?_cons_succ] at ht
        subst hs
        exact absurd hst.symm (hhead t (List.getElem?_mem ht) hs0)
    | succ i =>
      cases j with
      | zero =>
        simp only [List.getElem?_cons_zero, Option.some.injEq] at ht
        simp only [List.getElem?_cons_succ] at hs
        subst ht
        exact absurd hst (hhead s (List.getElem?_mem hs) (hst ▸ hs0))
      | succ j =>
        simp only [List.getElem?_cons_succ] at hs ht
        rw [ih hsub i j s t hs ht hs0 hst]

/-- C19. Distinct-occupant invariant: in every tracker state reached from a
fresh tracker (any capacity) by `Insert` calls with non-zero replica ids and
`Resize` calls, no two occupied slots hold the same replica id: two slots with
the same non-zero `server_id` are the same slot. -/
theorem occupants_distinct (capacity : Nat) (ops : List TrackerOp)
    (hnz : ∀ op ∈ ops, op.nonzero) (i j : Nat) (s t : AckInfo)
    (hs : (runOps ops (fresh capacity)).ack_array_[i]? = some s)
    (ht : (runOps ops (fresh capacity)).ack_array_[j]? = some t)
    (hs0 : s.server_id ≠ 0) (hst : s.server_id = t.server_id) : i = j := by
  have hnd : (occIds (runOps ops (fresh capacity)).ack_array_).Nodup := by
    apply runOps_nodup ops (fresh capacity) hnz
    show (occIds (List.replicate capacity (⟨0, 0⟩ : AckInfo))).Nodup
    rw [occIds_replicate_empty]
    exact List.nodup_nil
  exact occIds_nodup_index _ hnd i j s t hs ht hs0 hst

/-- Witness of C19: after `Insert(1, 10)`, `Insert(2, 20)`, `Resize(3)` and
`Insert(1, 30)` on a fresh one-slot tracker, the slots are `(1, 30)` and
`(2, 20)`; replica 1 occupies the slot of index 0 only. -/
theorem occupants_distinct_witness :
    (runOps [.insert 1 10, .insert 2 20, .resize 3, .insert 1 30] (fresh 1)).ack_array_
        = [⟨1, 30⟩, ⟨2, 20⟩] ∧ (0 : Nat) = 0 :=
  ⟨by decide,
   occupants_distinct 1 [.insert 1 10, .insert 2 20, .resize 3, .insert 1 30]
     (by simp [TrackerOp.nonzero]) 0 0 ⟨1, 30⟩ ⟨1, 30⟩ (by decide) (by decide) (by decide) rfl⟩

/-! ## The waiting registry: insert, lookup, reap -/

theorem setFind_eq_none_iff (p : Nat) (l : List WaitingNode) :
    setFind p l = none ↔ ∀ x ∈ l, x.log_pos ≠ p := by
  unfold setFind
  rw [List.find?_eq_none]
  simp

theorem Ordered_le_getLast (l : List WaitingNode) (hl : Ordered l) (last : WaitingNode)
    (h : l.getLast? = some last) : ∀ x ∈ l, x.log_pos ≤ last.log_pos := by
  induction l with
  | nil => intro x hx; cases hx
  | cons a t ih =>
    obtain ⟨hat, ht⟩ := List.pairwise_cons.1 hl
    cases t with
    | nil =>
      simp only [List.getLast?_singleton, Option.some.injEq] at h
      intro x hx
      rcases List.mem_cons.1 hx with rfl | hx
      · rw [h]
      · cases hx
    | cons b u =>
      rw [List.getLast?_cons_cons] at h
      have hlast : last ∈ b :: u := List.mem_of_getLast?_eq_some h
      intro x hx
      rcases List.mem_cons.1 hx with rfl | hx
      · exact Nat.le_of_lt (hat last hlast)
      · exact ih ht h x hx

theorem InsertWaitingNode_absent (p : Nat) (l : List WaitingNode)
    (h : ∀ x ∈ l, x.log_pos ≠ p) :
    InsertWaitingNode p l = (true, setEmplace ⟨p, 0⟩ l) := by
  have hf := (setFind_eq_none_iff p l).2 h
  unfold InsertWaitingNode
  cases hl : l.getLast? with
  | none => simp
  | some last => simp [hf]

theorem InsertWaitingNode_present (p : Nat) (l : List WaitingNode) (hl : Ordered l)
    (h : ∃ x ∈ l, x.log_pos = p) : InsertWaitingNode p l = (false, l) := by
  obtain ⟨x, hx, hxp⟩ := h
  have hne : l ≠ [] := List.ne_nil_of_mem hx
  have hf : setFind p l ≠ none := fun hh => (setFind_eq_none_iff p l).1 hh x hx hxp
  unfold InsertWaitingNode
  cases hlast : l.getLast? with
  | none =>
    rw [List.getLast?_eq_none_iff] at hlast
    exact absurd hlast hne
  | some last =>
    have hle := Ordered_le_getLast l hl last hlast x hx
    have hnlt : ¬ last.log_pos < p := by omega
    cases hfs : setFind p l with
    | none => exact absurd hfs hf
    | some node => simp [hnlt, hfs]

theorem filter_ne_setEmplace (n : WaitingNode) (l : List WaitingNode) :
    (setEmplace n l).filter (fun x => decide (x.log_pos ≠ n.log_pos))
      = l.filter (fun x => decide (x.log_pos ≠ n.log_pos)) := by
  induction l with
  | nil => simp [setEmplace]
  | cons a t ih =>
    simp only [setEmplace]
    split
    · simp [List.filter_cons]
    · split
      · simp only [List.filter_cons, ih]
      · rfl

theorem filter_eq_setEmplace (n : WaitingNode) (l : List WaitingNode)
    (h : ∀ x ∈ l, x.log_pos ≠ n.log_pos) :
    (setEmplace n l).filter (fun x => decide (x.log_pos = n.log_pos)) = [n] := by
  induction l with
  | nil => simp [setEmplace]
  | cons a t ih =>
    have ha : a.log_pos ≠ n.log_pos := h a (List.mem_cons_self _ _)
    have ht : ∀ x ∈ t, x.log_pos ≠ n.log_pos := fun x hx => h x (List.mem_cons_of_mem _ hx)
    have hnone : t.filter (fun x => decide (x.log_pos = n.log_pos)) = [] := by
      rw [List.filter_eq_nil_iff]
      intro x hx
      simpa using ht x hx
    simp only [setEmplace]
    split
    · simp [List.filter_cons, ha, hnone]
    · split
      · simp [List.filter_cons, ha, ih ht]
      · rename_i h1 h2
        omega

theorem Ordered_filter_eq (l : List WaitingNode) (hl : Ordered l) (x : WaitingNode)
    (hx : x ∈ l) : l.filter (fun y => decide (y.log_pos = x.log_pos)) = [x] := by
  induction l with
  | nil => cases hx
  | cons a t ih =>
    obtain ⟨hat, ht⟩ := List.pairwise_cons.1 hl
    rcases List.mem_cons.1 hx with rfl | hx
    · have hnone : t.filter (fun y => decide (y.log_pos = x.log_pos)) = [] := by
        rw [List.filter_eq_nil_iff]
        intro y hy
        have := hat y hy
        simp only [decide_eq_true_eq]
        omega
      simp [List.filter_cons, hnone]
    · have := hat x hx
      have hne : ¬ a.log_pos = x.log_pos := by omega
      simp [List.filter_cons, hne, ih ht hx]

theorem mem_setEmplace_of_mem (n x : WaitingNode) (l : List WaitingNode) (hx : x ∈ l) :
    x ∈ setEmplace n l := by
  induction l with
  | nil => cases hx
  | cons a t ih =>
    simp only [setEmplace]
    split
    · exact List.mem_cons_of_mem _ hx
    · split
      · rcases List.mem_cons.1 hx with rfl | hx
        · exact List.mem_cons_self _ _
        · exact List.mem_cons_of_mem _ (ih hx)
      · exact hx

theorem mem_setEmplace_self (n : WaitingNode) (l : List WaitingNode)
    (h : ∀ x ∈ l, x.log_pos ≠ n.log_pos) : n ∈ setEmplace n l := by
  have := filter_eq_setEmplace n l h
  have hm : n ∈ (setEmplace n l).filter (fun x => decide (x.log_pos = n.log_pos)) := by
    rw [this]
    exact List.mem_singleton_self _
  exact (List.mem_filter.1 hm).1

/-- C14. Registry dedup: on a registry in ascending order (one node per
position), `InsertWaitingNode(p)` returns true if and only if no node of
position `p` was registered; afterwards the registry holds exactly one node of
position `p`, every other node is unchanged and kept in order, and a second
insert of `p` returns false and changes nothing. -/
theorem InsertWaitingNode_dedup (l : List WaitingNode) (p : Nat) (hl : Ordered l) :
    ((InsertWaitingNode p l).1 = true ↔ ∀ x ∈ l, x.log_pos ≠ p) ∧
      (∃ node, (InsertWaitingNode p l).2.filter (fun x => decide (x.log_pos = p)) = [node]) ∧
      (InsertWaitingNode p l).2.filter (fun x => decide (x.log_pos ≠ p))
        = l.filter (fun x => decide (x.log_pos ≠ p)) ∧
      (∀ x ∈ l, x ∈ (InsertWaitingNode p l).2) ∧
      Ordered (InsertWaitingNode p l).2 ∧
      InsertWaitingNode p (InsertWaitingNode p l).2 = (false, (InsertWaitingNode p l).2) := by
  have hord := InsertWaitingNode_ordered p l hl
  by_cases h : ∀ x ∈ l, x.log_pos ≠ p
  · have hI := InsertWaitingNode_absent p l h
    have hself : (⟨p, 0⟩ : WaitingNode) ∈ setEmplace ⟨p, 0⟩ l := mem_setEmplace_self ⟨p, 0⟩ l h
    refine ⟨?_, ?_, ?_, ?_, hord, ?_⟩
    · rw [hI]
      exact ⟨fun _ => h, fun _ => rfl⟩
    · rw [hI]
      exact ⟨⟨p, 0⟩, filter_eq_setEmplace ⟨p, 0⟩ l h⟩
    · rw [hI]
      exact filter_ne_setEmplace ⟨p, 0⟩ l
    · rw [hI]
      exact fun x hx => mem_setEmplace_of_mem _ x l hx
    · rw [hI] at hord ⊢
      exact InsertWaitingNode_present p _ hord ⟨⟨p, 0⟩, hself, rfl⟩
  · have hex : ∃ x ∈ l, x.log_pos = p := by
      by_contra hne
      exact h (fun x hx hxp => hne ⟨x, hx, hxp⟩)
    have hI := InsertWaitingNode_present p l hl hex
    obtain ⟨x, hx, hxp⟩ := hex
    refine ⟨?_, ?_, ?_, ?_, hord, ?_⟩
    · rw [hI]
      simp only [Bool.false_eq_true, false_iff]
      exact h
    · rw [hI]
      exact ⟨x, hxp ▸ Ordered_filter_eq l hl x hx⟩
    · rw [hI]
    · rw [hI]
      exact fun y hy => hy
    · rw [hI]
      exact hI

/-- Witness of C14: inserting 100 twice into the empty registry gives one node;
the first insert returns true and the second false. -/
theorem InsertWaitingNode_dedup_witness :
    (InsertWaitingNode 100 []).1 = true ∧
      (InsertWaitingNode 100 (InsertWaitingNode 100 []).2) = (false, [⟨100, 0⟩]) ∧
      InsertWaitingNode 100 (InsertWaitingNode 100 [⟨100, 0⟩]).2
        = (false, (InsertWaitingNode 100 [⟨100, 0⟩]).2) :=
  ⟨by decide, by decide,
   (InsertWaitingNode_dedup [⟨100, 0⟩] 100 (by unfold Ordered; decide)).2.2.2.2.2⟩

theorem findLoop_none (p : Nat) (l : List WaitingNode) (h : ∀ n ∈ l, n.log_pos < p) :
    findLoop p l = none := by
  induction l with
  | nil => rfl
  | cons a t ih =>
    have ha := h a (List.mem_cons_self _ _)
    have hna : ¬ a.log_pos ≥ p := by omega
    simp only [findLoop, if_neg hna]
    exact ih (fun n hn => h n (List.mem_cons_of_mem _ hn))

theorem findLoop_some (p : Nat) (l : List WaitingNode) (hl : Ordered l)
    (h : ∃ n ∈ l, p ≤ n.log_pos) :
    ∃ node, findLoop p l = some node ∧ node ∈ l ∧ p ≤ node.log_pos ∧
      ∀ m ∈ l, p ≤ m.log_pos → node.log_pos ≤ m.log_pos := by
  induction l with
  | nil =>
    obtain ⟨n, hn, _⟩ := h
    cases hn
  | cons a t ih =>
    obtain ⟨hat, ht⟩ := List.pairwise_cons.1 hl
    by_cases ha : a.log_pos ≥ p
    · refine ⟨a, by simp only [findLoop, if_pos ha], List.mem_cons_self _ _, ha, ?_⟩
      intro m hm _
      rcases List.mem_cons.1 hm with rfl | hm
      · exact Nat.le_refl _
      · exact Nat.le_of_lt (hat m hm)
    · have h2 : ∃ n ∈ t, p ≤ n.log_pos := by
        obtain ⟨n, hn, hpn⟩ := h
        rcases List.mem_cons.1 hn with rfl | hn
        · exact absurd hpn ha
        · exact ⟨n, hn, hpn⟩
      obtain ⟨node, hf, hmem, hge, hmin⟩ := ih ht h2
      refine ⟨node, by simp only [findLoop, if_neg ha]; exact hf,
        List.mem_cons_of_mem _ hmem, hge, ?_⟩
      intro m hm hpm
      rcases List.mem_cons.1 hm with rfl | hm
      · exact absurd hpm ha
      · exact hmin m hm hpm

/-- C15. Registry lookup: on a registry in ascending order, `FindWaitingNode(p)`
returns the node of the smallest position `≥ p` when there is one; otherwise it
returns the first node, which has the smallest registered position; and it
returns none if and only if the registry is empty. -/
theorem FindWaitingNode_spec (l : List WaitingNode) (p : Nat) (hl : Ordered l) :
    ((∃ n ∈ l, p ≤ n.log_pos) →
      ∃ node, FindWaitingNode p l = some node ∧ node ∈ l ∧ p ≤ node.log_pos ∧
        ∀ m ∈ l, p ≤ m.log_pos → node.log_pos ≤ m.log_pos) ∧
    ((∀ n ∈ l, n.log_pos < p) →
      FindWaitingNode p l = l.head? ∧
        ∀ node, l.head? = some node → ∀ m ∈ l, node.log_pos ≤ m.log_pos) ∧
    (FindWaitingNode p l = none ↔ l = []) := by
  refine ⟨?_, ?_, ?_⟩
  · intro h
    obtain ⟨node, hf, hmem, hge, hmin⟩ := findLoop_some p l hl h
    exact ⟨node, by simp only [FindWaitingNode, hf], hmem, hge, hmin⟩
  · intro h
    refine ⟨by simp only [FindWaitingNode, findLoop_none p l h], ?_⟩
    intro node hnode m hm
    cases l with
    | nil => cases hm
    | cons a t =>
      simp only [List.head?_cons, Option.some.injEq] at hnode
      subst hnode
      rcases List.mem_cons.1 hm with rfl | hm
      · exact Nat.le_refl _
      · exact Nat.le_of_lt ((List.pairwise_cons.1 hl).1 m hm)
  · constructor
    · intro h
      by_contra hne
      obtain ⟨node, hf, _⟩ := FindWaitingNode_isSome p l hne
      rw [hf] at h
      cases h
    · intro h
      rw [h]
      rfl

/-- Witness of C15: with nodes at 100 and 200, the lookup of 150 returns the
node at 200, the lookup of 300 falls back to the node at 100, and the lookup in
the empty registry returns none. -/
theorem FindWaitingNode_spec_witness :
    (∃ node, FindWaitingNode 150 [⟨100, 0⟩, ⟨200, 0⟩] = some node ∧
        node ∈ [(⟨100, 0⟩ : WaitingNode), ⟨200, 0⟩] ∧ 150 ≤ node.log_pos ∧
        ∀ m ∈ [(⟨100, 0⟩ : WaitingNode), ⟨200, 0⟩], 150 ≤ m.log_pos →
          node.log_pos ≤ m.log_pos) ∧
      FindWaitingNode 150 [⟨100, 0⟩, ⟨200, 0⟩] = some ⟨200, 0⟩ ∧
      FindWaitingNode 300 [⟨100, 0⟩, ⟨200, 0⟩] = some ⟨100, 0⟩ ∧
      FindWaitingNode 300 [] = none :=
  ⟨(FindWaitingNode_spec [⟨100, 0⟩, ⟨200, 0⟩] 150 (by unfold Ordered; decide)).1
      ⟨⟨200, 0⟩, by simp, by decide⟩,
   by decide, by decide, by decide⟩

/-- C16. Reap boundary: on a registry in ascending order,
`ClearWaitingNodes(p)` removes exactly the nodes of position `≤ p` with no
waiter; every other node (position `> p`, or a non-zero waiter count) remains,
in the same order. -/
theorem ClearWaitingNodes_spec (l : List WaitingNode) (p : Nat) (hl : Ordered l) :
    ClearWaitingNodes p l
      = l.filter (fun n => !(decide (n.log_pos ≤ p) && decide (n.waiters = 0))) := by
  induction l with
  | nil => rfl
  | cons a t ih =>
    obtain ⟨hat, ht⟩ := List.pairwise_cons.1 hl
    simp only [ClearWaitingNodes]
    split
    · rename_i hgt
      symm
      rw [List.filter_eq_self]
      intro n hn
      have hnp : ¬ n.log_pos ≤ p := by
        rcases List.mem_cons.1 hn with rfl | hn
        · omega
        · have := hat n hn
          omega
      simp [hnp]
    · rename_i hgt
      have hle : a.log_pos ≤ p := by omega
      split
      · rename_i hw
        simp [List.filter_cons, hle, hw, ih ht]
      · rename_i hw
        have hz : a.waiters = 0 := by
          by_contra hne
          exact hw hne
        simp [List.filter_cons, hle, hz, ih ht]

/-- Witness of C16: after inserting 100 and 200 with no waiters, reaping up to
150 removes the node at 100 and leaves the node at 200; a node at 100 with a
waiter stays while the later node at 120 without waiter is removed. -/
theorem ClearWaitingNodes_spec_witness :
    ClearWaitingNodes 150 (InsertWaitingNode 200 (InsertWaitingNode 100 []).2).2
        = [⟨200, 0⟩] ∧
      ClearWaitingNodes 150 [⟨100, 1⟩, ⟨120, 0⟩, ⟨200, 0⟩]
        = [(⟨100, 1⟩ : WaitingNode), ⟨120, 0⟩, ⟨200, 0⟩].filter
            (fun n => !(decide (n.log_pos ≤ 150) && decide (n.waiters = 0))) ∧
      ClearWaitingNodes 150 [⟨100, 1⟩, ⟨120, 0⟩, ⟨200, 0⟩] = [⟨100, 1⟩, ⟨200, 0⟩] :=
  ⟨by decide,
   ClearWaitingNodes_spec [⟨100, 1⟩, ⟨120, 0⟩, ⟨200, 0⟩] 150 (by unfold Ordered; decide),
   by decide⟩

/-! ## The confirmed position -/

theorem trySwitchOn_fields (p : Nat) (s : ReplSemiSyncMaster) :
    (trySwitchOn p s).wait_file_pos_ = s.wait_file_pos_ ∧
      (trySwitchOn p s).ack_container_ = s.ack_container_ ∧
      (trySwitchOn p s).semi_sync_wait_for_slave_count_ = s.semi_sync_wait_for_slave_count_ ∧
      (trySwitchOn p s).node_manager_ = s.node_manager_ ∧
      (trySwitchOn p s).semi_sync_enabled_ = s.semi_sync_enabled_ := by
  unfold trySwitchOn
  split_ifs <;> exact ⟨rfl, rfl, rfl, rfl, rfl⟩

/-- The fields `reportReplyBinlog` leaves alone, and what it does to
`wait_file_pos_`. -/
theorem reportReplyBinlog_fields (p : Nat) (s s2 : ReplSemiSyncMaster)
    (h : reportReplyBinlog p s = some s2) :
    s2.ack_container_ = s.ack_container_ ∧
      s2.semi_sync_wait_for_slave_count_ = s.semi_sync_wait_for_slave_count_ ∧
      s.wait_file_pos_ ≤ s2.wait_file_pos_ ∧
      (s.semi_sync_enabled_ = true → s2.wait_file_pos_ = max s.wait_file_pos_ p) := by
  unfold reportReplyBinlog at h
  by_cases he : (!s.IsSemiSyncEnabled) = true
  · rw [if_pos he] at h
    cases h
    refine ⟨rfl, rfl, Nat.le_refl _, fun hen => ?_⟩
    simp [IsSemiSyncEnabled, hen] at he
  · rw [if_neg he] at h
    simp only at h
    have hfr : (if (!s.IsOn) = true then trySwitchOn p s else s).wait_file_pos_
          = s.wait_file_pos_ ∧
        (if (!s.IsOn) = true then trySwitchOn p s else s).ack_container_ = s.ack_container_ ∧
        (if (!s.IsOn) = true then trySwitchOn p s else s).semi_sync_wait_for_slave_count_
          = s.semi_sync_wait_for_slave_count_ := by
      have := trySwitchOn_fields p s
      split
      · exact ⟨this.1, this.2.1, this.2.2.1⟩
      · exact ⟨rfl, rfl, rfl⟩
    generalize (if (!s.IsOn) = true then trySwitchOn p s else s) = s1 at h hfr
    obtain ⟨hw, ha, hc⟩ := hfr
    cases hn : s1.node_manager_ with
    | none =>
      simp only [hn] at h
      cases h
    | some reg =>
      simp only [hn] at h
      by_cases hp : p > s1.wait_file_pos_
      · rw [if_pos hp] at h
        cases h
        refine ⟨ha, hc, ?_, fun _ => ?_⟩
        · show s.wait_file_pos_ ≤ p
          omega
        · show p = max s.wait_file_pos_ p
          rw [Nat.max_eq_right (by omega)]
      · rw [if_neg hp] at h
        cases h
        refine ⟨ha, hc, ?_, fun _ => ?_⟩
        · show s.wait_file_pos_ ≤ s1.wait_file_pos_
          omega
        · show s1.wait_file_pos_ = max s.wait_file_pos_ p
          rw [Nat.max_eq_left (by omega)]
          exact hw

theorem reportReplyBinlog_isSome (p : Nat) (s : ReplSemiSyncMaster) (reg : List WaitingNode)
    (hreg : s.node_manager_ = some reg) : ∃ s2, reportReplyBinlog p s = some s2 := by
  unfold reportReplyBinlog
  by_cases he : (!s.IsSemiSyncEnabled) = true
  · rw [if_pos he]
    exact ⟨s, rfl⟩
  · rw [if_neg he]
    have hnm : (if (!s.IsOn) = true then trySwitchOn p s else s).node_manager_ = some reg := by
      split
      · rw [(trySwitchOn_fields p s).2.2.2.1]
        exact hreg
      · exact hreg
    simp only [hnm]
    split_ifs <;> exact ⟨_, rfl⟩

theorem HandleAck_quorum1_step (id : Int) (p : Nat) (s : ReplSemiSyncMaster)
    (reg : List WaitingNode) (he : s.semi_sync_enabled_ = true)
    (hq : s.semi_sync_wait_for_slave_count_ = 1) (hreg : s.node_manager_ = some reg) :
    ∃ s2, HandleAck id p s = some s2 ∧ HandleAck id p s = reportReplyBinlog p s ∧
      s2.ack_container_ = s.ack_container_ ∧
      s2.wait_file_pos_ = max s.wait_file_pos_ p ∧
      s2.semi_sync_enabled_ = true ∧ s2.semi_sync_wait_for_slave_count_ = 1 ∧
      s2.node_manager_ = some reg := by
  have hH : HandleAck id p s = reportReplyBinlog p s := by
    unfold HandleAck
    rw [if_pos hq]
  obtain ⟨s2, hs2⟩ := reportReplyBinlog_isSome p s reg hreg
  obtain ⟨h1, h2, _, h4⟩ := reportReplyBinlog_fields p s s2 hs2
  obtain ⟨h5, h6⟩ := reportReplyBinlog_frame p s s2 hs2
  exact ⟨s2, hH.trans hs2, hH, h1, h4 he, h6.trans he, h2.trans hq, h5.trans hreg⟩

theorem runHandleAcks_append (calls : List (Int × Nat)) (id : Int) (p : Nat)
    (s s2 : ReplSemiSyncMaster) (h : runHandleAcks calls s = some s2) :
    runHandleAcks (calls ++ [(id, p)]) s = HandleAck id p s2 := by
  induction calls generalizing s with
  | nil =>
    simp only [runHandleAcks, Option.some.injEq] at h
    subst h
    simp only [List.nil_append, runHandleAcks]
    cases HandleAck id p s <;> rfl
  | cons c t ih =>
    simp only [runHandleAcks] at h
    simp only [List.cons_append, runHandleAcks]
    cases hc : HandleAck c.1 c.2 s with
    | none =>
      rw [hc] at h
      cases h
    | some s1 =>
      rw [hc] at h
      exact ih s1 h

theorem runHandleAcks_quorum1 (calls : List (Int × Nat)) (s : ReplSemiSyncMaster)
    (reg : List WaitingNode) (he : s.semi_sync_enabled_ = true)
    (hq : s.semi_sync_wait_for_slave_count_ = 1) (hreg : s.node_manager_ = some reg) :
    ∃ s2, runHandleAcks calls s = some s2 ∧ s2.ack_container_ = s.ack_container_ ∧
      s2.semi_sync_enabled_ = true ∧ s2.semi_sync_wait_for_slave_count_ = 1 ∧
      s2.node_manager_ = some reg := by
  induction calls generalizing s with
  | nil => exact ⟨s, rfl, rfl, he, hq, hreg⟩
  | cons c t ih =>
    obtain ⟨s1, h1, _, ha, _, he1, hq1, hreg1⟩ := HandleAck_quorum1_step c.1 c.2 s reg he hq hreg
    obtain ⟨s2, h2, ha2, he2, hq2, hreg2⟩ := ih s1 he1 hq1 hreg1
    refine ⟨s2, ?_, ha2.trans ha, he2, hq2, hreg2⟩
    simp only [runHandleAcks, h1]
    exact h2

/-- C11 as stated fails: with quorum size 1 and `wait_file_pos_ = 0`, after
`HandleAck(1, 10)` then `HandleAck(1, 5)` the value of `wait_file_pos_` is 10, not
the position 5 of the latest ack. -/
theorem HandleAck_quorum1_counterexample :
    (runHandleAcks [(1, 10), (1, 5)]
        { sample true true 0 0 [] with semi_sync_wait_for_slave_count_ := 1 }).map
      (fun s2 => s2.wait_file_pos_) = some 10 ∧ (10 : Nat) ≠ 5 := by
  decide

/-- C11, amended. Quorum = 1 fast path: on an enabled coordinator with quorum
size 1 (registry allocated), for every sequence of `HandleAck` calls followed by
one more call `HandleAck(replicaId, pos)`, that call is the ack-report procedure
on `pos`, the tracker is as it was before the sequence, and `wait_file_pos_`
after the call is the larger of its value before the call and `pos`. -/
theorem HandleAck_quorum1 (calls : List (Int × Nat)) (id : Int) (p : Nat)
    (s : ReplSemiSyncMaster) (reg : List WaitingNode) (he : s.semi_sync_enabled_ = true)
    (hq : s.semi_sync_wait_for_slave_count_ = 1) (hreg : s.node_manager_ = some reg) :
    ∃ s2 s3, runHandleAcks calls s = some s2 ∧
      runHandleAcks (calls ++ [(id, p)]) s = some s3 ∧
      HandleAck id p s2 = reportReplyBinlog p s2 ∧ HandleAck id p s2 = some s3 ∧
      s3.ack_container_ = s.ack_container_ ∧
      s3.wait_file_pos_ = max s2.wait_file_pos_ p := by
  obtain ⟨s2, h2, ha2, he2, hq2, hreg2⟩ := runHandleAcks_quorum1 calls s reg he hq hreg
  obtain ⟨s3, h3, hrep, ha3, hw3, _, _, _⟩ := HandleAck_quorum1_step id p s2 reg he2 hq2 hreg2
  exact ⟨s2, s3, h2, (runHandleAcks_append calls id p s s2 h2).trans h3, hrep, h3,
    ha3.trans ha2, hw3⟩

/-- Witness of C11 (amended): quorum size 1, acks 10 then 20. -/
theorem HandleAck_quorum1_witness :
    ∃ s2 s3, runHandleAcks [(1, 10)]
          { sample true true 0 0 [] with semi_sync_wait_for_slave_count_ := 1 } = some s2 ∧
      runHandleAcks ([(1, 10)] ++ [(2, 20)])
          { sample true true 0 0 [] with semi_sync_wait_for_slave_count_ := 1 } = some s3 ∧
      HandleAck 2 20 s2 = reportReplyBinlog 20 s2 ∧ HandleAck 2 20 s2 = some s3 ∧
      s3.ack_container_ =
        ({ sample true true 0 0 [] with
            semi_sync_wait_for_slave_count_ := 1 } : ReplSemiSyncMaster).ack_container_ ∧
      s3.wait_file_pos_ = max s2.wait_file_pos_ 20 :=
  HandleAck_quorum1 [(1, 10)] 2 20
    { sample true true 0 0 [] with semi_sync_wait_for_slave_count_ := 1 } [] rfl rfl rfl

theorem switchOff_effect (s s2 : ReplSemiSyncMaster) (h : switchOff s = some s2) :
    s2.wait_file_pos_ = 0 ∧ s2.state_ = false ∧
      s2.slave_threads_ = s.slave_threads_ := by
  unfold switchOff at h
  cases hn : s.node_manager_ with
  | none =>
    simp only [hn] at h
    cases h
  | some reg =>
    simp only [hn] at h
    cases h
    exact ⟨rfl, rfl, rfl⟩

theorem EnableMaster_wait (s : ReplSemiSyncMaster) :
    (EnableMaster s).2.wait_file_pos_ = s.wait_file_pos_ := by
  unfold EnableMaster setSemiSyncEnabled
  simp only
  split_ifs <;> rfl

theorem HandleAck_wait (id : Int) (p : Nat) (s s2 : ReplSemiSyncMaster)
    (h : HandleAck id p s = some s2) : s.wait_file_pos_ ≤ s2.wait_file_pos_ := by
  unfold HandleAck at h
  by_cases hq : s.semi_sync_wait_for_slave_count_ = 1
  · rw [if_pos hq] at h
    exact (reportReplyBinlog_fields p s s2 h).2.2.1
  · rw [if_neg hq] at h
    simp only at h
    cases hr : (AckContainer.Insert id p s.ack_container_).1 with
    | none =>
      simp only [hr] at h
      cases h
      exact Nat.le_refl _
    | some ack =>
      simp only [hr] at h
      have hf := reportReplyBinlog_fields _ _ s2 h
      exact hf.2.2.1

theorem SetWaitSlaveCount_wait (n : Nat) (s : ReplSemiSyncMaster)
    (r : Bool × ReplSemiSyncMaster) (h : SetWaitSlaveCount n s = some r) :
    s.wait_file_pos_ ≤ r.2.wait_file_pos_ := by
  unfold SetWaitSlaveCount at h
  simp only at h
  generalize (if n = 0 then s.slave_threads_.length / 2 + 1 else n) = nv at h
  by_cases hr : (Resize nv s.ack_container_).1 = true
  · rw [if_pos hr] at h
    cases ha : (Resize nv s.ack_container_).2.1 with
    | none =>
      simp only [ha] at h
      cases h
      exact Nat.le_refl _
    | some ackinfo =>
      simp only [ha] at h
      cases hrep : reportReplyBinlog ackinfo.log_pos
          { s with ack_container_ := (Resize nv s.ack_container_).2.2 } with
      | none =>
        simp only [hrep] at h
        cases h
      | some s3 =>
        simp only [hrep] at h
        cases h
        have hf := reportReplyBinlog_fields _ _ s3 hrep
        exact hf.2.2.1
  · rw [if_neg hr] at h
    cases h
    exact Nat.le_refl _

theorem RemoveSlave_cases (t : FeedSlaveThread) (s s2 : ReplSemiSyncMaster)
    (h : RemoveSlave (some t) s = some s2) :
    s2.slave_threads_ = s.slave_threads_.filter (fun u => decide (u.addr ≠ t.addr)) ∧
      s2.semi_sync_enabled_ = s.semi_sync_enabled_ ∧
      (removalSwitchesOff t s → s2.wait_file_pos_ = 0 ∧ s2.state_ = false) ∧
      (¬ removalSwitchesOff t s →
        s2.wait_file_pos_ = s.wait_file_pos_ ∧ s2.state_ = s.state_) := by
  unfold RemoveSlave at h
  simp only at h
  unfold removalSwitchesOff
  by_cases h1 : (!s.semi_sync_enabled_ || !s.state_) = true
  · simp only [IsSemiSyncEnabled, IsOn, h1, if_true] at h
    cases h
    refine ⟨rfl, rfl, fun hsw => ?_, fun _ => ⟨rfl, rfl⟩⟩
    obtain ⟨he, hon, _⟩ := hsw
    simp [he, hon] at h1
  · simp only [IsSemiSyncEnabled, IsOn, h1, if_false] at h
    have he : s.semi_sync_enabled_ = true := by
      cases hh : s.semi_sync_enabled_
      · simp [hh] at h1
      · rfl
    have hon : s.state_ = true := by
      cases hh : s.state_
      · simp [hh] at h1
      · rfl
    by_cases h2 : (s.slave_threads_.filter (fun u => decide (u.addr ≠ t.addr))).length
        < s.semi_sync_wait_for_slave_count_
    · rw [if_pos h2] at h
      have hfr := switchOff_frame _ s2 h
      have hef := switchOff_effect _ s2 h
      exact ⟨hef.2.2, hfr.2, fun _ => ⟨hef.1, hef.2.1⟩, fun hn => absurd ⟨he, hon, h2⟩ hn⟩
    · rw [if_neg h2] at h
      cases h
      exact ⟨rfl, rfl, fun hsw => absurd hsw.2.2 h2, fun _ => ⟨rfl, rfl⟩⟩

theorem CommitTrxPark_wait (pos : Nat) (s : ReplSemiSyncMaster) :
    (∀ n s1, CommitTrxPark pos s = .parked n s1 → s1.wait_file_pos_ = s.wait_file_pos_) ∧
      (∀ s1, CommitTrxPark pos s = .not_waited s1 → s1 = s) ∧
      (∀ s1, CommitTrxPark pos s ≠ .lookup_miss s1) := by
  rcases CommitTrxPark_inv pos s with h1 | h1 | ⟨reg, node, _, _, h1⟩
  · rw [h1]
    refine ⟨fun n s1 h => ?_, fun s1 h => ?_, fun s1 h => ?_⟩
    · cases h
    · cases h
      rfl
    · cases h
  · rw [h1]
    refine ⟨fun n s1 h => ?_, fun s1 h => ?_, fun s1 h => ?_⟩ <;> cases h
  · rw [h1]
    refine ⟨fun n s1 h => ?_, fun s1 h => ?_, fun s1 h => ?_⟩
    · injection h with _ hs1
      rw [← hs1]
    · cases h
    · cases h

theorem CommitTrxResume_wait (cause : cv_status) (pos n : Nat) (s : ReplSemiSyncMaster)
    (r : Bool × ReplSemiSyncMaster) (h : CommitTrxResume cause pos n s = some r) :
    r.1 = true ∧
      (cause = cv_status.no_timeout →
        r.2.wait_file_pos_ = s.wait_file_pos_ ∧ r.2.state_ = s.state_) ∧
      (cause = cv_status.timeout → r.2.wait_file_pos_ = 0 ∧ r.2.state_ = false) := by
  unfold CommitTrxResume at h
  cases hn : s.node_manager_ with
  | none =>
    simp only [hn] at h
    cases h
  | some reg =>
    simp only [hn] at h
    cases hf : setFind n reg with
    | none =>
      simp only [hf] at h
      cases h
    | some node =>
      simp only [hf] at h
      cases cause with
      | no_timeout =>
        simp only [reduceCtorEq, if_false] at h
        split_ifs at h <;> cases h <;>
          exact ⟨rfl, fun _ => ⟨rfl, rfl⟩, fun hc => (by cases hc)⟩
      | timeout =>
        simp only [if_true, switchOff] at h
        split_ifs at h <;> cases h <;>
          exact ⟨rfl, fun hc => (by cases hc), fun _ => ⟨rfl, rfl⟩⟩

/-- C12 as stated fails: in Sync mode with `wait_file_pos_ = 5`, a `CommitTrx(7)`
whose wait times out leaves `wait_file_pos_ = 0`; and a `RemoveSlave` that leaves
fewer replicas than the quorum does the same. -/
theorem wait_file_pos_monotone_counterexample :
    (CommitTrx 7 (fun s1 => (cv_status.timeout, s1)) (sample true true 5 0 [])).map
        (fun r => r.2.wait_file_pos_) = some 0 ∧
      (RemoveSlave (some ⟨1, true⟩) (sample true true 5 0 [])).map
        (fun s2 => s2.wait_file_pos_) = some 0 ∧
      (sample true true 5 0 []).wait_file_pos_ = 5 ∧ ¬ (5 ≤ 0) := by
  decide

/-- C12, amended. `wait_file_pos_` does not decrease across `EnableMaster`,
`AddSlave`, `SetWaitSlaveCount`, `HandleAck`, a `RemoveSlave` that does not switch
the coordinator off, and the steps of a `CommitTrx` whose wait is ended by a
signal; the two paths that call `switchOff` (`RemoveSlave` in Sync mode leaving
fewer replicas than the quorum size, and the timeout path of `CommitTrx`) set it
to 0. -/
theorem wait_file_pos_monotone (s : ReplSemiSyncMaster) :
    (EnableMaster s).2.wait_file_pos_ = s.wait_file_pos_ ∧
      (∀ t s2, AddSlave t s = some s2 → s2.wait_file_pos_ = s.wait_file_pos_) ∧
      (∀ n r, SetWaitSlaveCount n s = some r → s.wait_file_pos_ ≤ r.2.wait_file_pos_) ∧
      (∀ id p s2, HandleAck id p s = some s2 → s.wait_file_pos_ ≤ s2.wait_file_pos_) ∧
      (∀ t s2, RemoveSlave (some t) s = some s2 →
        (¬ removalSwitchesOff t s → s2.wait_file_pos_ = s.wait_file_pos_) ∧
          (removalSwitchesOff t s → s2.wait_file_pos_ = 0)) ∧
      (∀ pos n s1, CommitTrxPark pos s = .parked n s1 →
        s1.wait_file_pos_ = s.wait_file_pos_) ∧
      (∀ pos s1, CommitTrxPark pos s = .not_waited s1 → s1 = s) ∧
      (∀ pos n r, CommitTrxResume cv_status.no_timeout pos n s = some r →
        r.2.wait_file_pos_ = s.wait_file_pos_) ∧
      (∀ pos n r, CommitTrxResume cv_status.timeout pos n s = some r →
        r.2.wait_file_pos_ = 0) := by
  refine ⟨EnableMaster_wait s, ?_, fun n r h => SetWaitSlaveCount_wait n s r h,
    fun id p s2 h => HandleAck_wait id p s s2 h, ?_, fun pos n s1 h => ?_, fun pos s1 h => ?_,
    fun pos n r h => ?_, fun pos n r h => ?_⟩
  · intro t s2 h
    unfold AddSlave at h
    split at h
    · cases h
    · cases h
      rfl
  · intro t s2 h
    have hc := RemoveSlave_cases t s s2 h
    exact ⟨fun hn => (hc.2.2.2 hn).1, fun hsw => (hc.2.2.1 hsw).1⟩
  · exact (CommitTrxPark_wait pos s).1 n s1 h
  · exact (CommitTrxPark_wait pos s).2.1 s1 h
  · exact ((CommitTrxResume_wait _ pos n s r h).2.1 rfl).1
  · exact ((CommitTrxResume_wait _ pos n s r h).2.2 rfl).1

/-- Witness of C12 (amended): with `wait_file_pos_ = 5`, `HandleAck(1, 3)` keeps
5, a resume after a signal keeps 5, and a resume after a timeout gives 0. -/
theorem wait_file_pos_monotone_witness :
    (∀ s2, HandleAck 1 3 (sample true true 5 0 [⟨7, 1⟩]) = some s2 →
        (sample true true 5 0 [⟨7, 1⟩]).wait_file_pos_ ≤ s2.wait_file_pos_) ∧
      (∀ r, CommitTrxResume cv_status.no_timeout 7 7 (sample true true 5 0 [⟨7, 1⟩]) = some r →
        r.2.wait_file_pos_ = (sample true true 5 0 [⟨7, 1⟩]).wait_file_pos_) ∧
      (∀ r, CommitTrxResume cv_status.timeout 7 7 (sample true true 5 0 [⟨7, 1⟩]) = some r →
        r.2.wait_file_pos_ = 0) ∧
      (CommitTrxResume cv_status.timeout 7 7 (sample true true 5 0 [⟨7, 1⟩])).isSome = true :=
  ⟨(wait_file_pos_monotone (sample true true 5 0 [⟨7, 1⟩])).2.2.2.1 1 3,
   (wait_file_pos_monotone (sample true true 5 0 [⟨7, 1⟩])).2.2.2.2.2.2.2.1 7 7,
   (wait_file_pos_monotone (sample true true 5 0 [⟨7, 1⟩])).2.2.2.2.2.2.2.2 7 7,
   by decide⟩

/-! ## Membership -/

theorem RemoveSlave_isSome (t : FeedSlaveThread) (s : ReplSemiSyncMaster)
    (reg : List WaitingNode) (hreg : s.node_manager_ = some reg) :
    ∃ s2, RemoveSlave (some t) s = some s2 := by
  unfold RemoveSlave
  simp only
  split_ifs
  · exact ⟨_, rfl⟩
  · simp only [switchOff, hreg]
    exact ⟨_, rfl⟩
  · exact ⟨_, rfl⟩

/-- C13. `RemoveSlave` quorum loss: on an enabled coordinator in Sync mode
(registry allocated), `RemoveSlave` of a non-null handle removes it from the live
set; afterwards the coordinator is in Async mode if fewer live replicas remain
than the quorum size, and still in Sync mode otherwise. -/
theorem RemoveSlave_quorum_loss (s : ReplSemiSyncMaster) (t : FeedSlaveThread)
    (reg : List WaitingNode) (he : s.semi_sync_enabled_ = true) (hon : s.state_ = true)
    (hreg : s.node_manager_ = some reg) :
    ∃ s2, RemoveSlave (some t) s = some s2 ∧
      s2.slave_threads_ = s.slave_threads_.filter (fun u => decide (u.addr ≠ t.addr)) ∧
      s2.semi_sync_enabled_ = true ∧
      (s2.slave_threads_.length < s.semi_sync_wait_for_slave_count_ → s2.state_ = false) ∧
      (s.semi_sync_wait_for_slave_count_ ≤ s2.slave_threads_.length → s2.state_ = true) := by
  obtain ⟨s2, h⟩ := RemoveSlave_isSome t s reg hreg
  obtain ⟨h1, h2, h3, h4⟩ := RemoveSlave_cases t s s2 h
  refine ⟨s2, h, h1, h2.trans he, fun hlt => ?_, fun hge => ?_⟩
  · rw [h1] at hlt
    exact (h3 ⟨he, hon, hlt⟩).2
  · rw [h1] at hge
    have hn : ¬ removalSwitchesOff t s := fun hsw => by
      have := hsw.2.2
      omega
    exact (h4 hn).2.trans hon

/-- Witness of C13: quorum size 2 in Sync mode; with live replicas 1, 2, 3 the
removal of 3 leaves two and the mode stays Sync; with live replicas 1, 2 the
removal of 2 leaves one and the mode becomes Async. -/
theorem RemoveSlave_quorum_loss_witness :
    (∃ s2, RemoveSlave (some ⟨3, true⟩)
          { sample true true 0 0 [] with
            slave_threads_ := [⟨1, true⟩, ⟨2, true⟩, ⟨3, true⟩] } = some s2 ∧
        s2.slave_threads_ = [⟨1, true⟩, ⟨2, true⟩] ∧ s2.state_ = true) ∧
      (∃ s2, RemoveSlave (some ⟨2, true⟩)
          { sample true true 0 0 [] with
            slave_threads_ := [⟨1, true⟩, ⟨2, true⟩] } = some s2 ∧
        s2.slave_threads_ = [⟨1, true⟩] ∧ s2.state_ = false) := by
  obtain ⟨s2, h, h1, _, _, h4⟩ := RemoveSlave_quorum_loss
    { sample true true 0 0 [] with slave_threads_ := [⟨1, true⟩, ⟨2, true⟩, ⟨3, true⟩] }
    ⟨3, true⟩ [] rfl rfl rfl
  obtain ⟨s3, g, g1, _, g3, _⟩ := RemoveSlave_quorum_loss
    { sample true true 0 0 [] with slave_threads_ := [⟨1, true⟩, ⟨2, true⟩] }
    ⟨2, true⟩ [] rfl rfl rfl
  have e1 : s2.slave_threads_ = [⟨1, true⟩, ⟨2, true⟩] := by
    rw [h1]
    decide
  have e2 : s3.slave_threads_ = [⟨1, true⟩] := by
    rw [g1]
    decide
  refine ⟨⟨s2, h, e1, h4 ?_⟩, ⟨s3, g, e2, g3 ?_⟩⟩
  · rw [e1]
    decide
  · rw [e2]
    decide

/-- C17. The handle test of `AddSlave` and `RemoveSlave` (lines 235 and 244)
does not reject a handle without connection: a non-null handle with no
connection is added to the live replica set by `AddSlave`, and `RemoveSlave` of
such a handle removes it; for a null handle the test dereferences the pointer. -/
theorem AddSlave_accepts_handle_without_conn :
    (AddSlave (some ⟨7, false⟩) (sample true true 0 0 [])).map (fun s2 => s2.slave_threads_)
        = some [⟨7, false⟩] ∧
      (RemoveSlave (some ⟨7, false⟩)
          { sample true false 0 0 [] with slave_threads_ := [⟨7, false⟩, ⟨8, true⟩] }).map
        (fun s2 => s2.slave_threads_) = some [⟨8, true⟩] ∧
      AddSlave none (sample true true 0 0 []) = none ∧
      RemoveSlave none (sample true true 0 0 []) = none := by
  decide

/-- C18. `DisableMaster` releases the registry whatever the waiter counts: with
a thread parked on the node of position 7 (one waiter), after `DisableMaster` the
registry is gone, so the node is no longer registered and the resume step of
the parked thread has no node to go back to. -/
theorem DisableMaster_drops_parked_node :
    CommitTrxPark 7 (sample true true 0 0 []) = .parked 7 (sample true true 0 0 [⟨7, 1⟩]) ∧
      (DisableMaster (sample true true 0 0 [⟨7, 1⟩])).map (fun r => r.2.node_manager_)
        = some none ∧
      (DisableMaster (sample true true 0 0 [⟨7, 1⟩])).bind
        (fun r => CommitTrxResume cv_status.no_timeout 7 7 r.2) = none ∧
      (DisableMaster (sample true true 0 0 [⟨7, 1⟩])).isSome = true := by
  decide

end SemiSync
